import Mathlib

/-!
Verification of the matching engine in `match.py`: the Hopcroft–Karp maximum
bipartite matching algorithm (`hopcroft_karp`) and the student pair matcher
built on top of it (`match_student_pairs`).

Python dictionaries are modelled as association lists (`alookup` / `aset`),
which reproduces insertion-ordered iteration and in-place key update.  The
`dist` dictionary, which is only ever read pointwise with an infinite default,
is modelled as a total function `Option Nat → ℕ∞` (the key `None` used by the
algorithm as the sentinel right endpoint is the `none` of `Option Nat`, and
`float('inf')` is `⊤ : ℕ∞`, which satisfies `⊤ + 1 = ⊤` just like the float).
The unbounded loops (the BFS queue loop, the recursive DFS, and the outer
round loop) are given explicit fuel; termination of the Python code
corresponds to the proved fact that with the fuel supplied by the top-level
entry points, the run completes (`hopcroft_karp` returns `some`).
-/

set_option maxHeartbeats 1000000

namespace Matching

/-- Association-list lookup, mirroring Python `d.get(k)` (first binding wins;
the lists below always have pairwise-distinct keys, like a Python dict). -/
def alookup {α β : Type} [DecidableEq α] : List (α × β) → α → Option β
  | [], _ => none
  | (k, v) :: t, x => if k = x then some v else alookup t x

/-- Association-list write, mirroring Python `d[k] = v`: update the binding in
place if the key is present (keeping its position, as Python dicts do),
otherwise append the new binding at the end. -/
def aset {α β : Type} [DecidableEq α] : List (α × β) → α → β → List (α × β)
  | [], x, y => [(x, y)]
  | (k, v) :: t, x, y => if k = x then (x, y) :: t else (k, v) :: aset t x y

/-- The `dist` dictionary of `hopcroft_karp`: keys are left nodes (`some u`)
together with the sentinel `None` (`none`); a missing key reads as infinity. -/
def Dist : Type := Option Nat → ℕ∞

/-- Pointwise update of the distance map (`dist[x] = n`). -/
def dupd (d : Dist) (x : Option Nat) (n : ℕ∞) : Dist :=
  fun y => if y = x then n else d y

/-- The mutable state of one `hopcroft_karp` run: `match_left`, `match_right`
and `dist` from the Python code. -/
structure HKst where
  mL : List (Nat × Nat)
  mR : List (Nat × Nat)
  dist : Dist

/-- The inner `for v in graph[u]` loop of `bfs` (lines 28–32 of `match.py`):
scan the adjacency of the dequeued left node `u`, give every partner
`u_prime = match_right.get(v, None)` still at infinite distance the distance
`dist[u] + 1`, and collect such partners in queue order. -/
def bfsScan (mR : List (Nat × Nat)) (u : Nat) :
    List Nat → Dist → Dist × List (Option Nat)
  | [], d => (d, [])
  | v :: vs, d =>
    if d (alookup mR v) = ⊤ then
      let p := bfsScan mR u vs (dupd d (alookup mR v) (d (some u) + 1))
      (p.1, alookup mR v :: p.2)
    else
      bfsScan mR u vs d

/-- The initialisation loop of `bfs` (lines 18–23): unmatched left nodes get
distance `0` and are enqueued in order, matched ones get infinity. -/
def bfsInit (mL : List (Nat × Nat)) : List Nat → Dist → Dist × List (Option Nat)
  | [], d => (d, [])
  | u :: us, d =>
    if alookup mL u = none then
      let p := bfsInit mL us (dupd d (some u) 0)
      (p.1, some u :: p.2)
    else
      bfsInit mL us (dupd d (some u) ⊤)

/-- The `while queue` loop of `bfs` (lines 25–32), with explicit fuel.  A
dequeued node is scanned when `dist[u] < dist[None]` holds; the sentinel
`none` never satisfies the guard.  Returns the final distance map, or `none`
if the fuel runs out (proved impossible for the fuel used below). -/
def bfsLoop (g : Nat → List Nat) (mR : List (Nat × Nat)) :
    ℕ → List (Option Nat) → Dist → Option Dist
  | 0, _, _ => none
  | _ + 1, [], d => some d
  | fuel + 1, none :: rest, d => bfsLoop g mR fuel rest d
  | fuel + 1, some u :: rest, d =>
    if d (some u) < d none then
      bfsLoop g mR fuel (rest ++ (bfsScan mR u (g u) d).2) (bfsScan mR u (g u) d).1
    else
      bfsLoop g mR fuel rest d

/-- The `bfs` phase (lines 16–33): initialise distances, set `dist[None]` to
infinity, run the queue loop, and report whether the sentinel was reached
(`dist[None] != INF`). -/
def bfs (g : Nat → List Nat) (L : List Nat) (s : HKst) : Option (HKst × Bool) :=
  match bfsLoop g s.mR (2 * L.length + 2) (bfsInit s.mL L s.dist).2
      (dupd (bfsInit s.mL L s.dist).1 none ⊤) with
  | none => none
  | some d3 => some (⟨s.mL, s.mR, d3⟩, decide (d3 none ≠ ⊤))

/-- The body of the `for v in graph[u]` loop of `dfs` (lines 37–44),
parametrised by the recursive call at smaller fuel.  On a successful
recursive call the matching is extended with `match_left[u] = v` and
`match_right[v] = u` and the scan stops; on failure the scan continues with
the mutated state; when the adjacency is exhausted, `dist[u]` is set to
infinity and the call fails. -/
def dfsScan (dfsF : Option Nat → HKst → Option (Bool × HKst)) (u : Nat) :
    List Nat → HKst → Option (Bool × HKst)
  | [], s => some (false, ⟨s.mL, s.mR, dupd s.dist (some u) ⊤⟩)
  | v :: vs, s =>
    if s.dist (alookup s.mR v) = s.dist (some u) + 1 then
      match dfsF (alookup s.mR v) s with
      | none => none
      | some (true, s') =>
        some (true, ⟨aset s'.mL u v, aset s'.mR v u, s'.dist⟩)
      | some (false, s') => dfsScan dfsF u vs s'
    else
      dfsScan dfsF u vs s

/-- The recursive `dfs` of `hopcroft_karp` (lines 35–45), with explicit fuel:
`dfs(None)` succeeds immediately, `dfs(u)` scans `graph[u]`. -/
def dfs (g : Nat → List Nat) : ℕ → Option Nat → HKst → Option (Bool × HKst)
  | 0, _, _ => none
  | _ + 1, none, s => some (true, s)
  | fuel + 1, some u, s => dfsScan (dfs g fuel) u (g u) s

/-- The augmenting loop of one round (lines 49–52): try a DFS from every
currently unmatched left node, in `left_nodes` order. -/
def dfsPhase (g : Nat → List Nat) (fuelD : ℕ) :
    List Nat → HKst → Option HKst
  | [], s => some s
  | u :: us, s =>
    if alookup s.mL u = none then
      match dfs g fuelD (some u) s with
      | none => none
      | some (_, s') => dfsPhase g fuelD us s'
    else
      dfsPhase g fuelD us s

/-- The outer `while bfs()` loop of `hopcroft_karp` (lines 48–52), with
explicit round fuel. -/
def hkLoop (g : Nat → List Nat) (L : List Nat) : ℕ → HKst → Option HKst
  | 0, _ => none
  | fuel + 1, s =>
    match bfs g L s with
    | none => none
    | some (s', false) => some s'
    | some (s', true) =>
      match dfsPhase g (L.length + 1) L s' with
      | none => none
      | some s'' => hkLoop g L fuel s''

/-- `hopcroft_karp(graph, left_nodes)` (lines 4–54): starting from empty
matchings and an empty distance dictionary, run BFS+DFS rounds until the BFS
finds no augmenting path, and return `match_left`.  `graph` is the mapping
from each left node to its adjacency list (missing nodes map to `[]`, as with
the `defaultdict` used by the caller).  The result is `none` exactly when the
fuel is exhausted, which is proved not to happen. -/
def hopcroft_karp (g : Nat → List Nat) (L : List Nat) :
    Option (List (Nat × Nat)) :=
  (hkLoop g L (L.length + 1) ⟨[], [], fun _ => ⊤⟩).map HKst.mL

/-- One student record of `match_student_pairs`:
`(student_id, current_group, desired_group, accept_teammate_swap,
teammate_student_id)`. -/
structure SRec where
  sid : Nat
  cur : Nat
  des : Nat
  flex : Bool
  mate : Option Nat
deriving DecidableEq

/-- One step of the partitioning loop (lines 74–80): a student with
`current_group == desired_group` is skipped, any other student is appended to
the bucket of their `(current_group, desired_group)` pair. -/
def swapStep (sw : List ((Nat × Nat) × List SRec)) (r : SRec) :
    List ((Nat × Nat) × List SRec) :=
  if r.cur = r.des then sw
  else aset sw (r.cur, r.des) (((alookup sw (r.cur, r.des)).getD []) ++ [r])

/-- The partitioning loop of `match_student_pairs` (lines 74–80).  Buckets
are an insertion-ordered dictionary from group pairs to record lists. -/
def buildSwaps (students : List SRec) : List ((Nat × Nat) × List SRec) :=
  students.foldl swapStep []

/-- The eligibility test of lines 112–118: an edge from `ri` (in `U`) to `rj`
(in `V`) is valid iff each non-flexible side names the other as its teammate.
Note `teammate_i != student_j` compares an optional id with an id, so a
missing teammate id never equals a student id. -/
def edgeOK (ri rj : SRec) : Bool :=
  (ri.flex || ri.mate = some rj.sid) && (rj.flex || rj.mate = some ri.sid)

/-- The adjacency list appended for one left record (lines 107–120): the ids
of the `V` records passing the eligibility test, in `V` order. -/
def buildAdj (ri : SRec) (V : List SRec) : List Nat :=
  (V.filter (fun rj => edgeOK ri rj)).map SRec.sid

/-- One step of the graph-building loop (lines 103–120): a left record
appends its valid partners to the `defaultdict(list)` entry of its id. -/
def graphStep (V : List SRec) (gr : List (Nat × List Nat)) (ri : SRec) :
    List (Nat × List Nat) :=
  aset gr ri.sid (((alookup gr ri.sid).getD []) ++ buildAdj ri V)

/-- The graph-building loop of lines 101–120: a `defaultdict(list)` keyed by
left student id, each left record appending its valid partners. -/
def buildGraph (U V : List SRec) : List (Nat × List Nat) :=
  U.foldl (graphStep V) []

/-- The adjacency function handed to `hopcroft_karp` (a `defaultdict` reads
`[]` at absent keys). -/
def graphFun (gr : List (Nat × List Nat)) : Nat → List Nat :=
  fun u => (alookup gr u).getD []

/-- The main loop of `match_student_pairs` over `list(swaps.keys())`
(lines 87–137): skip already-processed pairs, skip pairs with no
reverse-direction bucket, otherwise build the bipartite graph, run
Hopcroft–Karp, and append each matched edge as a sorted id pair. -/
def mspLoop (swaps : List ((Nat × Nat) × List SRec)) :
    List (Nat × Nat) → List (Nat × Nat) → List (Nat × Nat) →
    Option (List (Nat × Nat))
  | [], _, acc => some acc
  | k :: ks, proc, acc =>
    if k ∈ proc then
      mspLoop swaps ks proc acc
    else
      match alookup swaps (k.2, k.1) with
      | none => mspLoop swaps ks (k :: proc) acc
      | some V =>
        if ((alookup swaps k).getD []).map SRec.sid = [] then
          mspLoop swaps ks ((k.2, k.1) :: k :: proc) acc
        else
          match hopcroft_karp (graphFun (buildGraph ((alookup swaps k).getD []) V))
              (((alookup swaps k).getD []).map SRec.sid) with
          | none => none
          | some m =>
            mspLoop swaps ks ((k.2, k.1) :: k :: proc)
              (acc ++ m.map (fun p => (min p.1 p.2, max p.1 p.2)))

/-- `match_student_pairs(students_info)` (lines 56–138): partition the
requests, process each group pair once, and concatenate the sorted matched
pairs.  `none` signals fuel exhaustion inside `hopcroft_karp`, which is
proved not to happen. -/
def match_student_pairs (students : List SRec) :
    Option (List (Nat × Nat)) :=
  mspLoop (buildSwaps students) ((buildSwaps students).map Prod.fst) [] []

/-! ### Association list basics -/

section AList

variable {α β : Type} [DecidableEq α]

@[simp] theorem alookup_nil (x : α) : alookup ([] : List (α × β)) x = none := rfl

theorem alookup_cons (k : α) (v : β) (t : List (α × β)) (x : α) :
    alookup ((k, v) :: t) x = if k = x then some v else alookup t x := rfl

@[simp] theorem alookup_aset_self (l : List (α × β)) (k : α) (v : β) :
    alookup (aset l k v) k = some v := by
  induction l with
  | nil => simp [aset, alookup]
  | cons p t ih =>
    obtain ⟨a, b⟩ := p
    by_cases h : a = k <;> simp [aset, alookup, h, ih]

theorem alookup_aset_ne (l : List (α × β)) (k : α) (v : β) {x : α} (h : x ≠ k) :
    alookup (aset l k v) x = alookup l x := by
  have hk : k ≠ x := Ne.symm h
  induction l with
  | nil => simp [aset, alookup_cons, hk]
  | cons p t ih =>
    obtain ⟨a, b⟩ := p
    by_cases hak : a = k
    · subst hak
      simp [aset, alookup_cons, hk]
    · simp [aset, hak, alookup_cons, ih]

theorem alookup_eq_none_iff (l : List (α × β)) (x : α) :
    alookup l x = none ↔ x ∉ l.map Prod.fst := by
  induction l with
  | nil => simp
  | cons p t ih =>
    obtain ⟨a, b⟩ := p
    by_cases h : a = x
    · subst h; simp [alookup_cons]
    · have hxa : x ≠ a := Ne.symm h
      simp [alookup_cons, h, ih, hxa]

theorem mem_of_alookup {l : List (α × β)} {a : α} {b : β}
    (h : alookup l a = some b) : (a, b) ∈ l := by
  induction l with
  | nil => simp at h
  | cons p t ih =>
    obtain ⟨k, v⟩ := p
    rw [alookup_cons] at h
    by_cases hk : k = a
    · subst hk
      rw [if_pos rfl] at h
      have hv : v = b := by injection h
      subst hv
      exact List.mem_cons_self _ _
    · rw [if_neg hk] at h
      exact List.mem_cons_of_mem _ (ih h)

theorem alookup_of_mem {l : List (α × β)} {a : α} {b : β}
    (hnd : (l.map Prod.fst).Nodup) (h : (a, b) ∈ l) : alookup l a = some b := by
  induction l with
  | nil => simp at h
  | cons p t ih =>
    obtain ⟨k, v⟩ := p
    simp only [List.map_cons, List.nodup_cons] at hnd
    rcases List.mem_cons.mp h with h | h
    · injection h with h1 h2
      subst h1; subst h2
      simp [alookup_cons]
    · have hka : k ≠ a := by
        rintro rfl
        exact hnd.1 (List.mem_map_of_mem Prod.fst h)
      rw [alookup_cons, if_neg hka]
      exact ih hnd.2 h

theorem keys_aset_mem {l : List (α × β)} {k : α} (v : β)
    (h : alookup l k ≠ none) :
    (aset l k v).map Prod.fst = l.map Prod.fst := by
  induction l with
  | nil => simp at h
  | cons p t ih =>
    obtain ⟨a, b⟩ := p
    by_cases hak : a = k
    · simp [aset, hak]
    · simp only [alookup_cons, if_neg hak] at h
      simp [aset, hak, ih h]

theorem keys_aset_none {l : List (α × β)} {k : α} (v : β)
    (h : alookup l k = none) :
    (aset l k v).map Prod.fst = l.map Prod.fst ++ [k] := by
  induction l with
  | nil => simp [aset]
  | cons p t ih =>
    obtain ⟨a, b⟩ := p
    by_cases hak : a = k
    · simp [alookup_cons, hak] at h
    · simp only [alookup_cons, if_neg hak] at h
      simp [aset, hak, ih h]

theorem mem_keys_aset {l : List (α × β)} {k x : α} (v : β) :
    x ∈ (aset l k v).map Prod.fst ↔ x ∈ l.map Prod.fst ∨ x = k := by
  by_cases h : alookup l k = none
  · simp [keys_aset_none v h]
  · rw [keys_aset_mem v h]
    constructor
    · exact Or.inl
    · rintro (hx | rfl)
      · exact hx
      · rw [alookup_eq_none_iff] at h
        exact not_not.mp h

theorem nodupkeys_aset {l : List (α × β)} {k : α} (v : β)
    (h : (l.map Prod.fst).Nodup) :
    ((aset l k v).map Prod.fst).Nodup := by
  by_cases hk : alookup l k = none
  · rw [keys_aset_none v hk]
    refine List.Nodup.append h (List.nodup_singleton _) ?_
    intro x hx hx'
    rw [List.mem_singleton] at hx'
    subst hx'
    exact (alookup_eq_none_iff l x).mp hk hx
  · rw [keys_aset_mem v hk]; exact h

theorem length_aset_mem {l : List (α × β)} {k : α} (v : β)
    (h : alookup l k ≠ none) : (aset l k v).length = l.length := by
  have := keys_aset_mem v h
  have h1 : ((aset l k v).map Prod.fst).length = (l.map Prod.fst).length := by rw [this]
  simpa using h1

theorem length_aset_none {l : List (α × β)} {k : α} (v : β)
    (h : alookup l k = none) : (aset l k v).length = l.length + 1 := by
  have := keys_aset_none v h
  have h1 : ((aset l k v).map Prod.fst).length = (l.map Prod.fst ++ [k]).length := by rw [this]
  simpa using h1

theorem snd_mem_of_alookup {l : List (α × β)} {a : α} {b : β}
    (h : alookup l a = some b) : b ∈ l.map Prod.snd :=
  List.mem_map_of_mem Prod.snd (mem_of_alookup h)

end AList

@[simp] theorem dupd_apply (d : Dist) (x y : Option Nat) (n : ℕ∞) :
    dupd d x n y = if y = x then n else d y := rfl

/-! ### BFS: scan and initialisation -/

theorem enat_lt_add_one {a : ℕ∞} (h : a ≠ ⊤) : a < a + 1 := by
  cases a with
  | top => exact absurd rfl h
  | coe n => exact_mod_cast Nat.lt_succ_self n

theorem enat_add_one_ne_top {a : ℕ∞} (h : a ≠ ⊤) : a + 1 ≠ ⊤ := by
  cases a with
  | top => exact absurd rfl h
  | coe n => exact_mod_cast WithTop.coe_ne_top

theorem bfsScan_nil (mR : List (Nat × Nat)) (u : Nat) (d : Dist) :
    bfsScan mR u [] d = (d, []) := rfl

theorem bfsScan_cons_pos (mR : List (Nat × Nat)) (u : Nat) (v : Nat)
    (vs : List Nat) (d : Dist) (hg : d (alookup mR v) = ⊤) :
    bfsScan mR u (v :: vs) d =
      ((bfsScan mR u vs (dupd d (alookup mR v) (d (some u) + 1))).1,
        alookup mR v :: (bfsScan mR u vs (dupd d (alookup mR v) (d (some u) + 1))).2) := by
  simp [bfsScan, hg]

theorem bfsScan_cons_neg (mR : List (Nat × Nat)) (u : Nat) (v : Nat)
    (vs : List Nat) (d : Dist) (hg : d (alookup mR v) ≠ ⊤) :
    bfsScan mR u (v :: vs) d = bfsScan mR u vs d := by
  simp [bfsScan, hg]

/-- Behaviour of one adjacency scan of the BFS: distances only change at
previously-infinite entries, every changed entry is enqueued with value
`dist[u] + 1` coming from an edge of `u`, after the scan every neighbour's
partner is at finite distance, and the enqueued entries are pairwise
distinct. -/
theorem bfsScan_spec (mR : List (Nat × Nat)) (u : Nat) :
    ∀ (vs : List Nat) (d : Dist), d (some u) ≠ ⊤ →
    (∀ x, d x ≠ ⊤ → (bfsScan mR u vs d).1 x = d x) ∧
    (∀ x, (bfsScan mR u vs d).1 x ≠ d x → d x = ⊤ ∧ x ∈ (bfsScan mR u vs d).2) ∧
    (∀ x ∈ (bfsScan mR u vs d).2, d x = ⊤ ∧
      (bfsScan mR u vs d).1 x = d (some u) + 1 ∧ ∃ v ∈ vs, alookup mR v = x) ∧
    (∀ v ∈ vs, (bfsScan mR u vs d).1 (alookup mR v) ≠ ⊤) ∧
    (bfsScan mR u vs d).2.Nodup := by
  intro vs
  induction vs with
  | nil =>
    intro d hu
    refine ⟨fun x _ => rfl, fun x hx => absurd rfl hx, by simp [bfsScan_nil],
      by simp, by simp [bfsScan_nil]⟩
  | cons v vs ih =>
    intro d hu
    by_cases hg : d (alookup mR v) = ⊤
    · rw [bfsScan_cons_pos mR u v vs d hg]
      have hxu : alookup mR v ≠ some u := by
        intro he; rw [he] at hg; exact hu hg
      have hdu' : dupd d (alookup mR v) (d (some u) + 1) (some u) = d (some u) := by
        simp [Ne.symm hxu]
      obtain ⟨mono, chg, qmem, compl, nd⟩ :=
        ih (dupd d (alookup mR v) (d (some u) + 1)) (by rw [hdu']; exact hu)
      have hvaltop : d (some u) + 1 ≠ ⊤ := enat_add_one_ne_top hu
      have hmono0 : ∀ x, x ≠ alookup mR v →
          dupd d (alookup mR v) (d (some u) + 1) x = d x := by
        intro x hx; simp [hx]
      have hdvself : dupd d (alookup mR v) (d (some u) + 1) (alookup mR v) =
          d (some u) + 1 := by simp
      have hheadfin : (bfsScan mR u vs (dupd d (alookup mR v) (d (some u) + 1))).1
          (alookup mR v) = d (some u) + 1 := by
        rw [mono (alookup mR v) (by rw [hdvself]; exact hvaltop), hdvself]
      refine ⟨?_, ?_, ?_, ?_, ?_⟩
      · intro x hx
        have hxv : x ≠ alookup mR v := by
          intro he; rw [he] at hx; exact hx hg
        rw [mono x (by rw [hmono0 x hxv]; exact hx), hmono0 x hxv]
      · intro x hx
        by_cases hxv : x = alookup mR v
        · subst hxv; exact ⟨hg, List.mem_cons_self _ _⟩
        · rw [← hmono0 x hxv] at hx
          obtain ⟨h1, h2⟩ := chg x hx
          rw [hmono0 x hxv] at h1
          exact ⟨h1, List.mem_cons_of_mem _ h2⟩
      · intro x hx
        rcases List.mem_cons.mp hx with rfl | hx
        · exact ⟨hg, hheadfin, v, List.mem_cons_self _ _, rfl⟩
        · obtain ⟨h1, h2, vv, hvv, hvx⟩ := qmem x hx
          have hxv : x ≠ alookup mR v := by
            intro he
            rw [he, hdvself] at h1
            exact hvaltop h1
          rw [hmono0 x hxv] at h1
          rw [hdu'] at h2
          exact ⟨h1, h2, vv, List.mem_cons_of_mem _ hvv, hvx⟩
      · intro v' hv'
        rcases List.mem_cons.mp hv' with rfl | hv'
        · rw [hheadfin]; exact hvaltop
        · exact compl v' hv'
      · refine List.Nodup.cons ?_ nd
        intro hmem
        obtain ⟨h1, _, _⟩ := qmem _ hmem
        rw [hdvself] at h1
        exact hvaltop h1
    · rw [bfsScan_cons_neg mR u v vs d hg]
      obtain ⟨mono, chg, qmem, compl, nd⟩ := ih d hu
      refine ⟨mono, chg, ?_, ?_, nd⟩
      · intro x hx
        obtain ⟨h1, h2, vv, hvv, hvx⟩ := qmem x hx
        exact ⟨h1, h2, vv, List.mem_cons_of_mem _ hvv, hvx⟩
      · intro v' hv'
        rcases List.mem_cons.mp hv' with rfl | hv'
        · rw [mono _ hg]; exact hg
        · exact compl v' hv'

theorem bfsInit_nil (mL : List (Nat × Nat)) (d : Dist) :
    bfsInit mL [] d = (d, []) := rfl

theorem bfsInit_cons_free (mL : List (Nat × Nat)) (u : Nat) (us : List Nat)
    (d : Dist) (h : alookup mL u = none) :
    bfsInit mL (u :: us) d =
      ((bfsInit mL us (dupd d (some u) 0)).1,
        some u :: (bfsInit mL us (dupd d (some u) 0)).2) := by
  simp [bfsInit, h]

theorem bfsInit_cons_matched (mL : List (Nat × Nat)) (u : Nat) (us : List Nat)
    (d : Dist) (h : ¬ alookup mL u = none) :
    bfsInit mL (u :: us) d = bfsInit mL us (dupd d (some u) ⊤) := by
  simp [bfsInit, h]

/-- Behaviour of the BFS initialisation loop: every left node ends at
distance `0` (if unmatched) or `⊤` (if matched), other entries are untouched,
and the produced queue consists of unmatched left nodes (all of them). -/
theorem bfsInit_spec (mL : List (Nat × Nat)) :
    ∀ (us : List Nat) (d : Dist),
    (∀ u ∈ us, (bfsInit mL us d).1 (some u) =
      if alookup mL u = none then 0 else ⊤) ∧
    (∀ x, (∀ u ∈ us, x ≠ some u) → (bfsInit mL us d).1 x = d x) ∧
    (∀ x ∈ (bfsInit mL us d).2, ∃ u ∈ us, x = some u ∧ alookup mL u = none) ∧
    (∀ u ∈ us, alookup mL u = none → some u ∈ (bfsInit mL us d).2) ∧
    (bfsInit mL us d).2.length ≤ us.length := by
  intro us
  induction us with
  | nil =>
    intro d
    exact ⟨by simp, fun x _ => rfl, by simp [bfsInit_nil], by simp, by simp [bfsInit_nil]⟩
  | cons u us ih =>
    intro d
    by_cases h : alookup mL u = none
    · rw [bfsInit_cons_free mL u us d h]
      obtain ⟨i1, i2, i3, i4, i5⟩ := ih (dupd d (some u) 0)
      refine ⟨?_, ?_, ?_, ?_, ?_⟩
      · intro u' hu'
        rcases List.mem_cons.mp hu' with rfl | hu'
        · by_cases hmem : u' ∈ us
          · exact i1 u' hmem
          · have := i2 (some u') (by
              intro w hw he
              exact hmem (by rw [Option.some.injEq] at he; rw [he]; exact hw))
            rw [this]; simp [h]
        · exact i1 u' hu'
      · intro x hx
        have hx0 : x ≠ some u := hx u (List.mem_cons_self _ _)
        rw [i2 x (fun w hw => hx w (List.mem_cons_of_mem _ hw))]
        simp [hx0]
      · intro x hx
        rcases List.mem_cons.mp hx with rfl | hx
        · exact ⟨u, List.mem_cons_self _ _, rfl, h⟩
        · obtain ⟨w, hw, hxw, hwf⟩ := i3 x hx
          exact ⟨w, List.mem_cons_of_mem _ hw, hxw, hwf⟩
      · intro u' hu' hf
        rcases List.mem_cons.mp hu' with rfl | hu'
        · exact List.mem_cons_self _ _
        · exact List.mem_cons_of_mem _ (i4 u' hu' hf)
      · simpa using Nat.succ_le_succ i5
    · rw [bfsInit_cons_matched mL u us d h]
      obtain ⟨i1, i2, i3, i4, i5⟩ := ih (dupd d (some u) ⊤)
      refine ⟨?_, ?_, ?_, ?_, ?_⟩
      · intro u' hu'
        rcases List.mem_cons.mp hu' with rfl | hu'
        · by_cases hmem : u' ∈ us
          · exact i1 u' hmem
          · have := i2 (some u') (by
              intro w hw he
              exact hmem (by rw [Option.some.injEq] at he; rw [he]; exact hw))
            rw [this]; simp [h]
        · exact i1 u' hu'
      · intro x hx
        have hx0 : x ≠ some u := hx u (List.mem_cons_self _ _)
        rw [i2 x (fun w hw => hx w (List.mem_cons_of_mem _ hw))]
        simp [hx0]
      · intro x hx
        obtain ⟨w, hw, hxw, hwf⟩ := i3 x hx
        exact ⟨w, List.mem_cons_of_mem _ hw, hxw, hwf⟩
      · intro u' hu' hf
        rcases List.mem_cons.mp hu' with rfl | hu'
        · exact absurd hf h
        · exact i4 u' hu' hf
      · exact le_trans i5 (Nat.le_succ _)

/-! ### BFS: queue loop -/

theorem bfsLoop_zero (g : Nat → List Nat) (mR : List (Nat × Nat))
    (q : List (Option Nat)) (d : Dist) : bfsLoop g mR 0 q d = none := rfl

theorem bfsLoop_succ_nil (g : Nat → List Nat) (mR : List (Nat × Nat))
    (fuel : ℕ) (d : Dist) : bfsLoop g mR (fuel + 1) [] d = some d := rfl

theorem bfsLoop_succ_none (g : Nat → List Nat) (mR : List (Nat × Nat))
    (fuel : ℕ) (rest : List (Option Nat)) (d : Dist) :
    bfsLoop g mR (fuel + 1) (none :: rest) d = bfsLoop g mR fuel rest d := rfl

theorem bfsLoop_succ_some_pos (g : Nat → List Nat) (mR : List (Nat × Nat))
    (fuel : ℕ) (u : Nat) (rest : List (Option Nat)) (d : Dist)
    (h : d (some u) < d none) :
    bfsLoop g mR (fuel + 1) (some u :: rest) d =
      bfsLoop g mR fuel (rest ++ (bfsScan mR u (g u) d).2) (bfsScan mR u (g u) d).1 := by
  simp [bfsLoop, h]

theorem bfsLoop_succ_some_neg (g : Nat → List Nat) (mR : List (Nat × Nat))
    (fuel : ℕ) (u : Nat) (rest : List (Option Nat)) (d : Dist)
    (h : ¬ d (some u) < d none) :
    bfsLoop g mR (fuel + 1) (some u :: rest) d = bfsLoop g mR fuel rest d := by
  simp [bfsLoop, h]

/-- During the queue loop, finite distances never change. -/
theorem bfsLoop_mono (g : Nat → List Nat) (mR : List (Nat × Nat)) :
    ∀ (fuel : ℕ) (q : List (Option Nat)) (d df : Dist),
    bfsLoop g mR fuel q d = some df → ∀ x, d x ≠ ⊤ → df x = d x := by
  intro fuel
  induction fuel with
  | zero => intro q d df h; exact absurd h (by simp [bfsLoop_zero])
  | succ fuel ih =>
    intro q d df h x hx
    cases q with
    | nil =>
      rw [bfsLoop_succ_nil] at h
      injection h with h
      rw [← h]
    | cons y rest =>
      cases y with
      | none => exact ih rest d df (by rw [← bfsLoop_succ_none g mR fuel rest d]; exact h) x hx
      | some u =>
        by_cases hg : d (some u) < d none
        · rw [bfsLoop_succ_some_pos g mR fuel u rest d hg] at h
          have hu : d (some u) ≠ ⊤ := LT.lt.ne_top hg
          obtain ⟨mono, -, -, -, -⟩ := bfsScan_spec mR u (g u) d hu
          rw [ih _ _ _ h x (by rw [mono x hx]; exact hx), mono x hx]
        · rw [bfsLoop_succ_some_neg g mR fuel u rest d hg] at h
          exact ih _ _ _ h x hx

/-- The finite keyspace that BFS distances live on: the sentinel together
with the left nodes (used only for the fuel accounting). -/
def Kspace (L : List Nat) : Finset (Option Nat) :=
  insert none (L.toFinset.image some)

/-- Number of keyspace entries still at infinite distance. -/
def Tcard (L : List Nat) (d : Dist) : ℕ :=
  ((Kspace L).filter (fun x => d x = ⊤)).card

/-- The queue loop terminates within its fuel: every processed node either
just leaves the queue or moves finitely many keyspace entries from infinite
to finite distance, one per enqueued node. -/
theorem bfsLoop_total (g : Nat → List Nat) (mR : List (Nat × Nat)) (L : List Nat)
    (hmr : ∀ v w, alookup mR v = some w → w ∈ L) :
    ∀ (fuel : ℕ) (q : List (Option Nat)) (d : Dist),
    (∀ x ∈ q, x = none ∨ ∃ u ∈ L, x = some u) →
    q.length + Tcard L d < fuel →
    ∃ df, bfsLoop g mR fuel q d = some df := by
  intro fuel
  induction fuel with
  | zero => intro q d _ hlt; omega
  | succ fuel ih =>
    intro q d hq hlt
    cases q with
    | nil => exact ⟨d, bfsLoop_succ_nil g mR fuel d⟩
    | cons y rest =>
      cases y with
      | none =>
        obtain ⟨df, hdf⟩ := ih rest d
          (fun x hx => hq x (List.mem_cons_of_mem _ hx))
          (by simp only [List.length_cons] at hlt; omega)
        exact ⟨df, by rw [bfsLoop_succ_none]; exact hdf⟩
      | some u =>
        by_cases hg : d (some u) < d none
        · have hu : d (some u) ≠ ⊤ := LT.lt.ne_top hg
          obtain ⟨mono, chg, qmem, compl, nd⟩ := bfsScan_spec mR u (g u) d hu
          have hqK : ∀ x ∈ (bfsScan mR u (g u) d).2,
              x = none ∨ ∃ w ∈ L, x = some w := by
            intro x hx
            obtain ⟨-, -, v, -, hvx⟩ := qmem x hx
            cases x with
            | none => exact Or.inl rfl
            | some w => exact Or.inr ⟨w, hmr v w hvx, rfl⟩
          have hsub : (bfsScan mR u (g u) d).2.toFinset ⊆
              (Kspace L).filter (fun x => d x = ⊤) := by
            intro x hx
            rw [List.mem_toFinset] at hx
            obtain ⟨htop, -, -⟩ := qmem x hx
            refine Finset.mem_filter.mpr ⟨?_, htop⟩
            rcases hqK x hx with rfl | ⟨w, hw, rfl⟩
            · exact Finset.mem_insert_self _ _
            · exact Finset.mem_insert_of_mem
                (Finset.mem_image_of_mem some (List.mem_toFinset.mpr hw))
          have hfilter : (Kspace L).filter (fun x => (bfsScan mR u (g u) d).1 x = ⊤) =
              ((Kspace L).filter (fun x => d x = ⊤)) \ (bfsScan mR u (g u) d).2.toFinset := by
            ext x
            simp only [Finset.mem_filter, Finset.mem_sdiff, List.mem_toFinset]
            constructor
            · rintro ⟨hK, htop⟩
              have hdx : d x = ⊤ := by
                by_contra hne
                rw [mono x hne] at htop
                exact hne htop
              refine ⟨⟨hK, hdx⟩, ?_⟩
              intro hmem
              obtain ⟨-, hval, -⟩ := qmem x hmem
              rw [hval] at htop
              exact enat_add_one_ne_top hu htop
            · rintro ⟨⟨hK, hdx⟩, hnmem⟩
              refine ⟨hK, ?_⟩
              by_cases hne : (bfsScan mR u (g u) d).1 x = d x
              · rw [hne]; exact hdx
              · exact absurd (chg x hne).2 hnmem
          have hcard : Tcard L (bfsScan mR u (g u) d).1 +
              (bfsScan mR u (g u) d).2.length = Tcard L d := by
            simp only [Tcard]
            rw [hfilter, Finset.card_sdiff hsub,
              List.toFinset_card_of_nodup nd]
            have hle : (bfsScan mR u (g u) d).2.length ≤
                ((Kspace L).filter (fun x => d x = ⊤)).card := by
              rw [← List.toFinset_card_of_nodup nd]
              exact Finset.card_le_card hsub
            omega
          obtain ⟨df, hdf⟩ := ih (rest ++ (bfsScan mR u (g u) d).2) (bfsScan mR u (g u) d).1
            (by
              intro x hx
              rcases List.mem_append.mp hx with hx | hx
              · exact hq x (List.mem_cons_of_mem _ hx)
              · exact hqK x hx)
            (by
              simp only [List.length_append]
              simp only [List.length_cons] at hlt
              omega)
          exact ⟨df, by rw [bfsLoop_succ_some_pos g mR fuel u rest d hg]; exact hdf⟩
        · obtain ⟨df, hdf⟩ := ih rest d
            (fun x hx => hq x (List.mem_cons_of_mem _ hx))
            (by simp only [List.length_cons] at hlt; omega)
          exact ⟨df, by rw [bfsLoop_succ_some_neg g mR fuel u rest d hg]; exact hdf⟩

/-- If the loop ends with the sentinel still at infinite distance, then every
left node at finite distance has had its whole adjacency scanned: each
neighbour's matched partner is also at finite distance (in particular every
neighbour is matched). -/
theorem bfsLoop_complete (g : Nat → List Nat) (mR : List (Nat × Nat)) :
    ∀ (fuel : ℕ) (q : List (Option Nat)) (d df : Dist),
    bfsLoop g mR fuel q d = some df → df none = ⊤ →
    (∀ x ∈ q, d x ≠ ⊤) →
    (∀ u : Nat, d (some u) ≠ ⊤ →
      some u ∈ q ∨ ∀ v ∈ g u, d (alookup mR v) ≠ ⊤) →
    ∀ u : Nat, df (some u) ≠ ⊤ → ∀ v ∈ g u, df (alookup mR v) ≠ ⊤ := by
  intro fuel
  induction fuel with
  | zero => intro q d df h; exact absurd h (by simp [bfsLoop_zero])
  | succ fuel ih =>
    intro q d df h hdf hq hinv
    cases q with
    | nil =>
      rw [bfsLoop_succ_nil] at h
      injection h with h
      subst h
      intro u hu v hv
      rcases hinv u hu with hmem | hdone
      · simp at hmem
      · exact hdone v hv
    | cons y rest =>
      cases y with
      | none =>
        rw [bfsLoop_succ_none] at h
        refine ih rest d df h hdf (fun x hx => hq x (List.mem_cons_of_mem _ hx)) ?_
        intro u hu
        rcases hinv u hu with hmem | hdone
        · rcases List.mem_cons.mp hmem with he | hmem
          · exact absurd he (by simp)
          · exact Or.inl hmem
        · exact Or.inr hdone
      | some u₀ =>
        have hdnone : d none = ⊤ := by
          by_contra hne
          rw [bfsLoop_mono g mR _ _ _ _ h none hne] at hdf
          exact hne hdf
        by_cases hg : d (some u₀) < d none
        · rw [bfsLoop_succ_some_pos g mR fuel u₀ rest d hg] at h
          have hu₀ : d (some u₀) ≠ ⊤ := LT.lt.ne_top hg
          obtain ⟨mono, chg, qmem, compl, -⟩ := bfsScan_spec mR u₀ (g u₀) d hu₀
          refine ih _ _ _ h hdf ?_ ?_
          · intro x hx
            rcases List.mem_append.mp hx with hx | hx
            · have := hq x (List.mem_cons_of_mem _ hx)
              rw [mono x this]; exact this
            · obtain ⟨-, hval, -⟩ := qmem x hx
              rw [hval]
              exact enat_add_one_ne_top hu₀
          · intro u hu
            by_cases hold : d (some u) = ⊤
            · have hchg : (bfsScan mR u₀ (g u₀) d).1 (some u) ≠ d (some u) := by
                rw [hold]; exact hu
              exact Or.inl (List.mem_append_right _ (chg _ hchg).2)
            · rcases hinv u hold with hmem | hdone
              · rcases List.mem_cons.mp hmem with he | hmem
                · have : u = u₀ := by injection he
                  subst this
                  exact Or.inr (fun v hv => compl v hv)
                · exact Or.inl (List.mem_append_left _ hmem)
              · refine Or.inr (fun v hv => ?_)
                rw [mono _ (hdone v hv)]
                exact hdone v hv
        · rw [hdnone] at hg
          have := hq (some u₀) (List.mem_cons_self _ _)
          exact absurd (lt_top_iff_ne_top.mpr this) hg

/-- Provenance of finite BFS distances: a finite entry is either an unmatched
left node at distance `0`, or was given distance `dist[u₁] + 1` through an
edge of some left node `u₁` at smaller finite distance, via the matched
partner of the traversed right node. -/
def ProvInv (g : Nat → List Nat) (mL mR : List (Nat × Nat)) (L : List Nat)
    (d : Dist) : Prop :=
  ∀ x, d x ≠ ⊤ →
    (∃ u ∈ L, x = some u ∧ d x = 0 ∧ alookup mL u = none) ∨
    (∃ u₁ v, d (some u₁) ≠ ⊤ ∧ v ∈ g u₁ ∧ alookup mR v = x ∧
      d x = d (some u₁) + 1)

theorem bfsLoop_prov (g : Nat → List Nat) (mL mR : List (Nat × Nat))
    (L : List Nat) :
    ∀ (fuel : ℕ) (q : List (Option Nat)) (d df : Dist),
    bfsLoop g mR fuel q d = some df →
    ProvInv g mL mR L d → ProvInv g mL mR L df := by
  intro fuel
  induction fuel with
  | zero => intro q d df h; exact absurd h (by simp [bfsLoop_zero])
  | succ fuel ih =>
    intro q d df h hprov
    cases q with
    | nil =>
      rw [bfsLoop_succ_nil] at h
      injection h with h
      subst h
      exact hprov
    | cons y rest =>
      cases y with
      | none => exact ih rest d df (by rw [← bfsLoop_succ_none g mR fuel rest d]; exact h) hprov
      | some u₀ =>
        by_cases hg : d (some u₀) < d none
        · rw [bfsLoop_succ_some_pos g mR fuel u₀ rest d hg] at h
          have hu₀ : d (some u₀) ≠ ⊤ := LT.lt.ne_top hg
          obtain ⟨mono, chg, qmem, -, -⟩ := bfsScan_spec mR u₀ (g u₀) d hu₀
          refine ih _ _ _ h ?_
          intro x hx
          by_cases hsame : (bfsScan mR u₀ (g u₀) d).1 x = d x
          · rcases hprov x (by rw [← hsame]; exact hx) with
              ⟨u, hu, hxu, h0, hfree⟩ | ⟨u₁, v, hfin, hv, hlk, hval⟩
            · exact Or.inl ⟨u, hu, hxu, by rw [hsame]; exact h0, hfree⟩
            · refine Or.inr ⟨u₁, v, ?_, hv, hlk, ?_⟩
              · rw [mono _ hfin]; exact hfin
              · rw [hsame, mono _ hfin]; exact hval
          · obtain ⟨-, hmem⟩ := chg x hsame
            obtain ⟨-, hval, v, hv, hlk⟩ := qmem x hmem
            refine Or.inr ⟨u₀, v, ?_, hv, hlk, ?_⟩
            · rw [mono _ hu₀]; exact hu₀
            · rw [hval, mono _ hu₀]
        · rw [bfsLoop_succ_some_neg g mR fuel u₀ rest d hg] at h
          exact ih _ _ _ h hprov

/-- Finite distances only live on the sentinel and the left nodes. -/
theorem bfsLoop_dom (g : Nat → List Nat) (mR : List (Nat × Nat)) (L : List Nat)
    (hmr : ∀ v w, alookup mR v = some w → w ∈ L) :
    ∀ (fuel : ℕ) (q : List (Option Nat)) (d df : Dist),
    bfsLoop g mR fuel q d = some df →
    (∀ x, d x ≠ ⊤ → x = none ∨ ∃ u ∈ L, x = some u) →
    ∀ x, df x ≠ ⊤ → x = none ∨ ∃ u ∈ L, x = some u := by
  intro fuel
  induction fuel with
  | zero => intro q d df h; exact absurd h (by simp [bfsLoop_zero])
  | succ fuel ih =>
    intro q d df h hdom
    cases q with
    | nil =>
      rw [bfsLoop_succ_nil] at h
      injection h with h
      subst h
      exact hdom
    | cons y rest =>
      cases y with
      | none => exact ih rest d df (by rw [← bfsLoop_succ_none g mR fuel rest d]; exact h) hdom
      | some u₀ =>
        by_cases hg : d (some u₀) < d none
        · rw [bfsLoop_succ_some_pos g mR fuel u₀ rest d hg] at h
          have hu₀ : d (some u₀) ≠ ⊤ := LT.lt.ne_top hg
          obtain ⟨mono, chg, qmem, -, -⟩ := bfsScan_spec mR u₀ (g u₀) d hu₀
          refine ih _ _ _ h ?_
          intro x hx
          by_cases hsame : (bfsScan mR u₀ (g u₀) d).1 x = d x
          · exact hdom x (by rw [← hsame]; exact hx)
          · obtain ⟨-, hmem⟩ := chg x hsame
            obtain ⟨-, -, v, -, hlk⟩ := qmem x hmem
            cases x with
            | none => exact Or.inl rfl
            | some w => exact Or.inr ⟨w, hmr v w hlk, rfl⟩
        · rw [bfsLoop_succ_some_neg g mR fuel u₀ rest d hg] at h
          exact ih _ _ _ h hdom

/-- Finite distances only occur at the sentinel or at left nodes; holds for
every state reachable in a `hopcroft_karp` run. -/
def DistDom (L : List Nat) (d : Dist) : Prop :=
  ∀ x, d x ≠ ⊤ → x = none ∨ ∃ u ∈ L, x = some u

theorem Kspace_card_le (L : List Nat) : (Kspace L).card ≤ L.length + 1 := by
  refine le_trans (Finset.card_insert_le _ _) ?_
  have h1 : (L.toFinset.image some).card ≤ L.toFinset.card := Finset.card_image_le
  have h2 : L.toFinset.card ≤ L.length := L.toFinset_card_le
  omega

theorem Tcard_le (L : List Nat) (d : Dist) : Tcard L d ≤ L.length + 1 :=
  le_trans (Finset.card_filter_le _ _) (Kspace_card_le L)

/-- The BFS phase always completes within its fuel. -/
theorem bfs_total (g : Nat → List Nat) (L : List Nat) (s : HKst)
    (hmr : ∀ v w, alookup s.mR v = some w → w ∈ L) :
    ∃ s' b, bfs g L s = some (s', b) := by
  obtain ⟨-, -, i3, -, i5⟩ := bfsInit_spec s.mL L s.dist
  obtain ⟨df, hdf⟩ := bfsLoop_total g s.mR L hmr (2 * L.length + 2)
    (bfsInit s.mL L s.dist).2 (dupd (bfsInit s.mL L s.dist).1 none ⊤)
    (by
      intro x hx
      obtain ⟨u, hu, hxu, -⟩ := i3 x hx
      exact Or.inr ⟨u, hu, hxu⟩)
    (by
      have := Tcard_le L (dupd (bfsInit s.mL L s.dist).1 none ⊤)
      omega)
  exact ⟨⟨s.mL, s.mR, df⟩, decide (df none ≠ ⊤), by simp only [bfs, hdf]⟩

/-- Postcondition of the BFS phase: matchings are untouched; the result flag
reflects whether the sentinel was reached; unmatched left nodes end at
distance `0`; when the sentinel was not reached, every finite-distance left
node has all neighbours matched at finite distance; and finite distances
carry provenance back to unmatched left nodes. -/
theorem bfs_spec (g : Nat → List Nat) (L : List Nat) (s : HKst) (s' : HKst)
    (b : Bool) (h : bfs g L s = some (s', b)) :
    s'.mL = s.mL ∧ s'.mR = s.mR ∧
    (b = false ↔ s'.dist none = ⊤) ∧
    (∀ u ∈ L, alookup s.mL u = none → s'.dist (some u) = 0) ∧
    (DistDom L s.dist → b = false →
      ∀ u : Nat, s'.dist (some u) ≠ ⊤ →
        ∀ v ∈ g u, s'.dist (alookup s.mR v) ≠ ⊤) ∧
    (DistDom L s.dist → ProvInv g s.mL s.mR L s'.dist) ∧
    ((∀ v w, alookup s.mR v = some w → w ∈ L) → DistDom L s.dist →
      DistDom L s'.dist) := by
  cases heq : bfsLoop g s.mR (2 * L.length + 2) (bfsInit s.mL L s.dist).2
      (dupd (bfsInit s.mL L s.dist).1 none ⊤) with
  | none => rw [bfs, heq] at h; exact absurd h (by simp)
  | some d3 =>
    rw [bfs, heq] at h
    simp only [Option.some.injEq, Prod.mk.injEq] at h
    obtain ⟨hs', hb⟩ := h
    subst hs'
    dsimp only
    obtain ⟨i1, i2, i3, i4, -⟩ := bfsInit_spec s.mL L s.dist
    have hd2none : dupd (bfsInit s.mL L s.dist).1 none ⊤ none = ⊤ := by simp
    have hd2some : ∀ u : Nat, dupd (bfsInit s.mL L s.dist).1 none ⊤ (some u) =
        (bfsInit s.mL L s.dist).1 (some u) := by
      intro u; simp
    have hfree0 : ∀ u ∈ L, alookup s.mL u = none →
        dupd (bfsInit s.mL L s.dist).1 none ⊤ (some u) = 0 := by
      intro u hu hfr
      rw [hd2some u, i1 u hu, if_pos hfr]
    refine ⟨rfl, rfl, ?_, ?_, ?_, ?_, ?_⟩
    · constructor
      · intro hb0; rw [hb0] at hb
        simpa using hb.symm
      · intro htop; rw [← hb]; simp [htop]
    · intro u hu hfr
      rw [bfsLoop_mono g s.mR _ _ _ _ heq (some u)
        (by rw [hfree0 u hu hfr]; exact (by simp)), hfree0 u hu hfr]
    · intro hdom hb0
      have htop : d3 none = ⊤ := by
        rw [hb0] at hb; simpa using hb.symm
      refine bfsLoop_complete g s.mR _ _ _ _ heq htop ?_ ?_
      · intro x hx
        obtain ⟨u, hu, hxu, hfr⟩ := i3 x hx
        subst hxu
        rw [hfree0 u hu hfr]
        simp
      · intro u hu
        by_cases huL : u ∈ L
        · rw [hd2some u, i1 u huL] at hu
          by_cases hfr : alookup s.mL u = none
          · exact Or.inl (i4 u huL hfr)
          · rw [if_neg hfr] at hu; exact absurd rfl hu
        · rw [hd2some u, i2 (some u) (by
            intro w hw he
            rw [Option.some.injEq] at he
            subst he
            exact huL hw)] at hu
          rcases hdom (some u) hu with he | ⟨w, hw, he⟩
          · exact absurd he (by simp)
          · rw [Option.some.injEq] at he
            subst he
            exact absurd hw huL
    · intro hdom
      refine bfsLoop_prov g s.mL s.mR L _ _ _ _ heq ?_
      intro x hx
      cases x with
      | none => exact absurd hd2none hx
      | some w =>
        by_cases hwL : w ∈ L
        · rw [hd2some w, i1 w hwL] at hx ⊢
          by_cases hfr : alookup s.mL w = none
          · exact Or.inl ⟨w, hwL, rfl, by rw [if_pos hfr], hfr⟩
          · rw [if_neg hfr] at hx; exact absurd rfl hx
        · rw [hd2some w, i2 (some w) (by
            intro w' hw' he
            rw [Option.some.injEq] at he
            subst he
            exact hwL hw')] at hx
          rcases hdom (some w) hx with he | ⟨w', hw', he⟩
          · exact absurd he (by simp)
          · rw [Option.some.injEq] at he
            subst he
            exact absurd hw' hwL
    · intro hmr hdom
      refine bfsLoop_dom g s.mR L hmr _ _ _ _ heq ?_
      intro x hx
      cases x with
      | none => exact Or.inl rfl
      | some w =>
        by_cases hwL : w ∈ L
        · exact Or.inr ⟨w, hwL, rfl⟩
        · rw [hd2some w, i2 (some w) (by
            intro w' hw' he
            rw [Option.some.injEq] at he
            subst he
            exact hwL hw')] at hx
          rcases hdom (some w) hx with he | ⟨w', hw', he⟩
          · exact absurd he (by simp)
          · rw [Option.some.injEq] at he
            subst he
            exact absurd hw' hwL

/-! ### DFS: equations and the master lemma -/

theorem dfs_zero (g : Nat → List Nat) (x : Option Nat) (s : HKst) :
    dfs g 0 x s = none := rfl

theorem dfs_succ_none (g : Nat → List Nat) (fuel : ℕ) (s : HKst) :
    dfs g (fuel + 1) none s = some (true, s) := rfl

theorem dfs_succ_some (g : Nat → List Nat) (fuel : ℕ) (u : Nat) (s : HKst) :
    dfs g (fuel + 1) (some u) s = dfsScan (dfs g fuel) u (g u) s := rfl

theorem dfsScan_nil (F : Option Nat → HKst → Option (Bool × HKst)) (u : Nat)
    (s : HKst) :
    dfsScan F u [] s = some (false, ⟨s.mL, s.mR, dupd s.dist (some u) ⊤⟩) := rfl

theorem dfsScan_cons_skip (F : Option Nat → HKst → Option (Bool × HKst))
    (u v : Nat) (vs : List Nat) (s : HKst)
    (h : ¬ s.dist (alookup s.mR v) = s.dist (some u) + 1) :
    dfsScan F u (v :: vs) s = dfsScan F u vs s := by
  simp [dfsScan, h]

theorem dfsScan_cons_fuelout (F : Option Nat → HKst → Option (Bool × HKst))
    (u v : Nat) (vs : List Nat) (s : HKst)
    (h : s.dist (alookup s.mR v) = s.dist (some u) + 1)
    (hF : F (alookup s.mR v) s = none) :
    dfsScan F u (v :: vs) s = none := by
  simp [dfsScan, h, hF]

theorem dfsScan_cons_found (F : Option Nat → HKst → Option (Bool × HKst))
    (u v : Nat) (vs : List Nat) (s s' : HKst)
    (h : s.dist (alookup s.mR v) = s.dist (some u) + 1)
    (hF : F (alookup s.mR v) s = some (true, s')) :
    dfsScan F u (v :: vs) s =
      some (true, ⟨aset s'.mL u v, aset s'.mR v u, s'.dist⟩) := by
  simp [dfsScan, h, hF]

theorem dfsScan_cons_failed (F : Option Nat → HKst → Option (Bool × HKst))
    (u v : Nat) (vs : List Nat) (s s' : HKst)
    (h : s.dist (alookup s.mR v) = s.dist (some u) + 1)
    (hF : F (alookup s.mR v) s = some (false, s')) :
    dfsScan F u (v :: vs) s = dfsScan F u vs s' := by
  simp [dfsScan, h, hF]

theorem enat_not_add_one_le {a : ℕ∞} (h : a ≠ ⊤) : ¬ a + 1 ≤ a :=
  fun hle => absurd (lt_of_lt_of_le (enat_lt_add_one h) hle) (lt_irrefl a)

/-- A DFS call from `x` only changes distances by marking entries infinite,
and only at `x` itself or at left nodes matched on entry, all of distance at
least that of `x`. -/
def DPost (s : HKst) (x : Option Nat) (s' : HKst) : Prop :=
  ∀ y, s'.dist y = s.dist y ∨
    (s'.dist y = ⊤ ∧ s.dist y ≠ ⊤ ∧ s.dist x ≤ s.dist y ∧
      (y = x ∨ ∃ w v', y = some w ∧ alookup s.mR v' = some w))

/-- A DFS call from `x` only adds `x` as a matched-left value, and only adds
left-matching keys that are `x` or previously matched lefts. -/
def MGrow (s : HKst) (x : Option Nat) (s' : HKst) : Prop :=
  (∀ v w, alookup s'.mR v = some w →
    (∃ v₀, alookup s.mR v₀ = some w) ∨ some w = x) ∧
  (∀ a, alookup s'.mL a ≠ none →
    alookup s.mL a ≠ none ∨ some a = x ∨ ∃ v₀, alookup s.mR v₀ = some a)

/-- Termination potential of a DFS call: the number of left nodes at finite
distance at least the distance of the argument.  Recursive calls follow the
strictly increasing distance layering, so the potential strictly decreases. -/
def Phi (L : List Nat) (d : Dist) (x : Option Nat) : ℕ :=
  (L.toFinset.filter (fun w => d (some w) ≠ ⊤ ∧ d x ≤ d (some w))).card

/-- Master lemma for the DFS: with fuel exceeding the potential, the call
completes, and satisfies the distance and matching postconditions. -/
theorem dfs_main (g : Nat → List Nat) (L : List Nat) : ∀ fuel : ℕ,
    (∀ (x : Option Nat) (s : HKst),
      (∀ v w, alookup s.mR v = some w → w ∈ L) →
      (x = none ∨ ∃ u, x = some u ∧ u ∈ L ∧ s.dist (some u) ≠ ⊤) →
      Phi L s.dist x < fuel →
      ∃ b s', dfs g fuel x s = some (b, s') ∧ DPost s x s' ∧
        (b = false → s'.mL = s.mL ∧ s'.mR = s.mR) ∧ MGrow s x s') ∧
    (∀ (u : Nat) (vs : List Nat) (s : HKst),
      (∀ v w, alookup s.mR v = some w → w ∈ L) →
      u ∈ L → s.dist (some u) ≠ ⊤ →
      Phi L s.dist (some u) ≤ fuel →
      ∃ b s', dfsScan (dfs g fuel) u vs s = some (b, s') ∧
        DPost s (some u) s' ∧
        (b = false → s'.mL = s.mL ∧ s'.mR = s.mR) ∧ MGrow s (some u) s') := by
  intro fuel
  induction fuel with
  | zero =>
    constructor
    · intro x s _ _ hPhi; omega
    · intro u vs s _ huL hufin hPhi
      exfalso
      have hu1 : u ∈ L.toFinset.filter
          (fun w => s.dist (some w) ≠ ⊤ ∧ s.dist (some u) ≤ s.dist (some w)) :=
        Finset.mem_filter.mpr ⟨List.mem_toFinset.mpr huL, hufin, le_refl _⟩
      have hpos : 0 < Phi L s.dist (some u) := Finset.card_pos.mpr ⟨u, hu1⟩
      omega
  | succ fuel ih =>
    have A : ∀ (x : Option Nat) (s : HKst),
        (∀ v w, alookup s.mR v = some w → w ∈ L) →
        (x = none ∨ ∃ u, x = some u ∧ u ∈ L ∧ s.dist (some u) ≠ ⊤) →
        Phi L s.dist x < fuel + 1 →
        ∃ b s', dfs g (fuel + 1) x s = some (b, s') ∧ DPost s x s' ∧
          (b = false → s'.mL = s.mL ∧ s'.mR = s.mR) ∧ MGrow s x s' := by
      intro x s hmr hok hPhi
      rcases hok with rfl | ⟨u, rfl, huL, hufin⟩
      · refine ⟨true, s, dfs_succ_none g fuel s, fun y => Or.inl rfl, ?_, ?_, ?_⟩
        · intro hfalse; exact absurd hfalse (by simp)
        · intro v w hw; exact Or.inl ⟨v, hw⟩
        · intro a ha; exact Or.inl ha
      · obtain ⟨b, s', heq, hD, hF, hG⟩ :=
          ih.2 u (g u) s hmr huL hufin (by omega)
        exact ⟨b, s', by rw [dfs_succ_some]; exact heq, hD, hF, hG⟩
    refine ⟨A, ?_⟩
    intro u vs
    induction vs with
    | nil =>
      intro s hmr huL hufin hPhi
      refine ⟨false, ⟨s.mL, s.mR, dupd s.dist (some u) ⊤⟩, dfsScan_nil _ u s,
        ?_, fun _ => ⟨rfl, rfl⟩, ?_, ?_⟩
      · intro y
        by_cases hy : y = some u
        · subst hy
          exact Or.inr ⟨by simp, hufin, le_refl _, Or.inl rfl⟩
        · exact Or.inl (by simp [hy])
      · intro v w hw; exact Or.inl ⟨v, hw⟩
      · intro a ha; exact Or.inl ha
    | cons v vs ihvs =>
      intro s hmr huL hufin hPhi
      by_cases hguard : s.dist (alookup s.mR v) = s.dist (some u) + 1
      · have hcfin : s.dist (alookup s.mR v) ≠ ⊤ := by
          rw [hguard]; exact enat_add_one_ne_top hufin
        have hcok : alookup s.mR v = none ∨
            ∃ w, alookup s.mR v = some w ∧ w ∈ L ∧ s.dist (some w) ≠ ⊤ := by
          cases hxc : alookup s.mR v with
          | none => exact Or.inl rfl
          | some w =>
            refine Or.inr ⟨w, rfl, hmr v w hxc, ?_⟩
            rw [← hxc]; exact hcfin
        have hsub : L.toFinset.filter
            (fun w => s.dist (some w) ≠ ⊤ ∧ s.dist (alookup s.mR v) ≤ s.dist (some w)) ⊆
            L.toFinset.filter
            (fun w => s.dist (some w) ≠ ⊤ ∧ s.dist (some u) ≤ s.dist (some w)) := by
          intro w hw
          obtain ⟨hwL, hwfin, hwge⟩ := Finset.mem_filter.mp hw
          refine Finset.mem_filter.mpr ⟨hwL, hwfin, ?_⟩
          calc s.dist (some u) ≤ s.dist (some u) + 1 := le_self_add
          _ = s.dist (alookup s.mR v) := hguard.symm
          _ ≤ s.dist (some w) := hwge
        have hunot : u ∉ L.toFinset.filter
            (fun w => s.dist (some w) ≠ ⊤ ∧ s.dist (alookup s.mR v) ≤ s.dist (some w)) := by
          intro hu
          obtain ⟨-, -, hge⟩ := Finset.mem_filter.mp hu
          rw [hguard] at hge
          exact enat_not_add_one_le hufin hge
        have huin : u ∈ L.toFinset.filter
            (fun w => s.dist (some w) ≠ ⊤ ∧ s.dist (some u) ≤ s.dist (some w)) :=
          Finset.mem_filter.mpr ⟨List.mem_toFinset.mpr huL, hufin, le_refl _⟩
        have hPhiC : Phi L s.dist (alookup s.mR v) < Phi L s.dist (some u) := by
          refine Finset.card_lt_card ?_
          exact (Finset.ssubset_iff_of_subset hsub).mpr ⟨u, huin, hunot⟩
        obtain ⟨bc, s₁, hceq, hcD, hcF, hcG⟩ :=
          A (alookup s.mR v) s hmr hcok (by omega)
        cases bc with
        | true =>
          refine ⟨true, ⟨aset s₁.mL u v, aset s₁.mR v u, s₁.dist⟩,
            dfsScan_cons_found _ u v vs s s₁ hguard hceq, ?_, ?_, ?_, ?_⟩
          · intro y
            rcases hcD y with hy | ⟨h1, h2, h3, h4⟩
            · exact Or.inl hy
            · refine Or.inr ⟨h1, h2, ?_, ?_⟩
              · calc s.dist (some u) ≤ s.dist (some u) + 1 := le_self_add
                _ = s.dist (alookup s.mR v) := hguard.symm
                _ ≤ s.dist y := h3
              · rcases h4 with rfl | hm
                · cases hxc : alookup s.mR v with
                  | none =>
                    exfalso
                    rw [hxc] at hceq h2 h1
                    rw [dfs_succ_none] at hceq
                    injection hceq with hp
                    injection hp with hb hs
                    rw [← hs] at h1
                    exact h2 h1
                  | some w => exact Or.inr ⟨w, v, rfl, hxc⟩
                · exact Or.inr hm
          · intro hfalse; exact absurd hfalse (by simp)
          · intro v' w hw
            by_cases hv' : v' = v
            · subst hv'
              dsimp only at hw
              rw [alookup_aset_self] at hw
              injection hw with hw
              exact Or.inr (by rw [hw])
            · dsimp only at hw
              rw [alookup_aset_ne _ _ _ hv'] at hw
              rcases hcG.1 v' w hw with h | h
              · exact Or.inl h
              · exact Or.inl ⟨v, h.symm⟩
          · intro a ha
            by_cases hau : a = u
            · exact Or.inr (Or.inl (by rw [hau]))
            · dsimp only at ha
              rw [alookup_aset_ne _ _ _ hau] at ha
              rcases hcG.2 a ha with h | h | h
              · exact Or.inl h
              · exact Or.inr (Or.inr ⟨v, h.symm⟩)
              · exact Or.inr (Or.inr h)
        | false =>
          obtain ⟨hmL1, hmR1⟩ := hcF rfl
          have hufix : s₁.dist (some u) = s.dist (some u) := by
            rcases hcD (some u) with hy | ⟨-, -, h3, -⟩
            · exact hy
            · rw [hguard] at h3
              exact absurd h3 (enat_not_add_one_le hufin)
          have hsub1 : L.toFinset.filter
              (fun w => s₁.dist (some w) ≠ ⊤ ∧ s₁.dist (some u) ≤ s₁.dist (some w)) ⊆
              L.toFinset.filter
              (fun w => s.dist (some w) ≠ ⊤ ∧ s.dist (some u) ≤ s.dist (some w)) := by
            intro w hw
            obtain ⟨hwL, hwfin, hwge⟩ := Finset.mem_filter.mp hw
            have hsame : s₁.dist (some w) = s.dist (some w) := by
              rcases hcD (some w) with hy | ⟨h1, -, -, -⟩
              · exact hy
              · exact absurd h1 hwfin
            refine Finset.mem_filter.mpr ⟨hwL, ?_, ?_⟩
            · rw [← hsame]; exact hwfin
            · rw [← hsame, ← hufix]; exact hwge
          obtain ⟨b₃, s₃, heq₃, hD₃, hF₃, hG₃⟩ := ihvs s₁
            (by intro v' w hw; rw [hmR1] at hw; exact hmr v' w hw)
            huL (by rw [hufix]; exact hufin)
            (le_trans (Finset.card_le_card hsub1) hPhi)
          refine ⟨b₃, s₃,
            by rw [dfsScan_cons_failed _ u v vs s s₁ hguard hceq]; exact heq₃,
            ?_, ?_, ?_⟩
          · intro y
            rcases hD₃ y with hy | ⟨h1, h2, h3, h4⟩
            · rw [hy]
              rcases hcD y with hy' | ⟨h1, h2, h3, h4⟩
              · exact Or.inl hy'
              · refine Or.inr ⟨h1, h2, ?_, ?_⟩
                · calc s.dist (some u) ≤ s.dist (some u) + 1 := le_self_add
                  _ = s.dist (alookup s.mR v) := hguard.symm
                  _ ≤ s.dist y := h3
                · rcases h4 with rfl | hm
                  · cases hxc : alookup s.mR v with
                    | none =>
                      exfalso
                      rw [hxc] at hceq h2 h1
                      rw [dfs_succ_none] at hceq
                      injection hceq with hp
                      injection hp with hb hs
                      rw [← hs] at h1
                      exact h2 h1
                    | some w => exact Or.inr ⟨w, v, rfl, hxc⟩
                  · exact Or.inr hm
            · have hy0 : s₁.dist y = s.dist y := by
                rcases hcD y with hy' | ⟨h1', -, -, -⟩
                · exact hy'
                · exact absurd h1' h2
              refine Or.inr ⟨h1, by rw [← hy0]; exact h2, ?_, ?_⟩
              · rw [← hy0, ← hufix]; exact h3
              · rcases h4 with hyu | ⟨w, v', hyw, hlk⟩
                · exact Or.inl hyu
                · rw [hmR1] at hlk
                  exact Or.inr ⟨w, v', hyw, hlk⟩
          · intro hb
            obtain ⟨h1, h2⟩ := hF₃ hb
            exact ⟨by rw [h1, hmL1], by rw [h2, hmR1]⟩
          · constructor
            · intro v' w hw
              rcases hG₃.1 v' w hw with ⟨v₀, h⟩ | h
              · rw [hmR1] at h; exact Or.inl ⟨v₀, h⟩
              · exact Or.inr h
            · intro a ha
              rcases hG₃.2 a ha with h | h | ⟨v₀, h⟩
              · rw [hmL1] at h; exact Or.inl h
              · exact Or.inr (Or.inl h)
              · rw [hmR1] at h; exact Or.inr (Or.inr ⟨v₀, h⟩)
      · obtain ⟨b₃, s₃, heq₃, hD₃, hF₃, hG₃⟩ := ihvs s hmr huL hufin hPhi
        exact ⟨b₃, s₃,
          by rw [dfsScan_cons_skip _ u v vs s hguard]; exact heq₃, hD₃, hF₃, hG₃⟩

/-! ### Augmenting paths along the BFS layering -/

/-- `AugFrom g mR d x` says that from `x` (a left node, or the sentinel) one
can reach the sentinel by repeatedly following an edge to a right node and
then its matched partner, advancing the distance layering by exactly one at
each step — exactly the moves the DFS phase makes.  Reaching the sentinel
means reaching an unmatched right node. -/
inductive AugFrom (g : Nat → List Nat) (mR : List (Nat × Nat)) (d : Dist) :
    Option Nat → Prop
  | base : AugFrom g mR d none
  | step (u v : Nat) : v ∈ g u → d (alookup mR v) = d (some u) + 1 →
      AugFrom g mR d (alookup mR v) → AugFrom g mR d (some u)

theorem AugFrom_fin (g : Nat → List Nat) (mR : List (Nat × Nat)) (d : Dist)
    (hnone : d none ≠ ⊤) : ∀ x, AugFrom g mR d x → d x ≠ ⊤ := by
  intro x h
  induction h with
  | base => exact hnone
  | step u v hv hguard hsub ihsub =>
    rw [hguard] at ihsub
    intro htop
    rw [htop] at ihsub
    exact ihsub (by simp)

/-- Marking a node with no layered augmenting path as unreachable does not
change which nodes have layered augmenting paths. -/
theorem AugFrom_mark (g : Nat → List Nat) (mR : List (Nat × Nat)) (d : Dist)
    (hnone : d none ≠ ⊤) (y : Nat) (hy : ¬ AugFrom g mR d (some y)) :
    ∀ z, AugFrom g mR d z ↔ AugFrom g mR (dupd d (some y) ⊤) z := by
  have hd'none : dupd d (some y) ⊤ none ≠ ⊤ := by simpa using hnone
  intro z
  constructor
  · intro h
    induction h with
    | base => exact .base
    | step u v hv hguard hsub ihsub =>
      have hu : (some u : Option Nat) ≠ some y := by
        intro he
        exact hy (he ▸ AugFrom.step u v hv hguard hsub)
      have hxv : alookup mR v ≠ some y := by
        intro he
        exact hy (he ▸ hsub)
      refine .step u v hv ?_ ihsub
      simp only [dupd_apply, if_neg hxv, if_neg hu]
      exact hguard
  · intro h
    induction h with
    | base => exact .base
    | step u v hv hguard hsub ihsub =>
      have hu : (some u : Option Nat) ≠ some y := by
        intro he
        have hfin := AugFrom_fin g mR (dupd d (some y) ⊤) hd'none (some u)
          (.step u v hv hguard hsub)
        rw [he] at hfin
        exact hfin (by simp)
      have hxv : alookup mR v ≠ some y := by
        intro he
        have hfin := AugFrom_fin g mR (dupd d (some y) ⊤) hd'none _ hsub
        rw [he] at hfin
        exact hfin (by simp)
      refine .step u v hv ?_ ihsub
      rw [dupd_apply, dupd_apply, if_neg hxv, if_neg hu] at hguard
      exact hguard

theorem Phi_lt_of_guard (L : List Nat) (d : Dist) (u : Nat) (x : Option Nat)
    (huL : u ∈ L) (hufin : d (some u) ≠ ⊤) (hg : d x = d (some u) + 1) :
    Phi L d x < Phi L d (some u) := by
  refine Finset.card_lt_card ?_
  refine (Finset.ssubset_iff_of_subset ?_).mpr
    ⟨u, Finset.mem_filter.mpr ⟨List.mem_toFinset.mpr huL, hufin, le_refl _⟩, ?_⟩
  · intro w hw
    obtain ⟨hwL, hwfin, hwge⟩ := Finset.mem_filter.mp hw
    refine Finset.mem_filter.mpr ⟨hwL, hwfin, ?_⟩
    calc d (some u) ≤ d (some u) + 1 := le_self_add
    _ = d x := hg.symm
    _ ≤ d (some w) := hwge
  · intro hu
    obtain ⟨-, -, hge⟩ := Finset.mem_filter.mp hu
    rw [hg] at hge
    exact enat_not_add_one_le hufin hge

theorem Phi_mono_of_dpost (L : List Nat) (d d₂ : Dist) (u : Nat)
    (hu : d₂ (some u) = d (some u))
    (hmono : ∀ w : Nat, d₂ (some w) ≠ ⊤ → d₂ (some w) = d (some w)) :
    Phi L d₂ (some u) ≤ Phi L d (some u) := by
  refine Finset.card_le_card ?_
  intro w hw
  obtain ⟨hwL, hwfin, hwge⟩ := Finset.mem_filter.mp hw
  have hsame := hmono w hwfin
  refine Finset.mem_filter.mpr ⟨hwL, ?_, ?_⟩
  · rw [← hsame]; exact hwfin
  · rw [← hsame, ← hu]; exact hwge

/-- If a DFS adjacency scan fails, then — provided the edges already scanned
had no layered augmenting continuation — the left node has no layered
augmenting path, and the set of nodes with layered augmenting paths is
unchanged.  Abstract in the recursive call `F`, which must mark soundly on
failure. -/
theorem scan_nAug (g : Nat → List Nat) (L : List Nat) (u : Nat)
    (F : Option Nat → HKst → Option (Bool × HKst)) (fuelp : ℕ)
    (HF : ∀ (x : Option Nat) (t t₂ : HKst),
      F x t = some (false, t₂) →
      (∀ v w, alookup t.mR v = some w → w ∈ L) →
      (x = none ∨ ∃ w, x = some w ∧ w ∈ L ∧ t.dist (some w) ≠ ⊤) →
      t.dist none ≠ ⊤ →
      Phi L t.dist x < fuelp →
      t₂.mL = t.mL ∧ t₂.mR = t.mR ∧ DPost t x t₂ ∧
        (∀ z, AugFrom g t.mR t.dist z ↔ AugFrom g t₂.mR t₂.dist z) ∧
        ¬ AugFrom g t.mR t.dist x) :
    ∀ (vs : List Nat) (s s' : HKst),
    dfsScan F u vs s = some (false, s') →
    (∀ v w, alookup s.mR v = some w → w ∈ L) →
    u ∈ L → s.dist (some u) ≠ ⊤ → s.dist none ≠ ⊤ →
    Phi L s.dist (some u) ≤ fuelp →
    vs ⊆ g u →
    (∀ v ∈ g u, v ∉ vs →
      ¬ (s.dist (alookup s.mR v) = s.dist (some u) + 1 ∧
        AugFrom g s.mR s.dist (alookup s.mR v))) →
    (∀ z, AugFrom g s.mR s.dist z ↔ AugFrom g s'.mR s'.dist z) ∧
    ¬ AugFrom g s.mR s.dist (some u) := by
  intro vs
  induction vs with
  | nil =>
    intro s s' heq hmr huL hufin hnone hPhi hvs hpre
    rw [dfsScan_nil] at heq
    injection heq with heq
    injection heq with hb heq
    subst heq
    have hnAu : ¬ AugFrom g s.mR s.dist (some u) := by
      intro haug
      cases haug with
      | step u v hv hguard hsub =>
        exact hpre v hv (List.not_mem_nil v) ⟨hguard, hsub⟩
    refine ⟨?_, hnAu⟩
    intro z
    exact AugFrom_mark g s.mR s.dist hnone u hnAu z
  | cons v vs ihvs =>
    intro s s' heq hmr huL hufin hnone hPhi hvs hpre
    by_cases hguard : s.dist (alookup s.mR v) = s.dist (some u) + 1
    · cases hc : F (alookup s.mR v) s with
      | none =>
        rw [dfsScan_cons_fuelout F u v vs s hguard hc] at heq
        exact absurd heq (by simp)
      | some p =>
        obtain ⟨bc, s₁⟩ := p
        cases bc with
        | true =>
          rw [dfsScan_cons_found F u v vs s s₁ hguard hc] at heq
          exact absurd heq (by simp)
        | false =>
          rw [dfsScan_cons_failed F u v vs s s₁ hguard hc] at heq
          have hcok : alookup s.mR v = none ∨
              ∃ w, alookup s.mR v = some w ∧ w ∈ L ∧ s.dist (some w) ≠ ⊤ := by
            cases hxc : alookup s.mR v with
            | none => exact Or.inl rfl
            | some w =>
              refine Or.inr ⟨w, rfl, hmr v w hxc, ?_⟩
              rw [← hxc, hguard]
              exact enat_add_one_ne_top hufin
          have hPhiC : Phi L s.dist (alookup s.mR v) < fuelp :=
            lt_of_lt_of_le (Phi_lt_of_guard L s.dist u _ huL hufin hguard) hPhi
          obtain ⟨hmL2, hmR2, hD2, hiff2, hnA2⟩ :=
            HF (alookup s.mR v) s s₁ hc hmr hcok hnone hPhiC
          rcases hcok with hxc | ⟨w, hxc, hwL, hwfin⟩
          · rw [hxc] at hnA2
            exact absurd AugFrom.base hnA2
          have hufix : s₁.dist (some u) = s.dist (some u) := by
            rcases hD2 (some u) with hy | ⟨-, -, h3, -⟩
            · exact hy
            · rw [hguard] at h3
              exact absurd h3 (enat_not_add_one_le hufin)
          have hnfix : s₁.dist none = s.dist none := by
            rcases hD2 none with hy | ⟨-, -, -, h4⟩
            · exact hy
            · rcases h4 with h4 | ⟨w', -, h4, -⟩
              · rw [hxc] at h4
                exact absurd h4 (by simp)
              · exact absurd h4 (by simp)
          have hzeq : ∀ v' : Nat, alookup s₁.mR v' = alookup s.mR v' := by
            intro v'; rw [hmR2]
          obtain ⟨iff₃, nAu₃⟩ := ihvs s₁ s' heq
            (by intro v' w' hw'; rw [hmR2] at hw'; exact hmr v' w' hw')
            huL (by rw [hufix]; exact hufin)
            (by rw [hnfix]; exact hnone)
            (le_trans
              (Phi_mono_of_dpost L s.dist s₁.dist u hufix (by
                intro w' hw'
                rcases hD2 (some w') with hy | ⟨h1, -, -, -⟩
                · exact hy
                · exact absurd h1 hw'))
              hPhi)
            (fun a ha => hvs (List.mem_cons_of_mem _ ha))
            (by
              intro v' hv' hnv'
              intro hand
              have haug : AugFrom g s.mR s.dist (alookup s.mR v') := by
                have := (hiff2 (alookup s₁.mR v')).mpr hand.2
                rw [hzeq v'] at this
                exact this
              by_cases hvv : v' = v
              · subst hvv
                exact hnA2 haug
              · have hnvv : v' ∉ v :: vs := by
                  intro hmem
                  rcases List.mem_cons.mp hmem with he | hmem
                  · exact hvv he
                  · exact hnv' hmem
                refine hpre v' hv' hnvv ⟨?_, haug⟩
                have hand1 := hand.1
                rw [hzeq v', hufix] at hand1
                rcases hD2 (alookup s.mR v') with hy | ⟨h1, -, -, -⟩
                · rw [← hy]; exact hand1
                · rw [h1] at hand1
                  exact absurd hand1.symm (enat_add_one_ne_top hufin))
          constructor
          · intro z
            exact Iff.trans (hiff2 z) (iff₃ z)
          · intro haug
            exact nAu₃ ((hiff2 (some u)).mp haug)
    · rw [dfsScan_cons_skip F u v vs s hguard] at heq
      refine ihvs s s' heq hmr huL hufin hnone hPhi
        (fun a ha => hvs (List.mem_cons_of_mem _ ha)) ?_
      intro v' hv' hnv'
      by_cases hvv : v' = v
      · subst hvv
        exact fun hand => hguard hand.1
      · refine hpre v' hv' ?_
        intro hmem
        rcases List.mem_cons.mp hmem with he | hmem
        · exact hvv he
        · exact hnv' hmem

/-- A failed DFS call has no layered augmenting path from its argument, and
leaves the set of nodes with layered augmenting paths unchanged. -/
theorem dfs_nAug (g : Nat → List Nat) (L : List Nat) :
    ∀ (fuel : ℕ) (x : Option Nat) (s : HKst) (b : Bool) (s' : HKst),
    dfs g fuel x s = some (b, s') →
    (∀ v w, alookup s.mR v = some w → w ∈ L) →
    (x = none ∨ ∃ u, x = some u ∧ u ∈ L ∧ s.dist (some u) ≠ ⊤) →
    s.dist none ≠ ⊤ →
    Phi L s.dist x < fuel →
    b = false →
    (∀ z, AugFrom g s.mR s.dist z ↔ AugFrom g s'.mR s'.dist z) ∧
    ¬ AugFrom g s.mR s.dist x := by
  intro fuel
  induction fuel with
  | zero => intro x s b s' heq; exact absurd heq (by simp [dfs_zero])
  | succ fuel ih =>
    intro x s b s' heq hmr hok hnone hPhi hb
    subst hb
    rcases hok with rfl | ⟨u, rfl, huL, hufin⟩
    · rw [dfs_succ_none] at heq
      injection heq with heq
      injection heq with hb' hs'
      exact absurd hb' (by simp)
    · rw [dfs_succ_some] at heq
      have HF : ∀ (xc : Option Nat) (t t₂ : HKst),
          dfs g fuel xc t = some (false, t₂) →
          (∀ v w, alookup t.mR v = some w → w ∈ L) →
          (xc = none ∨ ∃ w, xc = some w ∧ w ∈ L ∧ t.dist (some w) ≠ ⊤) →
          t.dist none ≠ ⊤ →
          Phi L t.dist xc < fuel →
          t₂.mL = t.mL ∧ t₂.mR = t.mR ∧ DPost t xc t₂ ∧
            (∀ z, AugFrom g t.mR t.dist z ↔ AugFrom g t₂.mR t₂.dist z) ∧
            ¬ AugFrom g t.mR t.dist xc := by
        intro xc t t₂ hceq hmr' hok' hnone' hPhi'
        obtain ⟨b₀, t₀, heq₀, hD₀, hF₀, -⟩ := (dfs_main g L fuel).1 xc t hmr' hok' hPhi'
        rw [hceq] at heq₀
        injection heq₀ with heq₀
        injection heq₀ with hb₀ ht₀
        subst ht₀
        obtain ⟨hml, hmrr⟩ := hF₀ hb₀.symm
        obtain ⟨hiff, hnaug⟩ := ih xc t false t₂ hceq hmr' hok' hnone' hPhi' rfl
        exact ⟨hml, hmrr, hD₀, hiff, hnaug⟩
      exact scan_nAug g L u (dfs g fuel) fuel HF (g u) s s' heq
        hmr huL hufin hnone (by omega) (fun a ha => ha)
        (fun v hv hnv => absurd hv hnv)

/-! ### DFS: the matching stays a well-formed matching -/

/-- Every `match_left` binding has a corresponding `match_right` binding. -/
def DIR1 (s : HKst) : Prop :=
  ∀ a b, alookup s.mL a = some b → alookup s.mR b = some a

/-- Every `match_right` binding has a corresponding `match_left` binding,
except possibly at one right node `e` (the dangling old partner in the middle
of an augmenting flip; `e = none` means no exception). -/
def DIR2x (s : HKst) (e : Option Nat) : Prop :=
  ∀ b a, alookup s.mR b = some a → alookup s.mL a = some b ∨ some b = e

/-- Every `match_left` binding is an edge of the graph from a left node. -/
def EDGES (g : Nat → List Nat) (L : List Nat) (s : HKst) : Prop :=
  ∀ a b, alookup s.mL a = some b → a ∈ L ∧ b ∈ g a

/-- Both matching dictionaries have pairwise-distinct keys. -/
def NK (s : HKst) : Prop :=
  (s.mL.map Prod.fst).Nodup ∧ (s.mR.map Prod.fst).Nodup

/-- Postcondition of a successful DFS from left node `u`: the matching is
rewired along the augmenting path.  `u` is newly matched; the two directions
stay coherent except possibly at `u`'s former partner; edges, distinct keys
and the set of matched lefts (grown exactly by `u`) are all tracked, and all
rewiring happens at nodes of distance at least that of `u`. -/
def MPost (g : Nat → List Nat) (L : List Nat) (u : Nat) (s s' : HKst) : Prop :=
  (∃ vstar, alookup s'.mL u = some vstar ∧
    ∀ vold, alookup s.mL u = some vold →
      vstar ≠ vold ∧ alookup s'.mR vold = alookup s.mR vold) ∧
  DIR1 s' ∧ DIR2x s' (alookup s.mL u) ∧ EDGES g L s' ∧ NK s' ∧
  (∀ a, alookup s'.mL a = none ↔ (alookup s.mL a = none ∧ a ≠ u)) ∧
  (∀ a, alookup s'.mL a ≠ alookup s.mL a →
    s.dist (some a) ≠ ⊤ ∧ s.dist (some u) ≤ s.dist (some a)) ∧
  (∀ b', alookup s'.mR b' ≠ alookup s.mR b' →
    (alookup s.mR b' = none ∨ ∃ a', alookup s.mR b' = some a' ∧
      s.dist (some a') ≠ ⊤ ∧ s.dist (some u) + 1 ≤ s.dist (some a')))

theorem enat_ne_add_one {a : ℕ∞} (h : a ≠ ⊤) : a ≠ a + 1 :=
  (enat_lt_add_one h).ne

/-- A successful DFS preserves well-formedness of the matching, restoring
full coherence when started from an unmatched left node. -/
theorem dfs_wf (g : Nat → List Nat) (L : List Nat) : ∀ fuel : ℕ,
    (∀ (x : Option Nat) (s : HKst) (b : Bool) (s' : HKst),
      dfs g fuel x s = some (b, s') →
      (∀ v w, alookup s.mR v = some w → w ∈ L) →
      (x = none ∨ ∃ u, x = some u ∧ u ∈ L ∧ s.dist (some u) ≠ ⊤) →
      Phi L s.dist x < fuel →
      DIR1 s → DIR2x s none → EDGES g L s → NK s →
      b = true →
      (x = none → s' = s) ∧ (∀ u, x = some u → MPost g L u s s')) ∧
    (∀ (u : Nat) (vs : List Nat) (s : HKst) (b : Bool) (s' : HKst),
      dfsScan (dfs g fuel) u vs s = some (b, s') →
      (∀ v w, alookup s.mR v = some w → w ∈ L) →
      u ∈ L → s.dist (some u) ≠ ⊤ →
      Phi L s.dist (some u) ≤ fuel →
      vs ⊆ g u →
      DIR1 s → DIR2x s none → EDGES g L s → NK s →
      b = true → MPost g L u s s') := by
  intro fuel
  induction fuel with
  | zero =>
    constructor
    · intro x s b s' heq
      exact absurd heq (by simp [dfs_zero])
    · intro u vs s b s' heq hmr huL hufin hPhi
      exfalso
      have hu1 : u ∈ L.toFinset.filter
          (fun w => s.dist (some w) ≠ ⊤ ∧ s.dist (some u) ≤ s.dist (some w)) :=
        Finset.mem_filter.mpr ⟨List.mem_toFinset.mpr huL, hufin, le_refl _⟩
      have hpos : 0 < Phi L s.dist (some u) := Finset.card_pos.mpr ⟨u, hu1⟩
      omega
  | succ fuel ih =>
    have A : ∀ (x : Option Nat) (s : HKst) (b : Bool) (s' : HKst),
        dfs g (fuel + 1) x s = some (b, s') →
        (∀ v w, alookup s.mR v = some w → w ∈ L) →
        (x = none ∨ ∃ u, x = some u ∧ u ∈ L ∧ s.dist (some u) ≠ ⊤) →
        Phi L s.dist x < fuel + 1 →
        DIR1 s → DIR2x s none → EDGES g L s → NK s →
        b = true →
        (x = none → s' = s) ∧ (∀ u, x = some u → MPost g L u s s') := by
      intro x s b s' heq hmr hok hPhi h1 h2 h3 h4 hb
      rcases hok with rfl | ⟨u, rfl, huL, hufin⟩
      · rw [dfs_succ_none] at heq
        injection heq with heq
        injection heq with hb' hs'
        exact ⟨fun _ => hs'.symm, fun u hu => absurd hu (by simp)⟩
      · rw [dfs_succ_some] at heq
        refine ⟨fun h => absurd h (by simp), fun u' hu' => ?_⟩
        injection hu' with hu'
        subst hu'
        exact ih.2 u (g u) s b s' heq hmr huL hufin (by omega)
          (fun a ha => ha) h1 h2 h3 h4 hb
    refine ⟨A, ?_⟩
    intro u vs
    induction vs with
    | nil =>
      intro s b s' heq hmr huL hufin hPhi hvs h1 h2 h3 h4 hb
      rw [dfsScan_nil] at heq
      injection heq with heq
      injection heq with hb' hs'
      rw [← hb'] at hb
      exact absurd hb (by simp)
    | cons v vs ihvs =>
      intro s b s' heq hmr huL hufin hPhi hvs h1 h2 h3 h4 hb
      by_cases hguard : s.dist (alookup s.mR v) = s.dist (some u) + 1
      · cases hc : dfs g (fuel + 1) (alookup s.mR v) s with
        | none =>
          rw [dfsScan_cons_fuelout _ u v vs s hguard hc] at heq
          exact absurd heq (by simp)
        | some p =>
          obtain ⟨bc, s₁⟩ := p
          have hcok : alookup s.mR v = none ∨
              ∃ w, alookup s.mR v = some w ∧ w ∈ L ∧ s.dist (some w) ≠ ⊤ := by
            cases hxc : alookup s.mR v with
            | none => exact Or.inl rfl
            | some w =>
              refine Or.inr ⟨w, rfl, hmr v w hxc, ?_⟩
              rw [← hxc, hguard]
              exact enat_add_one_ne_top hufin
          have hPhiC : Phi L s.dist (alookup s.mR v) < fuel + 1 :=
            lt_of_lt_of_le (Phi_lt_of_guard L s.dist u _ huL hufin hguard) hPhi
          cases bc with
          | false =>
            rw [dfsScan_cons_failed _ u v vs s s₁ hguard hc] at heq
            obtain ⟨b₀, t₀, heq₀, hD₀, hF₀, -⟩ :=
              (dfs_main g L (fuel + 1)).1 (alookup s.mR v) s hmr hcok hPhiC
            rw [hc] at heq₀
            injection heq₀ with heq₀
            injection heq₀ with hb₀ ht₀
            subst ht₀
            obtain ⟨hmL2, hmR2⟩ := hF₀ hb₀.symm
            have hufix : s₁.dist (some u) = s.dist (some u) := by
              rcases hD₀ (some u) with hy | ⟨-, -, h3', -⟩
              · exact hy
              · rw [hguard] at h3'
                exact absurd h3' (enat_not_add_one_le hufin)
            have hMP₁ := ihvs s₁ b s' heq
              (by intro v' w' hw'; rw [hmR2] at hw'; exact hmr v' w' hw')
              huL (by rw [hufix]; exact hufin)
              (le_trans (Phi_mono_of_dpost L s.dist s₁.dist u hufix (by
                intro w' hw'
                rcases hD₀ (some w') with hy | ⟨hh, -, -, -⟩
                · exact hy
                · exact absurd hh hw')) hPhi)
              (fun a ha => hvs (List.mem_cons_of_mem _ ha))
              (by intro a b' hab; rw [hmL2] at hab; rw [hmR2]; exact h1 a b' hab)
              (by intro b' a hab; rw [hmR2] at hab; rw [hmL2]; exact h2 b' a hab)
              (by intro a b' hab; rw [hmL2] at hab; exact h3 a b' hab)
              ⟨by rw [hmL2]; exact h4.1, by rw [hmR2]; exact h4.2⟩
              hb
            obtain ⟨⟨vstar, hvstar, hvold⟩, hdir1, hdir2, hedges, hnk, hkeys, hP7, hP8⟩ := hMP₁
            refine ⟨⟨vstar, hvstar, ?_⟩, hdir1, ?_, hedges, hnk, ?_, ?_, ?_⟩
            · intro vold hvold'
              obtain ⟨hne, heqv⟩ := hvold vold (by rw [hmL2]; exact hvold')
              exact ⟨hne, by rw [heqv, hmR2]⟩
            · rw [← hmL2]; exact hdir2
            · intro a
              rw [hkeys a, hmL2]
            · intro a ha
              rw [← hmL2] at ha
              obtain ⟨hfin', hge'⟩ := hP7 a ha
              have hsame : s₁.dist (some a) = s.dist (some a) := by
                rcases hD₀ (some a) with hy | ⟨hh, -, -, -⟩
                · exact hy
                · exact absurd hh hfin'
              exact ⟨by rw [← hsame]; exact hfin', by rw [← hsame, ← hufix]; exact hge'⟩
            · intro b' hb'
              rw [← hmR2] at hb'
              rcases hP8 b' hb' with hnone' | ⟨a', ha', hfin', hge'⟩
              · rw [hmR2] at hnone'; exact Or.inl hnone'
              · have hsame : s₁.dist (some a') = s.dist (some a') := by
                  rcases hD₀ (some a') with hy | ⟨hh, -, -, -⟩
                  · exact hy
                  · exact absurd hh hfin'
                refine Or.inr ⟨a', by rw [← hmR2]; exact ha',
                  by rw [← hsame]; exact hfin', ?_⟩
                rw [← hsame, ← hufix]; exact hge'
          | true =>
            rw [dfsScan_cons_found _ u v vs s s₁ hguard hc] at heq
            injection heq with heq
            injection heq with hb'' hs''
            subst hs''
            rcases hcok with hxc | ⟨w, hxc, hwL, hwfin⟩
            · rw [hxc] at hc
              rw [dfs_succ_none] at hc
              injection hc with hc
              injection hc with hbc hs₁
              subst hs₁
              refine ⟨⟨v, by rw [alookup_aset_self], ?_⟩, ?_, ?_, ?_, ?_, ?_, ?_, ?_⟩
              · intro vold hvold'
                have hvvold : v ≠ vold := by
                  intro he
                  have := h1 u vold hvold'
                  rw [← he, hxc] at this
                  exact absurd this (by simp)
                refine ⟨hvvold, ?_⟩
                rw [alookup_aset_ne _ _ _ (Ne.symm hvvold)]
              · intro a b' hab
                by_cases hau : a = u
                · subst hau
                  rw [alookup_aset_self] at hab
                  injection hab with hab
                  subst hab
                  rw [alookup_aset_self]
                · rw [alookup_aset_ne _ _ _ hau] at hab
                  have := h1 a b' hab
                  have hbv : b' ≠ v := by
                    intro he
                    rw [he, hxc] at this
                    exact absurd this (by simp)
                  rw [alookup_aset_ne _ _ _ hbv]
                  exact this
              · intro b' a hab
                by_cases hbv : b' = v
                · subst hbv
                  rw [alookup_aset_self] at hab
                  injection hab with hab
                  subst hab
                  exact Or.inl (by rw [alookup_aset_self])
                · rw [alookup_aset_ne _ _ _ hbv] at hab
                  rcases h2 b' a hab with hl | hr
                  · by_cases hau : a = u
                    · subst hau
                      exact Or.inr hl.symm
                    · exact Or.inl (by rw [alookup_aset_ne _ _ _ hau]; exact hl)
                  · exact absurd hr (by simp)
              · intro a b' hab
                by_cases hau : a = u
                · subst hau
                  rw [alookup_aset_self] at hab
                  injection hab with hab
                  subst hab
                  exact ⟨huL, hvs (List.mem_cons_self _ _)⟩
                · rw [alookup_aset_ne _ _ _ hau] at hab
                  exact h3 a b' hab
              · exact ⟨nodupkeys_aset _ h4.1, nodupkeys_aset _ h4.2⟩
              · intro a
                by_cases hau : a = u
                · subst hau
                  simp [alookup_aset_self]
                · rw [alookup_aset_ne _ _ _ hau]
                  constructor
                  · intro hh; exact ⟨hh, hau⟩
                  · intro hh; exact hh.1
              · intro a ha
                by_cases hau : a = u
                · subst hau
                  exact ⟨hufin, le_refl _⟩
                · rw [alookup_aset_ne _ _ _ hau] at ha
                  exact absurd rfl ha
              · intro b' hb'
                by_cases hbv : b' = v
                · subst hbv
                  exact Or.inl hxc
                · rw [alookup_aset_ne _ _ _ hbv] at hb'
                  exact absurd rfl hb'
            · have hgw : s.dist (some w) = s.dist (some u) + 1 := by
                rw [← hxc]; exact hguard
              have hwu : w ≠ u := by
                intro he
                rw [he] at hgw
                exact enat_ne_add_one hufin hgw
              have hwslot : alookup s.mL w = some v := by
                rcases h2 v w hxc with hl | hr
                · exact hl
                · exact absurd hr (by simp)
              obtain ⟨-, hCall⟩ := A (alookup s.mR v) s true s₁ hc hmr
                (Or.inr ⟨w, hxc, hwL, hwfin⟩) hPhiC h1 h2 h3 h4 rfl
              obtain ⟨⟨vc, hvc, hvoldc⟩, hC1, hC2, hC3, hC4, hC6, hC7, hC8⟩ :=
                hCall w hxc
              obtain ⟨hvcv, hmRv⟩ := hvoldc v hwslot
              have f2 : alookup s₁.mL u = alookup s.mL u := by
                by_contra hne
                obtain ⟨-, hge⟩ := hC7 u hne
                rw [hgw] at hge
                exact enat_not_add_one_le hufin hge
              refine ⟨⟨v, by rw [alookup_aset_self], ?_⟩, ?_, ?_, ?_, ?_, ?_, ?_, ?_⟩
              · intro vold hvold'
                have hvvold : v ≠ vold := by
                  intro he
                  have h1v := h1 u vold hvold'
                  rw [← he, hxc] at h1v
                  injection h1v with h1v
                  exact hwu h1v
                refine ⟨hvvold, ?_⟩
                rw [alookup_aset_ne _ _ _ (Ne.symm hvvold)]
                by_contra hne
                rcases hC8 vold hne with hnone' | ⟨a', ha', -, hge'⟩
                · rw [h1 u vold hvold'] at hnone'
                  exact absurd hnone' (by simp)
                · rw [h1 u vold hvold'] at ha'
                  injection ha' with ha'
                  subst ha'
                  rw [hgw] at hge'
                  exact enat_not_add_one_le hufin (le_trans le_self_add hge')
              · intro a b' hab
                by_cases hau : a = u
                · subst hau
                  rw [alookup_aset_self] at hab
                  injection hab with hab
                  subst hab
                  rw [alookup_aset_self]
                · rw [alookup_aset_ne _ _ _ hau] at hab
                  have hC1a := hC1 a b' hab
                  by_cases hbv : b' = v
                  · subst hbv
                    exfalso
                    rw [hmRv, hxc] at hC1a
                    injection hC1a with hC1a
                    subst hC1a
                    rw [hvc] at hab
                    injection hab with hab
                    exact hvcv hab
                  · rw [alookup_aset_ne _ _ _ hbv]
                    exact hC1a
              · intro b' a hab
                by_cases hbv : b' = v
                · subst hbv
                  rw [alookup_aset_self] at hab
                  injection hab with hab
                  subst hab
                  exact Or.inl (by rw [alookup_aset_self])
                · rw [alookup_aset_ne _ _ _ hbv] at hab
                  rcases hC2 b' a hab with hl | hr
                  · by_cases hau : a = u
                    · subst hau
                      rw [f2] at hl
                      exact Or.inr hl.symm
                    · exact Or.inl (by rw [alookup_aset_ne _ _ _ hau]; exact hl)
                  · rw [hwslot] at hr
                    injection hr with hr
                    exact absurd hr hbv
              · intro a b' hab
                by_cases hau : a = u
                · subst hau
                  rw [alookup_aset_self] at hab
                  injection hab with hab
                  subst hab
                  exact ⟨huL, hvs (List.mem_cons_self _ _)⟩
                · rw [alookup_aset_ne _ _ _ hau] at hab
                  exact hC3 a b' hab
              · exact ⟨nodupkeys_aset _ hC4.1, nodupkeys_aset _ hC4.2⟩
              · intro a
                by_cases hau : a = u
                · subst hau
                  simp [alookup_aset_self]
                · rw [alookup_aset_ne _ _ _ hau]
                  rw [hC6 a]
                  constructor
                  · intro hh; exact ⟨hh.1, hau⟩
                  · intro hh
                    refine ⟨hh.1, ?_⟩
                    intro he
                    rw [he, hwslot] at hh
                    exact absurd hh.1 (by simp)
              · intro a ha
                by_cases hau : a = u
                · subst hau
                  exact ⟨hufin, le_refl _⟩
                · rw [alookup_aset_ne _ _ _ hau] at ha
                  obtain ⟨hfin', hge'⟩ := hC7 a ha
                  refine ⟨hfin', ?_⟩
                  calc s.dist (some u) ≤ s.dist (some u) + 1 := le_self_add
                  _ = s.dist (some w) := hgw.symm
                  _ ≤ s.dist (some a) := hge'
              · intro b' hb'
                by_cases hbv : b' = v
                · subst hbv
                  refine Or.inr ⟨w, hxc, ?_, ?_⟩
                  · rw [hgw]; exact enat_add_one_ne_top hufin
                  · rw [hgw]
                · rw [alookup_aset_ne _ _ _ hbv] at hb'
                  rcases hC8 b' hb' with hnone' | ⟨a', ha', hfin', hge'⟩
                  · exact Or.inl hnone'
                  · refine Or.inr ⟨a', ha', hfin', ?_⟩
                    calc s.dist (some u) + 1 = s.dist (some w) := hgw.symm
                    _ ≤ s.dist (some w) + 1 := le_self_add
                    _ ≤ s.dist (some a') := hge'
      · rw [dfsScan_cons_skip _ u v vs s hguard] at heq
        exact ihvs s b s' heq hmr huL hufin hPhi
          (fun a ha => hvs (List.mem_cons_of_mem _ ha)) h1 h2 h3 h4 hb

/-! ### The augmenting phase -/

theorem dfsPhase_nil (g : Nat → List Nat) (fuelD : ℕ) (s : HKst) :
    dfsPhase g fuelD [] s = some s := rfl

theorem dfsPhase_cons_matched (g : Nat → List Nat) (fuelD : ℕ) (u : Nat)
    (us : List Nat) (s : HKst) (h : ¬ alookup s.mL u = none) :
    dfsPhase g fuelD (u :: us) s = dfsPhase g fuelD us s := by
  simp [dfsPhase, h]

theorem dfsPhase_cons_fuelout (g : Nat → List Nat) (fuelD : ℕ) (u : Nat)
    (us : List Nat) (s : HKst) (h : alookup s.mL u = none)
    (hd : dfs g fuelD (some u) s = none) :
    dfsPhase g fuelD (u :: us) s = none := by
  simp [dfsPhase, h, hd]

theorem dfsPhase_cons_free (g : Nat → List Nat) (fuelD : ℕ) (u : Nat)
    (us : List Nat) (s s₁ : HKst) (b : Bool) (h : alookup s.mL u = none)
    (hd : dfs g fuelD (some u) s = some (b, s₁)) :
    dfsPhase g fuelD (u :: us) s = dfsPhase g fuelD us s₁ := by
  simp [dfsPhase, h, hd]

/-- Invariants of the matching state, between DFS calls. -/
def HInv (g : Nat → List Nat) (L : List Nat) (s : HKst) : Prop :=
  DIR1 s ∧ DIR2x s none ∧ EDGES g L s ∧ NK s

theorem HInv_mr {g : Nat → List Nat} {L : List Nat} {s : HKst}
    (h : HInv g L s) : ∀ v w, alookup s.mR v = some w → w ∈ L := by
  intro v w hw
  rcases h.2.1 v w hw with hl | hr
  · exact (h.2.2.1 w v hl).1
  · exact absurd hr (by simp)

theorem free_not_matchedR {s : HKst} (h2 : DIR2x s none) {u : Nat}
    (hfree : alookup s.mL u = none) : ∀ v', alookup s.mR v' ≠ some u := by
  intro v' hv'
  rcases h2 v' u hv' with hl | hr
  · rw [hl] at hfree; exact absurd hfree (by simp)
  · exact absurd hr (by simp)

theorem Phi_le_len (L : List Nat) (d : Dist) (x : Option Nat) :
    Phi L d x ≤ L.length :=
  le_trans (Finset.card_filter_le _ _) L.toFinset_card_le

/-- If the key set grows by exactly the fresh key `t`, the length grows by
one. -/
theorem alen_succ {l l' : List (Nat × Nat)} {t : Nat}
    (hnd : (l.map Prod.fst).Nodup) (hnd' : (l'.map Prod.fst).Nodup)
    (hiff : ∀ a, alookup l' a = none ↔ (alookup l a = none ∧ a ≠ t))
    (ht : alookup l t = none) :
    l'.length = l.length + 1 := by
  have hmem : ∀ a, a ∈ l'.map Prod.fst ↔ a ∈ l.map Prod.fst ∨ a = t := by
    intro a
    constructor
    · intro ha
      by_contra hcon
      push_neg at hcon
      have := (hiff a).mpr ⟨(alookup_eq_none_iff l a).mpr hcon.1, hcon.2⟩
      exact (alookup_eq_none_iff l' a).mp this ha
    · intro ha
      by_contra hcon
      obtain ⟨hnone, hne⟩ := (hiff a).mp ((alookup_eq_none_iff l' a).mpr hcon)
      rcases ha with ha | rfl
      · exact (alookup_eq_none_iff l a).mp hnone ha
      · exact hne rfl
  have hfin : (l'.map Prod.fst).toFinset = insert t (l.map Prod.fst).toFinset := by
    ext a
    simp only [List.mem_toFinset, Finset.mem_insert]
    rw [hmem a]
    tauto
  have h1 : l'.length = (l'.map Prod.fst).toFinset.card := by
    rw [List.toFinset_card_of_nodup hnd', List.length_map]
  have h2 : l.length = (l.map Prod.fst).toFinset.card := by
    rw [List.toFinset_card_of_nodup hnd, List.length_map]
  rw [h1, h2, hfin, Finset.card_insert_of_not_mem (by
    rw [List.mem_toFinset]
    exact (alookup_eq_none_iff l t).mp ht)]

/-- The augmenting phase completes, preserves the matching invariants, and
never unmatches a left node. -/
theorem dfsPhase_spec (g : Nat → List Nat) (L : List Nat) :
    ∀ (tops : List Nat) (s : HKst),
    tops ⊆ L → tops.Nodup →
    HInv g L s →
    (∀ u ∈ tops, alookup s.mL u = none → s.dist (some u) ≠ ⊤) →
    ∃ s', dfsPhase g (L.length + 1) tops s = some s' ∧ HInv g L s' ∧
      s.mL.length ≤ s'.mL.length ∧
      (∀ a, alookup s'.mL a = none → alookup s.mL a = none) ∧
      (∀ y, s'.dist y = s.dist y ∨ s'.dist y = ⊤) := by
  intro tops
  induction tops with
  | nil =>
    intro s _ _ hinv _
    exact ⟨s, dfsPhase_nil g _ s, hinv, le_refl _, fun a ha => ha, fun y => Or.inl rfl⟩
  | cons t us ih =>
    intro s hsub hnd hinv hdist
    by_cases hfree : alookup s.mL t = none
    · have htL : t ∈ L := hsub (List.mem_cons_self _ _)
      have htfin : s.dist (some t) ≠ ⊤ := hdist t (List.mem_cons_self _ _) hfree
      obtain ⟨b, s₁, heq, hD, hF, -⟩ := (dfs_main g L (L.length + 1)).1 (some t) s
        (HInv_mr hinv) (Or.inr ⟨t, rfl, htL, htfin⟩)
        (lt_of_le_of_lt (Phi_le_len L s.dist (some t)) (by omega))
      have htnotin : t ∉ us := (List.nodup_cons.mp hnd).1
      cases b with
      | false =>
        obtain ⟨hmL1, hmR1⟩ := hF rfl
        have hdist₁ : ∀ u ∈ us, alookup s₁.mL u = none → s₁.dist (some u) ≠ ⊤ := by
          intro u hu hufree
          rw [hmL1] at hufree
          have hune : (some u : Option Nat) ≠ some t := by
            intro he
            injection he with he
            exact htnotin (he ▸ hu)
          have hunm : ∀ v', alookup s.mR v' ≠ some u :=
            free_not_matchedR hinv.2.1 hufree
          have hsame : s₁.dist (some u) = s.dist (some u) := by
            rcases hD (some u) with hy | ⟨-, -, -, h4⟩
            · exact hy
            · rcases h4 with he | ⟨w, v', hw, hl⟩
              · exact absurd he hune
              · injection hw with hw
                subst hw
                exact absurd hl (hunm v')
          rw [hsame]
          exact hdist u (List.mem_cons_of_mem _ hu) hufree
        obtain ⟨s', heq', hinv', hlen', hfree', hdist'⟩ := ih s₁
          (fun a ha => hsub (List.mem_cons_of_mem _ ha))
          (List.nodup_cons.mp hnd).2
          ⟨by intro a b' hab; rw [hmL1] at hab; rw [hmR1]; exact hinv.1 a b' hab,
           by intro b' a hab; rw [hmR1] at hab; rw [hmL1]; exact hinv.2.1 b' a hab,
           by intro a b' hab; rw [hmL1] at hab; exact hinv.2.2.1 a b' hab,
           ⟨by rw [hmL1]; exact hinv.2.2.2.1, by rw [hmR1]; exact hinv.2.2.2.2⟩⟩
          hdist₁
        refine ⟨s', by rw [dfsPhase_cons_free g _ t us s s₁ false hfree heq]; exact heq',
          hinv', ?_, ?_, ?_⟩
        · rw [hmL1] at hlen'
          exact hlen'
        · intro a ha
          have := hfree' a ha
          rw [hmL1] at this
          exact this
        · intro y
          rcases hdist' y with hy | hy
          · rcases hD y with hy' | ⟨hy', -⟩
            · exact Or.inl (by rw [hy, hy'])
            · exact Or.inr (by rw [hy, hy'])
          · exact Or.inr hy
      | true =>
        obtain ⟨-, hMP⟩ := (dfs_wf g L (L.length + 1)).1 (some t) s true s₁ heq
          (HInv_mr hinv) (Or.inr ⟨t, rfl, htL, htfin⟩)
          (lt_of_le_of_lt (Phi_le_len L s.dist (some t)) (by omega))
          hinv.1 hinv.2.1 hinv.2.2.1 hinv.2.2.2 rfl
        obtain ⟨-, hdir1, hdir2, hedges, hnk, hkeys, hP7, hP8⟩ := hMP t rfl
        rw [hfree] at hdir2
        have hinv₁ : HInv g L s₁ := ⟨hdir1, hdir2, hedges, hnk⟩
        have hlen₁ : s₁.mL.length = s.mL.length + 1 :=
          alen_succ hinv.2.2.2.1 hnk.1 hkeys hfree
        have hdist₁ : ∀ u ∈ us, alookup s₁.mL u = none → s₁.dist (some u) ≠ ⊤ := by
          intro u hu hufree
          have hufree0 : alookup s.mL u = none ∧ u ≠ t := (hkeys u).mp hufree
          have hune : (some u : Option Nat) ≠ some t := by
            intro he
            injection he with he
            exact hufree0.2 he
          have hunm : ∀ v', alookup s.mR v' ≠ some u :=
            free_not_matchedR hinv.2.1 hufree0.1
          have hsame : s₁.dist (some u) = s.dist (some u) := by
            rcases hD (some u) with hy | ⟨-, -, -, h4⟩
            · exact hy
            · rcases h4 with he | ⟨w, v', hw, hl⟩
              · exact absurd he hune
              · injection hw with hw
                subst hw
                exact absurd hl (hunm v')
          rw [hsame]
          exact hdist u (List.mem_cons_of_mem _ hu) hufree0.1
        obtain ⟨s', heq', hinv', hlen', hfree', hdist'⟩ := ih s₁
          (fun a ha => hsub (List.mem_cons_of_mem _ ha))
          (List.nodup_cons.mp hnd).2 hinv₁ hdist₁
        refine ⟨s', by rw [dfsPhase_cons_free g _ t us s s₁ true hfree heq]; exact heq',
          hinv', by omega, ?_, ?_⟩
        · intro a ha
          exact ((hkeys a).mp (hfree' a ha)).1
        · intro y
          rcases hdist' y with hy | hy
          · rcases hD y with hy' | ⟨hy', -⟩
            · exact Or.inl (by rw [hy, hy'])
            · exact Or.inr (by rw [hy, hy'])
          · exact Or.inr hy
    · have hdist' : ∀ u ∈ us, alookup s.mL u = none → s.dist (some u) ≠ ⊤ :=
        fun u hu => hdist u (List.mem_cons_of_mem _ hu)
      obtain ⟨s', heq', hinv', hlen', hfree', hdist''⟩ := ih s
        (fun a ha => hsub (List.mem_cons_of_mem _ ha))
        (List.nodup_cons.mp hnd).2 hinv hdist'
      exact ⟨s', by rw [dfsPhase_cons_matched g _ t us s hfree]; exact heq',
        hinv', hlen', hfree', hdist''⟩

/-- If some unmatched left node has a layered augmenting path when the phase
starts, the phase strictly enlarges the matching. -/
theorem dfsPhase_progress (g : Nat → List Nat) (L : List Nat) :
    ∀ (tops : List Nat) (s : HKst),
    tops ⊆ L → tops.Nodup →
    HInv g L s →
    (∀ u ∈ tops, alookup s.mL u = none → s.dist (some u) ≠ ⊤) →
    s.dist none ≠ ⊤ →
    (∃ u ∈ tops, alookup s.mL u = none ∧ AugFrom g s.mR s.dist (some u)) →
    ∀ s', dfsPhase g (L.length + 1) tops s = some s' →
    s.mL.length < s'.mL.length := by
  intro tops
  induction tops with
  | nil =>
    intro s _ _ _ _ _ hex
    obtain ⟨u, hu, -⟩ := hex
    exact absurd hu (List.not_mem_nil u)
  | cons t us ih =>
    intro s hsub hnd hinv hdist hnone hex s' heqall
    by_cases hfree : alookup s.mL t = none
    · have htL : t ∈ L := hsub (List.mem_cons_self _ _)
      have htfin : s.dist (some t) ≠ ⊤ := hdist t (List.mem_cons_self _ _) hfree
      obtain ⟨b, s₁, heq, hD, hF, -⟩ := (dfs_main g L (L.length + 1)).1 (some t) s
        (HInv_mr hinv) (Or.inr ⟨t, rfl, htL, htfin⟩)
        (lt_of_le_of_lt (Phi_le_len L s.dist (some t)) (by omega))
      have htnotin : t ∉ us := (List.nodup_cons.mp hnd).1
      rw [dfsPhase_cons_free g _ t us s s₁ b hfree heq] at heqall
      cases b with
      | true =>
        obtain ⟨-, hMP⟩ := (dfs_wf g L (L.length + 1)).1 (some t) s true s₁ heq
          (HInv_mr hinv) (Or.inr ⟨t, rfl, htL, htfin⟩)
          (lt_of_le_of_lt (Phi_le_len L s.dist (some t)) (by omega))
          hinv.1 hinv.2.1 hinv.2.2.1 hinv.2.2.2 rfl
        obtain ⟨-, hdir1, hdir2, hedges, hnk, hkeys, -, -⟩ := hMP t rfl
        rw [hfree] at hdir2
        have hinv₁ : HInv g L s₁ := ⟨hdir1, hdir2, hedges, hnk⟩
        have hlen₁ : s₁.mL.length = s.mL.length + 1 :=
          alen_succ hinv.2.2.2.1 hnk.1 hkeys hfree
        have hdist₁ : ∀ u ∈ us, alookup s₁.mL u = none → s₁.dist (some u) ≠ ⊤ := by
          intro u hu hufree
          have hufree0 : alookup s.mL u = none ∧ u ≠ t := (hkeys u).mp hufree
          have hune : (some u : Option Nat) ≠ some t := by
            intro he
            injection he with he
            exact hufree0.2 he
          have hunm : ∀ v', alookup s.mR v' ≠ some u :=
            free_not_matchedR hinv.2.1 hufree0.1
          have hsame : s₁.dist (some u) = s.dist (some u) := by
            rcases hD (some u) with hy | ⟨-, -, -, h4⟩
            · exact hy
            · rcases h4 with he | ⟨w, v', hw, hl⟩
              · exact absurd he hune
              · injection hw with hw
                subst hw
                exact absurd hl (hunm v')
          rw [hsame]
          exact hdist u (List.mem_cons_of_mem _ hu) hufree0.1
        obtain ⟨s'', heq'', -, hlen'', -, -⟩ := dfsPhase_spec g L us s₁
          (fun a ha => hsub (List.mem_cons_of_mem _ ha))
          (List.nodup_cons.mp hnd).2 hinv₁ hdist₁
        rw [heqall] at heq''
        injection heq'' with heq''
        rw [← heq''] at hlen''
        omega
      | false =>
        obtain ⟨hmL1, hmR1⟩ := hF rfl
        obtain ⟨hiff, hnaug⟩ := dfs_nAug g L (L.length + 1) (some t) s false s₁ heq
          (HInv_mr hinv) (Or.inr ⟨t, rfl, htL, htfin⟩) hnone
          (lt_of_le_of_lt (Phi_le_len L s.dist (some t)) (by omega)) rfl
        obtain ⟨ustar, hustar, hufree, huaug⟩ := hex
        have hust : ustar ≠ t := by
          intro he
          rw [he] at huaug
          exact hnaug huaug
        have hustar' : ustar ∈ us := by
          rcases List.mem_cons.mp hustar with he | hm
          · exact absurd he hust
          · exact hm
        have hnone₁ : s₁.dist none = s.dist none := by
          rcases hD none with hy | ⟨-, -, -, h4⟩
          · exact hy
          · rcases h4 with he | ⟨w, v', hw, -⟩
            · exact absurd he (by simp)
            · exact absurd hw (by simp)
        have hdist₁ : ∀ u ∈ us, alookup s₁.mL u = none → s₁.dist (some u) ≠ ⊤ := by
          intro u hu hufree'
          rw [hmL1] at hufree'
          have hune : (some u : Option Nat) ≠ some t := by
            intro he
            injection he with he
            exact htnotin (he ▸ hu)
          have hunm : ∀ v', alookup s.mR v' ≠ some u :=
            free_not_matchedR hinv.2.1 hufree'
          have hsame : s₁.dist (some u) = s.dist (some u) := by
            rcases hD (some u) with hy | ⟨-, -, -, h4⟩
            · exact hy
            · rcases h4 with he | ⟨w, v', hw, hl⟩
              · exact absurd he hune
              · injection hw with hw
                subst hw
                exact absurd hl (hunm v')
          rw [hsame]
          exact hdist u (List.mem_cons_of_mem _ hu) hufree'
        have hlt := ih s₁
          (fun a ha => hsub (List.mem_cons_of_mem _ ha))
          (List.nodup_cons.mp hnd).2
          ⟨by intro a b' hab; rw [hmL1] at hab; rw [hmR1]; exact hinv.1 a b' hab,
           by intro b' a hab; rw [hmR1] at hab; rw [hmL1]; exact hinv.2.1 b' a hab,
           by intro a b' hab; rw [hmL1] at hab; exact hinv.2.2.1 a b' hab,
           ⟨by rw [hmL1]; exact hinv.2.2.2.1, by rw [hmR1]; exact hinv.2.2.2.2⟩⟩
          hdist₁
          (by rw [hnone₁]; exact hnone)
          ⟨ustar, hustar', by rw [hmL1]; exact hufree, (hiff (some ustar)).mp huaug⟩
          s' heqall
        rw [hmL1] at hlt
        exact hlt
    · obtain ⟨ustar, hustar, hufree, huaug⟩ := hex
      have hust : ustar ≠ t := by
        intro he
        rw [he] at hufree
        exact hfree hufree
      have hustar' : ustar ∈ us := by
        rcases List.mem_cons.mp hustar with he | hm
        · exact absurd he hust
        · exact hm
      rw [dfsPhase_cons_matched g _ t us s hfree] at heqall
      exact ih s (fun a ha => hsub (List.mem_cons_of_mem _ ha))
        (List.nodup_cons.mp hnd).2 hinv
        (fun u hu => hdist u (List.mem_cons_of_mem _ hu)) hnone
        ⟨ustar, hustar', hufree, huaug⟩ s' heqall

/-! ### The outer round loop -/

/-- When the BFS reaches the sentinel, some unmatched left node has a layered
augmenting path (extracted from the provenance of finite distances). -/
theorem exists_aug_seed (g : Nat → List Nat) (mL mR : List (Nat × Nat))
    (L : List Nat) (d : Dist) (hprov : ProvInv g mL mR L d)
    (hnone : d none ≠ ⊤) :
    ∃ u ∈ L, alookup mL u = none ∧ AugFrom g mR d (some u) := by
  have descend : ∀ n : ℕ, ∀ u : Nat, d (some u) = (n : ℕ∞) →
      AugFrom g mR d (some u) →
      ∃ u' ∈ L, alookup mL u' = none ∧ AugFrom g mR d (some u') := by
    intro n
    induction n using Nat.strong_induction_on with
    | _ n ihn =>
      intro u hd haug
      rcases hprov (some u) (by rw [hd]; exact WithTop.coe_ne_top) with
        ⟨u', hu'L, he, -, hfree⟩ | ⟨u₁, v, hfin, hv, hlk, hval⟩
      · injection he with he
        refine ⟨u, ?_, ?_, haug⟩
        · rw [he]; exact hu'L
        · rw [he]; exact hfree
      · have haug₁ : AugFrom g mR d (some u₁) := by
          refine .step u₁ v hv ?_ ?_
          · rw [hlk]
            exact hval
          · rw [hlk]
            exact haug
        cases hd1 : d (some u₁) with
        | top => exact absurd hd1 hfin
        | coe m =>
          refine ihn m ?_ u₁ hd1 haug₁
          rw [hd, hd1] at hval
          have hval' : (n : ℕ∞) = (m + 1 : ℕ) := by
            rw [hval]
            simp [Nat.cast_add]
          have : n = m + 1 := by exact_mod_cast hval'
          omega
  rcases hprov none hnone with ⟨u', -, he, -, -⟩ | ⟨u₁, v, hfin, hv, hlk, hval⟩
  · exact absurd he (by simp)
  · have haug₁ : AugFrom g mR d (some u₁) := by
      refine .step u₁ v hv ?_ ?_
      · rw [hlk]
        exact hval
      · rw [hlk]
        exact .base
    cases hd1 : d (some u₁) with
    | top => exact absurd hd1 hfin
    | coe m => exact descend m u₁ hd1 haug₁

theorem hkLoop_zero (g : Nat → List Nat) (L : List Nat) (s : HKst) :
    hkLoop g L 0 s = none := rfl

theorem hkLoop_succ_false (g : Nat → List Nat) (L : List Nat) (fuel : ℕ)
    (s s₁ : HKst) (h : bfs g L s = some (s₁, false)) :
    hkLoop g L (fuel + 1) s = some s₁ := by
  simp [hkLoop, h]

theorem hkLoop_succ_true (g : Nat → List Nat) (L : List Nat) (fuel : ℕ)
    (s s₁ s₂ : HKst) (h : bfs g L s = some (s₁, true))
    (hp : dfsPhase g (L.length + 1) L s₁ = some s₂) :
    hkLoop g L (fuel + 1) s = hkLoop g L fuel s₂ := by
  simp [hkLoop, h, hp]

theorem mL_len_le {g : Nat → List Nat} {L : List Nat} {s : HKst}
    (hinv : HInv g L s) (hnd : L.Nodup) : s.mL.length ≤ L.length := by
  have hsub : (s.mL.map Prod.fst).toFinset ⊆ L.toFinset := by
    intro a ha
    rw [List.mem_toFinset] at ha
    have hne : alookup s.mL a ≠ none :=
      fun hnone => (alookup_eq_none_iff s.mL a).mp hnone ha
    cases hx : alookup s.mL a with
    | none => exact absurd hx hne
    | some b => exact List.mem_toFinset.mpr (hinv.2.2.1 a b hx).1
  have h1 : s.mL.length = (s.mL.map Prod.fst).toFinset.card := by
    rw [List.toFinset_card_of_nodup hinv.2.2.2.1, List.length_map]
  rw [h1, ← List.toFinset_card_of_nodup hnd]
  exact Finset.card_le_card hsub

/-- Main loop lemma: the rounds terminate within the fuel and the final state
satisfies the BFS failure facts (König-style certificate). -/
theorem hkLoop_spec (g : Nat → List Nat) (L : List Nat) (hLnd : L.Nodup) :
    ∀ (fuel : ℕ) (s : HKst),
    HInv g L s → DistDom L s.dist →
    L.length < fuel + s.mL.length →
    ∃ s', hkLoop g L fuel s = some s' ∧ HInv g L s' ∧
      s'.dist none = ⊤ ∧
      (∀ u ∈ L, alookup s'.mL u = none → s'.dist (some u) ≠ ⊤) ∧
      (∀ u : Nat, s'.dist (some u) ≠ ⊤ →
        ∀ v ∈ g u, s'.dist (alookup s'.mR v) ≠ ⊤) := by
  intro fuel
  induction fuel with
  | zero =>
    intro s hinv hdom hlt
    exfalso
    have := mL_len_le hinv hLnd
    omega
  | succ fuel ih =>
    intro s hinv hdom hlt
    obtain ⟨s₁, b, hbfs⟩ := bfs_total g L s (HInv_mr hinv)
    obtain ⟨hmL1, hmR1, hbiff, hfree0, hK2, hprov, hdompres⟩ :=
      bfs_spec g L s s₁ b hbfs
    cases b with
    | false =>
      have htop : s₁.dist none = ⊤ := hbiff.mp rfl
      refine ⟨s₁, hkLoop_succ_false g L fuel s s₁ hbfs,
        ⟨by intro a bb hab; rw [hmL1] at hab; rw [hmR1]; exact hinv.1 a bb hab,
         by intro bb a hab; rw [hmR1] at hab; rw [hmL1]; exact hinv.2.1 bb a hab,
         by intro a bb hab; rw [hmL1] at hab; exact hinv.2.2.1 a bb hab,
         ⟨by rw [hmL1]; exact hinv.2.2.2.1, by rw [hmR1]; exact hinv.2.2.2.2⟩⟩,
        htop, ?_, ?_⟩
      · intro u hu hufree
        rw [hmL1] at hufree
        rw [hfree0 u hu hufree]
        simp
      · intro u hu v hv
        rw [hmR1]
        exact hK2 hdom rfl u hu v hv
    | true =>
      have hntop : s₁.dist none ≠ ⊤ := by
        intro htop
        have := hbiff.mpr htop
        simp at this
      obtain ⟨ustar, hustarL, hustarfree, hustaraug⟩ :=
        exists_aug_seed g s.mL s.mR L s₁.dist (hprov hdom) hntop
      have hdist₁ : ∀ u ∈ L, alookup s₁.mL u = none → s₁.dist (some u) ≠ ⊤ := by
        intro u hu hufree
        rw [hmL1] at hufree
        rw [hfree0 u hu hufree]
        simp
      have hinv₁ : HInv g L s₁ :=
        ⟨by intro a bb hab; rw [hmL1] at hab; rw [hmR1]; exact hinv.1 a bb hab,
         by intro bb a hab; rw [hmR1] at hab; rw [hmL1]; exact hinv.2.1 bb a hab,
         by intro a bb hab; rw [hmL1] at hab; exact hinv.2.2.1 a bb hab,
         ⟨by rw [hmL1]; exact hinv.2.2.2.1, by rw [hmR1]; exact hinv.2.2.2.2⟩⟩
      obtain ⟨s₂, hphase, hinv₂, hlen₂, -, hdist₂⟩ :=
        dfsPhase_spec g L L s₁ (fun a ha => ha) hLnd hinv₁ hdist₁
      have hgrow := dfsPhase_progress g L L s₁ (fun a ha => ha) hLnd hinv₁ hdist₁
        hntop ⟨ustar, hustarL, by rw [hmL1]; exact hustarfree,
          by rw [hmR1]; exact hustaraug⟩ s₂ hphase
      have hdom₂ : DistDom L s₂.dist := by
        intro y hy
        rcases hdist₂ y with hy' | hy'
        · exact hdompres (HInv_mr hinv) hdom y (by rw [← hy']; exact hy)
        · exact absurd hy' hy
      obtain ⟨s', heq', hrest⟩ := ih s₂ hinv₂ hdom₂ (by
        rw [hmL1] at hgrow
        omega)
      exact ⟨s', by rw [hkLoop_succ_true g L fuel s s₁ s₂ hbfs hphase]; exact heq', hrest⟩

/-! ### Specification of `hopcroft_karp` -/

/-- `M` (an association list left node ↦ right node) is a matching of the
bipartite graph with left nodes `L` and adjacency `g`: every pair is an edge,
no left node is used twice and no right node is used twice. -/
def isMatchingList (g : Nat → List Nat) (L : List Nat)
    (M : List (Nat × Nat)) : Prop :=
  (∀ p ∈ M, p.1 ∈ L ∧ p.2 ∈ g p.1) ∧
  (M.map Prod.fst).Nodup ∧ (M.map Prod.snd).Nodup

theorem fst_inj {α β : Type} [DecidableEq α] {l : List (α × β)}
    (hnd : (l.map Prod.fst).Nodup) {a : α} {b₁ b₂ : β}
    (h₁ : (a, b₁) ∈ l) (h₂ : (a, b₂) ∈ l) : b₁ = b₂ := by
  have e₁ := alookup_of_mem hnd h₁
  have e₂ := alookup_of_mem hnd h₂
  rw [e₁] at e₂
  injection e₂

theorem snd_inj {α β : Type} [DecidableEq β] {l : List (α × β)}
    (hnd : (l.map Prod.snd).Nodup) {a₁ a₂ : α} {b : β}
    (h₁ : (a₁, b) ∈ l) (h₂ : (a₂, b) ∈ l) : a₁ = a₂ := by
  have hcomp : (Prod.fst ∘ Prod.swap : α × β → β) = Prod.snd := rfl
  have hnd' : ((l.map Prod.swap).map Prod.fst).Nodup := by
    rw [List.map_map, hcomp]
    exact hnd
  have h₁s : (b, a₁) ∈ l.map Prod.swap := List.mem_map_of_mem Prod.swap h₁
  have h₂s : (b, a₂) ∈ l.map Prod.swap := List.mem_map_of_mem Prod.swap h₂
  exact fst_inj hnd' h₁s h₂s

theorem map_snd_nodup {l : List (Nat × Nat)}
    (hnd : (l.map Prod.fst).Nodup)
    (hinj : ∀ a₁ a₂ b, (a₁, b) ∈ l → (a₂, b) ∈ l → a₁ = a₂) :
    (l.map Prod.snd).Nodup := by
  induction l with
  | nil => simp
  | cons p t ih =>
    obtain ⟨a, b⟩ := p
    simp only [List.map_cons, List.nodup_cons] at hnd ⊢
    constructor
    · intro hmem
      obtain ⟨⟨a', b'⟩, hmem', he⟩ := List.mem_map.mp hmem
      dsimp at he
      rw [he] at hmem'
      have haa : a = a' := hinj a a' b (List.mem_cons_self _ _)
        (List.mem_cons_of_mem _ hmem')
      have hf := List.mem_map_of_mem Prod.fst hmem'
      rw [← haa] at hf
      exact hnd.1 hf
    · exact ih hnd.2 (fun a₁ a₂ b' h₁ h₂ =>
        hinj a₁ a₂ b' (List.mem_cons_of_mem _ h₁) (List.mem_cons_of_mem _ h₂))

/-- Main specification of `hopcroft_karp`: for distinct left nodes, the run
completes and returns a matching of maximum cardinality among all matchings
of the graph. -/
theorem hopcroft_karp_spec (g : Nat → List Nat) (L : List Nat)
    (hLnd : L.Nodup) :
    ∃ m, hopcroft_karp g L = some m ∧ isMatchingList g L m ∧
      ∀ M, isMatchingList g L M → M.length ≤ m.length := by
  have hinv₀ : HInv g L (⟨[], [], fun _ => ⊤⟩ : HKst) := by
    refine ⟨?_, ?_, ?_, ⟨by simp, by simp⟩⟩
    · intro a b hab; exact absurd hab (by simp [alookup_nil])
    · intro b a hab; exact absurd hab (by simp [alookup_nil])
    · intro a b hab; exact absurd hab (by simp [alookup_nil])
  have hdom₀ : DistDom L (⟨[], [], fun _ => ⊤⟩ : HKst).dist := by
    intro x hx
    exact absurd rfl hx
  obtain ⟨s', heq, hinv', htop, hK1, hK2⟩ := hkLoop_spec g L hLnd (L.length + 1)
    ⟨[], [], fun _ => ⊤⟩ hinv₀ hdom₀ (by simp)
  have hmem_lookup : ∀ a b, (a, b) ∈ s'.mL → alookup s'.mL a = some b :=
    fun a b h => alookup_of_mem hinv'.2.2.2.1 h
  refine ⟨s'.mL, by simp [hopcroft_karp, heq], ⟨?_, hinv'.2.2.2.1, ?_⟩, ?_⟩
  · intro p hp
    obtain ⟨a, b⟩ := p
    exact hinv'.2.2.1 a b (hmem_lookup a b hp)
  · refine map_snd_nodup hinv'.2.2.2.1 ?_
    intro a₁ a₂ b h₁ h₂
    have e₁ := hinv'.1 a₁ b (hmem_lookup a₁ b h₁)
    have e₂ := hinv'.1 a₂ b (hmem_lookup a₂ b h₂)
    rw [e₁] at e₂
    exact Option.some_injective _ e₂
  · intro M hM
    obtain ⟨hMedge, hMfst, hMsnd⟩ := hM
    -- every matching edge can be mapped to a final-matching edge
    have key : ∀ a b, (a, b) ∈ M → s'.dist (some a) ≠ ⊤ →
        ∃ w, alookup s'.mR b = some w ∧ s'.dist (some w) ≠ ⊤ ∧
          alookup s'.mL w = some b := by
      intro a b hab hfin
      obtain ⟨-, hbg⟩ := hMedge (a, b) hab
      have hK2b := hK2 a hfin b hbg
      cases hx : alookup s'.mR b with
      | none =>
        rw [hx] at hK2b
        exact absurd htop hK2b
      | some w =>
        rw [hx] at hK2b
        rcases hinv'.2.1 b w hx with hl | hr
        · exact ⟨w, rfl, hK2b, hl⟩
        · exact absurd hr (by simp)
    have keyT : ∀ a b, (a, b) ∈ M → s'.dist (some a) = ⊤ →
        ∃ c, alookup s'.mL a = some c := by
      intro a b hab hfin
      obtain ⟨haL, -⟩ := hMedge (a, b) hab
      cases hx : alookup s'.mL a with
      | none => exact absurd (hK1 a haL hx) (by simp [hfin])
      | some c => exact ⟨c, rfl⟩
    have hMnd : M.Nodup := List.Nodup.of_map Prod.fst hMfst
    have hmLnd : s'.mL.Nodup := List.Nodup.of_map Prod.fst hinv'.2.2.2.1
    have hcard : M.toFinset.card ≤ s'.mL.toFinset.card := by
      refine Finset.card_le_card_of_injOn
        (fun p => if s'.dist (some p.1) = ⊤ then
          (p.1, (alookup s'.mL p.1).getD 0)
        else ((alookup s'.mR p.2).getD 0, p.2)) ?_ ?_
      · intro p hp
        rw [List.mem_toFinset] at hp
        obtain ⟨a, b⟩ := p
        rw [List.mem_toFinset]
        dsimp only
        by_cases hfin : s'.dist (some a) = ⊤
        · rw [if_pos hfin]
          obtain ⟨c, hc⟩ := keyT a b hp hfin
          rw [hc]
          simp only [Option.getD_some]
          exact mem_of_alookup hc
        · rw [if_neg hfin]
          obtain ⟨w, hw, -, hwb⟩ := key a b hp hfin
          rw [hw]
          simp only [Option.getD_some]
          exact mem_of_alookup hwb
      · intro p₁ hp₁ p₂ hp₂ hphi
        rw [Finset.mem_coe, List.mem_toFinset] at hp₁ hp₂
        obtain ⟨a₁, b₁⟩ := p₁
        obtain ⟨a₂, b₂⟩ := p₂
        dsimp only at hphi
        by_cases hf₁ : s'.dist (some a₁) = ⊤ <;>
          by_cases hf₂ : s'.dist (some a₂) = ⊤
        · rw [if_pos hf₁, if_pos hf₂] at hphi
          injection hphi with ha hb
          subst ha
          rw [fst_inj hMfst hp₁ hp₂]
        · rw [if_pos hf₁, if_neg hf₂] at hphi
          obtain ⟨w₂, hw₂, hw₂fin, -⟩ := key a₂ b₂ hp₂ hf₂
          rw [hw₂] at hphi
          simp only [Option.getD_some] at hphi
          injection hphi with ha hb
          rw [← ha] at hw₂fin
          exact absurd hf₁ hw₂fin
        · rw [if_neg hf₁, if_pos hf₂] at hphi
          obtain ⟨w₁, hw₁, hw₁fin, -⟩ := key a₁ b₁ hp₁ hf₁
          rw [hw₁] at hphi
          simp only [Option.getD_some] at hphi
          injection hphi with ha hb
          rw [ha] at hw₁fin
          exact absurd hf₂ hw₁fin
        · rw [if_neg hf₁, if_neg hf₂] at hphi
          obtain ⟨w₁, hw₁, -, -⟩ := key a₁ b₁ hp₁ hf₁
          obtain ⟨w₂, hw₂, -, -⟩ := key a₂ b₂ hp₂ hf₂
          rw [hw₁, hw₂] at hphi
          simp only [Option.getD_some] at hphi
          injection hphi with ha hb
          subst hb
          rw [snd_inj hMsnd hp₁ hp₂]
    rw [← List.toFinset_card_of_nodup hMnd, ← List.toFinset_card_of_nodup hmLnd]
    exact hcard

theorem nodup_subset_le_dedup {l w : List Nat} (hnd : l.Nodup)
    (hsub : ∀ x ∈ l, x ∈ w) : l.length ≤ w.dedup.length := by
  rw [← List.toFinset_card_of_nodup hnd,
    ← List.toFinset_card_of_nodup w.nodup_dedup]
  refine Finset.card_le_card ?_
  intro x hx
  rw [List.mem_toFinset] at hx ⊢
  rw [List.mem_dedup]
  exact hsub x hx

/-- One BFS-successful round strictly enlarges the matching (used for the
termination argument and stated by the spec). -/
theorem hkRound_progress (g : Nat → List Nat) (L : List Nat) (hLnd : L.Nodup)
    (s s₁ : HKst) (hinv : HInv g L s) (hdom : DistDom L s.dist)
    (hbfs : bfs g L s = some (s₁, true)) :
    ∃ s₂, dfsPhase g (L.length + 1) L s₁ = some s₂ ∧
      s.mL.length < s₂.mL.length := by
  obtain ⟨hmL1, hmR1, hbiff, hfree0, -, hprov, -⟩ := bfs_spec g L s s₁ true hbfs
  have hntop : s₁.dist none ≠ ⊤ := by
    intro htop
    have := hbiff.mpr htop
    simp at this
  obtain ⟨ustar, hustarL, hustarfree, hustaraug⟩ :=
    exists_aug_seed g s.mL s.mR L s₁.dist (hprov hdom) hntop
  have hdist₁ : ∀ u ∈ L, alookup s₁.mL u = none → s₁.dist (some u) ≠ ⊤ := by
    intro u hu hufree
    rw [hmL1] at hufree
    rw [hfree0 u hu hufree]
    simp
  have hinv₁ : HInv g L s₁ :=
    ⟨by intro a bb hab; rw [hmL1] at hab; rw [hmR1]; exact hinv.1 a bb hab,
     by intro bb a hab; rw [hmR1] at hab; rw [hmL1]; exact hinv.2.1 bb a hab,
     by intro a bb hab; rw [hmL1] at hab; exact hinv.2.2.1 a bb hab,
     ⟨by rw [hmL1]; exact hinv.2.2.2.1, by rw [hmR1]; exact hinv.2.2.2.2⟩⟩
  obtain ⟨s₂, hphase, -, -, -, -⟩ :=
    dfsPhase_spec g L L s₁ (fun a ha => ha) hLnd hinv₁ hdist₁
  have hgrow := dfsPhase_progress g L L s₁ (fun a ha => ha) hLnd hinv₁ hdist₁
    hntop ⟨ustar, hustarL, by rw [hmL1]; exact hustarfree,
      by rw [hmR1]; exact hustaraug⟩ s₂ hphase
  rw [hmL1] at hgrow
  exact ⟨s₂, hphase, hgrow⟩

/-- C1: for every finite bipartite graph, given as a mapping from each left
node to a list of right nodes together with the (duplicate-free) list of left
nodes, `hopcroft_karp` returns a mapping that is a matching of that graph —
every pair `(u, result[u])` is an edge and no right node is assigned to two
left nodes — whose cardinality is maximum among all matchings of the
graph. -/
theorem C1_hopcroft_karp_maximum_matching (g : Nat → List Nat) (L : List Nat)
    (hL : L.Nodup) :
    ∃ m, hopcroft_karp g L = some m ∧ isMatchingList g L m ∧
      ∀ M, isMatchingList g L M → M.length ≤ m.length :=
  hopcroft_karp_spec g L hL

/-- Witness for C1 at a concrete graph: left nodes `1, 2` with edges
`1–10`, `1–11`, `2–10`. -/
theorem C1_hopcroft_karp_maximum_matching_witness :
    ∃ m, hopcroft_karp
        (fun u => if u = 1 then [10, 11] else if u = 2 then [10] else [])
        [1, 2] = some m ∧
      isMatchingList
        (fun u => if u = 1 then [10, 11] else if u = 2 then [10] else [])
        [1, 2] m ∧
      ∀ M, isMatchingList
        (fun u => if u = 1 then [10, 11] else if u = 2 then [10] else [])
        [1, 2] M → M.length ≤ m.length :=
  C1_hopcroft_karp_maximum_matching _ [1, 2] (by decide)

/-- C6: for every finite input graph (with duplicate-free left node list),
`hopcroft_karp` terminates and returns a (possibly empty) matching — it never
fails; its size is bounded by `min(|L|, number of right nodes)`; each
BFS+DFS round with a successful BFS strictly increases the matching size, and
a round whose BFS finds no augmenting path is the final round. -/
theorem C6_hopcroft_karp_terminates (g : Nat → List Nat) (L : List Nat)
    (hL : L.Nodup) :
    (∃ m, hopcroft_karp g L = some m ∧ isMatchingList g L m ∧
      m.length ≤ L.length ∧ m.length ≤ (L.flatMap g).dedup.length) ∧
    (∀ s s₁, HInv g L s → DistDom L s.dist → bfs g L s = some (s₁, true) →
      ∃ s₂, dfsPhase g (L.length + 1) L s₁ = some s₂ ∧
        s.mL.length < s₂.mL.length) ∧
    (∀ fuel s s₁, bfs g L s = some (s₁, false) →
      hkLoop g L (fuel + 1) s = some s₁) := by
  refine ⟨?_, ?_, ?_⟩
  · obtain ⟨m, heq, hmatch, hmax⟩ := hopcroft_karp_spec g L hL
    obtain ⟨hedge, hfst, hsnd⟩ := hmatch
    refine ⟨m, heq, ⟨hedge, hfst, hsnd⟩, ?_, ?_⟩
    · have h1 : (m.map Prod.fst).length ≤ L.dedup.length := by
        refine nodup_subset_le_dedup hfst ?_
        intro x hx
        obtain ⟨p, hp, hpx⟩ := List.mem_map.mp hx
        rw [← hpx]
        exact (hedge p hp).1
      rw [List.length_map] at h1
      rw [List.dedup_eq_self.mpr hL] at h1
      exact h1
    · have h1 : (m.map Prod.snd).length ≤ (L.flatMap g).dedup.length := by
        refine nodup_subset_le_dedup hsnd ?_
        intro x hx
        obtain ⟨p, hp, hpx⟩ := List.mem_map.mp hx
        obtain ⟨h1, h2⟩ := hedge p hp
        rw [← hpx]
        exact List.mem_flatMap.mpr ⟨p.1, h1, h2⟩
      rw [List.length_map] at h1
      exact h1
  · intro s s₁ hinv hdom hbfs
    exact hkRound_progress g L hL s s₁ hinv hdom hbfs
  · intro fuel s s₁ hbfs
    exact hkLoop_succ_false g L fuel s s₁ hbfs

/-- Witness for C6 at a concrete graph. -/
theorem C6_hopcroft_karp_terminates_witness :
    (∃ m, hopcroft_karp
        (fun u => if u = 1 then [10, 11] else if u = 2 then [10] else [])
        [1, 2] = some m ∧
      isMatchingList
        (fun u => if u = 1 then [10, 11] else if u = 2 then [10] else [])
        [1, 2] m ∧
      m.length ≤ ([1, 2] : List Nat).length ∧
      m.length ≤ (([1, 2] : List Nat).flatMap
        (fun u => if u = 1 then [10, 11] else if u = 2 then [10] else [])).dedup.length) ∧
    (∀ s s₁, HInv (fun u => if u = 1 then [10, 11] else if u = 2 then [10] else [])
        [1, 2] s →
      DistDom [1, 2] s.dist →
      bfs (fun u => if u = 1 then [10, 11] else if u = 2 then [10] else [])
        [1, 2] s = some (s₁, true) →
      ∃ s₂, dfsPhase (fun u => if u = 1 then [10, 11] else if u = 2 then [10] else [])
        (([1, 2] : List Nat).length + 1) [1, 2] s₁ = some s₂ ∧
        s.mL.length < s₂.mL.length) ∧
    (∀ fuel s s₁, bfs (fun u => if u = 1 then [10, 11] else if u = 2 then [10] else [])
        [1, 2] s = some (s₁, false) →
      hkLoop (fun u => if u = 1 then [10, 11] else if u = 2 then [10] else [])
        [1, 2] (fuel + 1) s = some s₁) :=
  C6_hopcroft_karp_terminates _ [1, 2] (by decide)

/-- C7: `match_student_pairs` is a pure function of its input sequence: two
runs on the same input (same records in the same order) produce identical
output.  The embedding contains no other source of variation — dictionaries
are insertion-ordered and every loop follows the input order — so the chosen
matching is determined solely by the input order of left nodes and of each
adjacency list. -/
theorem C7_match_student_pairs_deterministic (s t : List SRec) (h : s = t) :
    match_student_pairs s = match_student_pairs t := by
  rw [h]

/-- Witness for C7 at a concrete input. -/
theorem C7_match_student_pairs_deterministic_witness :
    match_student_pairs [⟨1, 1, 2, true, none⟩, ⟨2, 2, 1, true, none⟩] =
      match_student_pairs [⟨1, 1, 2, true, none⟩, ⟨2, 2, 1, true, none⟩] :=
  C7_match_student_pairs_deterministic _ _ rfl

/-- Counterexample to C2 as stated: on exactly the spec's Scenario 5 input —
a single non-flexible request with no preferred partner — the run does not
fail; it returns a result (the empty pairing).  The code contains no
validation and no `InvalidRequestError`. -/
theorem C2_counterexample_no_error :
    match_student_pairs [⟨8, 1, 2, false, none⟩] = some [] := by decide

/-! ### The partition built by `match_student_pairs` (lines 74–80) -/

/-- All student ids occurring in a list of output pairs, in order. -/
def pairIds (out : List (Nat × Nat)) : List Nat :=
  out.flatMap (fun p => [p.1, p.2])

/-- Provenance of one output pair of `match_student_pairs`: it joins two
distinct input records whose group requests are crossed, both actually
requesting a move, passing the mutual-eligibility test, and it is reported
as the sorted id pair. -/
def pairSpec (students : List SRec) (p : Nat × Nat) : Prop :=
  ∃ r1 r2, r1 ∈ students ∧ r2 ∈ students ∧
    r1.cur ≠ r1.des ∧ r2.cur ≠ r2.des ∧
    r1.cur = r2.des ∧ r2.cur = r1.des ∧
    edgeOK r1 r2 = true ∧ r1.sid ≠ r2.sid ∧
    p = (min r1.sid r2.sid, max r1.sid r2.sid)

/-- An output pair that joins an `A→B` request to a `B→A` request. -/
def joinsPair (students : List SRec) (A B : Nat) (p : Nat × Nat) : Prop :=
  ∃ r1 r2, r1 ∈ students ∧ r2 ∈ students ∧
    r1.cur = A ∧ r1.des = B ∧ r2.cur = B ∧ r2.des = A ∧
    p = (min r1.sid r2.sid, max r1.sid r2.sid)

/-- Fold invariant of the partitioning loop: keys are distinct, every bucket
holds records of exactly its group pair (so never a satisfied request) and in
input order, and every active record lands in its bucket. -/
theorem buildSwaps_aux :
    ∀ (rest : List SRec) (sw : List ((Nat × Nat) × List SRec))
      (done : List SRec),
    (sw.map Prod.fst).Nodup →
    (∀ k l, alookup sw k = some l →
      (∀ r ∈ l, r.cur = k.1 ∧ r.des = k.2) ∧ k.1 ≠ k.2 ∧ l.Sublist done) →
    (∀ r ∈ done, r.cur ≠ r.des →
      ∃ l, alookup sw (r.cur, r.des) = some l ∧ r ∈ l) →
    ((rest.foldl swapStep sw).map Prod.fst).Nodup ∧
    (∀ k l, alookup (rest.foldl swapStep sw) k = some l →
      (∀ r ∈ l, r.cur = k.1 ∧ r.des = k.2) ∧ k.1 ≠ k.2 ∧
        l.Sublist (done ++ rest)) ∧
    (∀ r ∈ done ++ rest, r.cur ≠ r.des →
      ∃ l, alookup (rest.foldl swapStep sw) (r.cur, r.des) = some l ∧ r ∈ l) := by
  intro rest
  induction rest with
  | nil =>
    intro sw done h1 h2 h3
    simp only [List.foldl_nil, List.append_nil]
    exact ⟨h1, h2, h3⟩
  | cons r rest ih =>
    intro sw done h1 h2 h3
    rw [List.foldl_cons]
    have hrw : done ++ r :: rest = (done ++ [r]) ++ rest := by simp
    rw [hrw]
    by_cases hrd : r.cur = r.des
    · rw [show swapStep sw r = sw from if_pos hrd]
      refine ih sw (done ++ [r]) h1 ?_ ?_
      · intro k l hl
        obtain ⟨ha, hb, hc⟩ := h2 k l hl
        exact ⟨ha, hb, hc.trans (List.sublist_append_left _ _)⟩
      · intro r' hr' hact
        rcases List.mem_append.mp hr' with h | h
        · exact h3 r' h hact
        · rw [List.mem_singleton] at h
          subst h
          exact absurd hrd hact
    · rw [show swapStep sw r
          = aset sw (r.cur, r.des) (((alookup sw (r.cur, r.des)).getD []) ++ [r])
        from if_neg hrd]
      have hsub : ((alookup sw (r.cur, r.des)).getD []).Sublist done := by
        cases hold : alookup sw (r.cur, r.des) with
        | none => simp
        | some l₀ => simpa using (h2 _ _ hold).2.2
      have hmem : ∀ r' ∈ (alookup sw (r.cur, r.des)).getD [],
          r'.cur = r.cur ∧ r'.des = r.des := by
        cases hold : alookup sw (r.cur, r.des) with
        | none => simp
        | some l₀ =>
          intro r' hr'
          exact (h2 _ _ hold).1 r' (by simpa using hr')
      refine ih _ (done ++ [r]) (nodupkeys_aset _ h1) ?_ ?_
      · intro k l hl
        by_cases hk : k = (r.cur, r.des)
        · subst hk
          rw [alookup_aset_self] at hl
          injection hl with hl
          subst hl
          refine ⟨?_, hrd, ?_⟩
          · intro r' hr'
            rcases List.mem_append.mp hr' with h | h
            · exact hmem r' h
            · rw [List.mem_singleton] at h
              subst h
              exact ⟨rfl, rfl⟩
          · exact List.Sublist.append hsub (List.Sublist.refl [r])
        · rw [alookup_aset_ne _ _ _ hk] at hl
          obtain ⟨ha, hb, hc⟩ := h2 k l hl
          exact ⟨ha, hb, hc.trans (List.sublist_append_left _ _)⟩
      · intro r' hr' hact
        rcases List.mem_append.mp hr' with h | h
        · obtain ⟨l, hl, hrl⟩ := h3 r' h hact
          by_cases hkk : (r'.cur, r'.des) = (r.cur, r.des)
          · refine ⟨((alookup sw (r.cur, r.des)).getD []) ++ [r], ?_, ?_⟩
            · rw [hkk, alookup_aset_self]
            · apply List.mem_append_left
              rw [hkk] at hl
              rw [hl]
              simpa using hrl
          · exact ⟨l, by rw [alookup_aset_ne _ _ _ hkk]; exact hl, hrl⟩
        · rw [List.mem_singleton] at h
          subst h
          exact ⟨_, alookup_aset_self .., List.mem_append_right _ (List.mem_singleton_self _)⟩

/-- Characterization of the `swaps` dictionary (lines 74–80): keys are
distinct, a bucket at key `(C, D)` holds exactly records with
`current_group = C ≠ D = desired_group` as a subsequence of the input, and
every record needing a swap is in its bucket. -/
theorem buildSwaps_spec (students : List SRec) :
    ((buildSwaps students).map Prod.fst).Nodup ∧
    (∀ k l, alookup (buildSwaps students) k = some l →
      (∀ r ∈ l, r.cur = k.1 ∧ r.des = k.2) ∧ k.1 ≠ k.2 ∧
        l.Sublist students) ∧
    (∀ r ∈ students, r.cur ≠ r.des →
      ∃ l, alookup (buildSwaps students) (r.cur, r.des) = some l ∧ r ∈ l) := by
  have h := buildSwaps_aux students [] [] (by simp) (by simp) (by simp)
  simpa [buildSwaps] using h

theorem buildSwaps_bucket_nodup (students : List SRec)
    (hnd : (students.map SRec.sid).Nodup) {k : Nat × Nat} {l : List SRec}
    (h : alookup (buildSwaps students) k = some l) :
    (l.map SRec.sid).Nodup :=
  List.Nodup.sublist
    (List.Sublist.map SRec.sid ((buildSwaps_spec students).2.1 k l h).2.2) hnd

theorem buildSwaps_bucket_mem {students : List SRec} {k : Nat × Nat}
    {l : List SRec} (h : alookup (buildSwaps students) k = some l)
    {r : SRec} (hr : r ∈ l) : r ∈ students :=
  ((buildSwaps_spec students).2.1 k l h).2.2.subset hr

/-- Buckets at different keys concern disjoint id sets (for inputs with
distinct ids): an id in two buckets would name one record in two different
group-pair partitions. -/
theorem buildSwaps_bucket_disj (students : List SRec)
    (hnd : (students.map SRec.sid).Nodup) {k k' : Nat × Nat}
    {l l' : List SRec}
    (h : alookup (buildSwaps students) k = some l)
    (h' : alookup (buildSwaps students) k' = some l')
    (hkk : k ≠ k') {i : Nat} (hi : i ∈ l.map SRec.sid)
    (hi' : i ∈ l'.map SRec.sid) : False := by
  obtain ⟨r, hr, hrs⟩ := List.mem_map.mp hi
  obtain ⟨r', hr', hrs'⟩ := List.mem_map.mp hi'
  have hrS : r ∈ students := buildSwaps_bucket_mem h hr
  have hrS' : r' ∈ students := buildSwaps_bucket_mem h' hr'
  have heq : r = r' :=
    List.inj_on_of_nodup_map hnd hrS hrS' (by rw [hrs, hrs'])
  subst heq
  obtain ⟨hc, hd⟩ := ((buildSwaps_spec students).2.1 k l h).1 r hr
  obtain ⟨hc', hd'⟩ := ((buildSwaps_spec students).2.1 k' l' h').1 r hr'
  exact hkk (Prod.ext_iff.mpr ⟨by rw [← hc, ← hc'], by rw [← hd, ← hd']⟩)

/-! ### The eligibility graph built for one group pair (lines 101–120) -/

theorem buildAdj_mem (ri : SRec) (V : List SRec) (j : Nat) :
    j ∈ buildAdj ri V ↔ ∃ rj, rj ∈ V ∧ edgeOK ri rj = true ∧ rj.sid = j := by
  constructor
  · intro h
    obtain ⟨rj, hrj, hsid⟩ := List.mem_map.mp h
    have hf := List.mem_filter.mp hrj
    exact ⟨rj, hf.1, hf.2, hsid⟩
  · rintro ⟨rj, h1, h2, h3⟩
    exact List.mem_map.mpr ⟨rj, List.mem_filter.mpr ⟨h1, h2⟩, h3⟩

/-- Fold invariant of the graph-building loop: since left ids are distinct,
each left record's entry is exactly its adjacency list, and absent ids have
no entry. -/
theorem buildGraph_aux (V : List SRec) :
    ∀ (U : List SRec) (gr : List (Nat × List Nat)) (done : List SRec),
    ((done ++ U).map SRec.sid).Nodup →
    (∀ r ∈ done, alookup gr r.sid = some (buildAdj r V)) →
    (∀ i, i ∉ done.map SRec.sid → alookup gr i = none) →
    (∀ r ∈ done ++ U,
      alookup (U.foldl (graphStep V) gr) r.sid = some (buildAdj r V)) ∧
    (∀ i, i ∉ (done ++ U).map SRec.sid →
      alookup (U.foldl (graphStep V) gr) i = none) := by
  intro U
  induction U with
  | nil =>
    intro gr done hnd hlook hnone
    simp only [List.foldl_nil, List.append_nil]
    exact ⟨hlook, hnone⟩
  | cons ri U ih =>
    intro gr done hnd hlook hnone
    rw [List.foldl_cons]
    have hrw : done ++ ri :: U = (done ++ [ri]) ++ U := by simp
    rw [hrw]
    have hfresh : ri.sid ∉ done.map SRec.sid := by
      intro hmem
      have hd : List.Disjoint (done.map SRec.sid) ((ri :: U).map SRec.sid) :=
        List.disjoint_of_nodup_append (by simpa using hnd)
      exact hd hmem (by simp)
    have halo : alookup gr ri.sid = none := hnone ri.sid hfresh
    have hstep : graphStep V gr ri = aset gr ri.sid (buildAdj ri V) := by
      rw [graphStep, halo]
      rfl
    rw [hstep]
    have hnd' : (((done ++ [ri]) ++ U).map SRec.sid).Nodup := by
      rw [← hrw]; exact hnd
    refine ih _ (done ++ [ri]) hnd' ?_ ?_
    · intro r hr
      rcases List.mem_append.mp hr with h | h
      · have hne : r.sid ≠ ri.sid := by
          intro he
          exact hfresh (he ▸ List.mem_map_of_mem SRec.sid h)
        rw [alookup_aset_ne _ _ _ hne]
        exact hlook r h
      · rw [List.mem_singleton] at h
        subst h
        exact alookup_aset_self ..
    · intro i hi
      have hi1 : i ∉ done.map SRec.sid := fun h => hi (by simp [h])
      have hi2 : i ≠ ri.sid := fun h => hi (by simp [h])
      rw [alookup_aset_ne _ _ _ hi2]
      exact hnone i hi1

/-- The finished graph: each left record's id maps to its adjacency list,
and ids outside the left side have no entry. -/
theorem buildGraph_lookup (U V : List SRec) (hnd : (U.map SRec.sid).Nodup) :
    (∀ r ∈ U, alookup (buildGraph U V) r.sid = some (buildAdj r V)) ∧
    (∀ i, i ∉ U.map SRec.sid → alookup (buildGraph U V) i = none) := by
  have h := buildGraph_aux V U [] [] (by simpa using hnd) (by simp) (by simp)
  simpa [buildGraph] using h

/-- Membership in the adjacency function handed to `hopcroft_karp`: `j` is a
neighbour of `i` exactly when records `ri ∈ U`, `rj ∈ V` carry those ids and
pass the mutual-eligibility test. -/
theorem graphFun_mem_iff (U V : List SRec) (hnd : (U.map SRec.sid).Nodup)
    (i j : Nat) :
    j ∈ graphFun (buildGraph U V) i ↔
      ∃ ri rj, ri ∈ U ∧ rj ∈ V ∧ ri.sid = i ∧ rj.sid = j ∧
        edgeOK ri rj = true := by
  unfold graphFun
  by_cases hi : i ∈ U.map SRec.sid
  · obtain ⟨ri, hriU, hris⟩ := List.mem_map.mp hi
    rw [← hris, (buildGraph_lookup U V hnd).1 ri hriU]
    simp only [Option.getD_some]
    rw [buildAdj_mem]
    constructor
    · rintro ⟨rj, h1, h2, h3⟩
      exact ⟨ri, rj, hriU, h1, rfl, h3, h2⟩
    · rintro ⟨ri', rj, hU', hV', hsi, hsj, hok⟩
      have : ri' = ri := List.inj_on_of_nodup_map hnd hU' hriU hsi
      subst this
      exact ⟨rj, hV', hok, hsj⟩
  · rw [(buildGraph_lookup U V hnd).2 i hi]
    simp only [Option.getD_none, List.not_mem_nil, false_iff]
    rintro ⟨ri, rj, hU, hV, hsi, hsj, hok⟩
    exact hi (hsi ▸ List.mem_map_of_mem SRec.sid hU)

/-! ### Ids of output pairs -/

theorem pairIds_cons (p : Nat × Nat) (t : List (Nat × Nat)) :
    pairIds (p :: t) = p.1 :: p.2 :: pairIds t := rfl

theorem pairIds_append (a b : List (Nat × Nat)) :
    pairIds (a ++ b) = pairIds a ++ pairIds b := by
  simp [pairIds]

theorem mem_pairIds {i : Nat} {out : List (Nat × Nat)} :
    i ∈ pairIds out ↔ ∃ p, p ∈ out ∧ (i = p.1 ∨ i = p.2) := by
  simp [pairIds, List.mem_flatMap]

/-- Sorting each pair with `min`/`max` permutes the multiset of ids. -/
theorem pairIds_perm_sorted (m : List (Nat × Nat)) :
    (pairIds (m.map (fun p => (min p.1 p.2, max p.1 p.2)))).Perm
      (pairIds m) := by
  induction m with
  | nil => simp [pairIds]
  | cons p t ih =>
    simp only [List.map_cons, pairIds_cons]
    rcases le_total p.1 p.2 with h | h
    · rw [min_eq_left h, max_eq_right h]
      exact (ih.cons _).cons _
    · rw [min_eq_right h, max_eq_left h]
      exact (List.Perm.swap _ _ _).trans ((ih.cons _).cons _)

/-- If the left ends and the right ends of a pair list are separately
duplicate-free and no left end equals a right end, all its ids are
distinct. -/
theorem pairIds_nodup_of {m : List (Nat × Nat)}
    (h1 : (m.map Prod.fst).Nodup) (h2 : (m.map Prod.snd).Nodup)
    (hd : ∀ p ∈ m, ∀ q ∈ m, p.1 ≠ q.2) :
    (pairIds m).Nodup := by
  induction m with
  | nil => simp [pairIds]
  | cons p t ih =>
    simp only [List.map_cons, List.nodup_cons] at h1 h2
    rw [pairIds_cons]
    refine List.nodup_cons.mpr ⟨?_, List.nodup_cons.mpr ⟨?_, ih h1.2 h2.2 ?_⟩⟩
    · intro hmem
      rcases List.mem_cons.mp hmem with he | hmem
      · exact hd p (List.mem_cons_self p t) p (List.mem_cons_self p t) he
      · rcases mem_pairIds.mp hmem with ⟨q, hq, he | he⟩
        · exact h1.1 (by rw [he]; exact List.mem_map_of_mem Prod.fst hq)
        · exact hd p (List.mem_cons_self p t) q (List.mem_cons_of_mem p hq) he
    · intro hmem
      rcases mem_pairIds.mp hmem with ⟨q, hq, he | he⟩
      · exact hd q (List.mem_cons_of_mem p hq) p (List.mem_cons_self p t) he.symm
      · exact h2.1 (by rw [he]; exact List.mem_map_of_mem Prod.snd hq)
    · exact fun a ha b hb => hd a (List.mem_cons_of_mem p ha) b (List.mem_cons_of_mem p hb)

/-! ### The main loop of `match_student_pairs` (lines 87–137) -/

theorem mspLoop_nil (swaps : List ((Nat × Nat) × List SRec))
    (proc acc : List (Nat × Nat)) : mspLoop swaps [] proc acc = some acc := rfl

theorem mspLoop_cons_skip {k : Nat × Nat} {proc : List (Nat × Nat)}
    (h : k ∈ proc) (swaps : List ((Nat × Nat) × List SRec))
    (ks : List (Nat × Nat)) (acc : List (Nat × Nat)) :
    mspLoop swaps (k :: ks) proc acc = mspLoop swaps ks proc acc := by
  simp [mspLoop, h]

theorem mspLoop_cons_norev {swaps : List ((Nat × Nat) × List SRec)}
    {k : Nat × Nat} {proc : List (Nat × Nat)} (h : k ∉ proc)
    (h2 : alookup swaps (k.2, k.1) = none)
    (ks : List (Nat × Nat)) (acc : List (Nat × Nat)) :
    mspLoop swaps (k :: ks) proc acc = mspLoop swaps ks (k :: proc) acc := by
  simp [mspLoop, h, h2]

theorem mspLoop_cons_some_empty {swaps : List ((Nat × Nat) × List SRec)}
    {k : Nat × Nat} {proc : List (Nat × Nat)} {V : List SRec} (h : k ∉ proc)
    (h2 : alookup swaps (k.2, k.1) = some V)
    (h3 : ((alookup swaps k).getD []).map SRec.sid = [])
    (ks : List (Nat × Nat)) (acc : List (Nat × Nat)) :
    mspLoop swaps (k :: ks) proc acc =
      mspLoop swaps ks ((k.2, k.1) :: k :: proc) acc := by
  simp [mspLoop, h, h2, h3]

theorem mspLoop_cons_some_run {swaps : List ((Nat × Nat) × List SRec)}
    {k : Nat × Nat} {proc : List (Nat × Nat)} {V : List SRec}
    {m : List (Nat × Nat)} (h : k ∉ proc)
    (h2 : alookup swaps (k.2, k.1) = some V)
    (h3 : ¬ ((alookup swaps k).getD []).map SRec.sid = [])
    (h4 : hopcroft_karp (graphFun (buildGraph ((alookup swaps k).getD []) V))
        (((alookup swaps k).getD []).map SRec.sid) = some m)
    (ks : List (Nat × Nat)) (acc : List (Nat × Nat)) :
    mspLoop swaps (k :: ks) proc acc =
      mspLoop swaps ks ((k.2, k.1) :: k :: proc)
        (acc ++ m.map (fun p => (min p.1 p.2, max p.1 p.2))) := by
  simp [mspLoop, h, h2, h3, h4]

theorem mspLoop_cons_some_fail {swaps : List ((Nat × Nat) × List SRec)}
    {k : Nat × Nat} {proc : List (Nat × Nat)} {V : List SRec} (h : k ∉ proc)
    (h2 : alookup swaps (k.2, k.1) = some V)
    (h3 : ¬ ((alookup swaps k).getD []).map SRec.sid = [])
    (h4 : hopcroft_karp (graphFun (buildGraph ((alookup swaps k).getD []) V))
        (((alookup swaps k).getD []).map SRec.sid) = none)
    (ks : List (Nat × Nat)) (acc : List (Nat × Nat)) :
    mspLoop swaps (k :: ks) proc acc = none := by
  simp [mspLoop, h, h2, h3, h4]

/-- The loop only ever appends to the accumulated pair list. -/
theorem mspLoop_acc_prefix (swaps : List ((Nat × Nat) × List SRec)) :
    ∀ (ks proc acc : List (Nat × Nat)) (out : List (Nat × Nat)),
    mspLoop swaps ks proc acc = some out → ∃ tail, out = acc ++ tail := by
  intro ks
  induction ks with
  | nil =>
    intro proc acc out h
    rw [mspLoop_nil] at h
    obtain rfl : acc = out := Option.some_injective _ h
    exact ⟨[], (List.append_nil acc).symm⟩
  | cons k ks ih =>
    intro proc acc out h
    by_cases hk : k ∈ proc
    · rw [mspLoop_cons_skip hk] at h
      exact ih _ _ _ h
    · cases h2 : alookup swaps (k.2, k.1) with
      | none =>
        rw [mspLoop_cons_norev hk h2] at h
        exact ih _ _ _ h
      | some V =>
        by_cases h3 : ((alookup swaps k).getD []).map SRec.sid = []
        · rw [mspLoop_cons_some_empty hk h2 h3] at h
          exact ih _ _ _ h
        · cases h4 : hopcroft_karp
              (graphFun (buildGraph ((alookup swaps k).getD []) V))
              (((alookup swaps k).getD []).map SRec.sid) with
          | none =>
            rw [mspLoop_cons_some_fail hk h2 h3 h4] at h
            exact absurd h (by simp)
          | some m =>
            rw [mspLoop_cons_some_run hk h2 h3 h4] at h
            obtain ⟨tail, ht⟩ := ih _ _ _ h
            exact ⟨_, by rw [ht, List.append_assoc]⟩

/-- With distinct ids inside every bucket, the loop never runs out of fuel:
each Hopcroft–Karp call completes. -/
theorem mspLoop_total {swaps : List ((Nat × Nat) × List SRec)}
    (hbn : ∀ k l, alookup swaps k = some l → (l.map SRec.sid).Nodup) :
    ∀ (ks proc acc : List (Nat × Nat)),
    ∃ out, mspLoop swaps ks proc acc = some out := by
  intro ks
  induction ks with
  | nil => exact fun proc acc => ⟨acc, mspLoop_nil ..⟩
  | cons k ks ih =>
    intro proc acc
    by_cases hk : k ∈ proc
    · rw [mspLoop_cons_skip hk]
      exact ih proc acc
    · cases h2 : alookup swaps (k.2, k.1) with
      | none =>
        rw [mspLoop_cons_norev hk h2]
        exact ih _ _
      | some V =>
        by_cases h3 : ((alookup swaps k).getD []).map SRec.sid = []
        · rw [mspLoop_cons_some_empty hk h2 h3]
          exact ih _ _
        · have hndL : (((alookup swaps k).getD []).map SRec.sid).Nodup := by
            cases hU : alookup swaps k with
            | none => simp
            | some U => simpa using hbn k U hU
          obtain ⟨m, hm, -, -⟩ := hopcroft_karp_spec
            (graphFun (buildGraph ((alookup swaps k).getD []) V))
            (((alookup swaps k).getD []).map SRec.sid) hndL
          rw [mspLoop_cons_some_run hk h2 h3 hm]
          exact ih _ _

/-- Every emitted pair has its smaller id first. -/
theorem mspLoop_sorted (swaps : List ((Nat × Nat) × List SRec)) :
    ∀ (ks proc acc : List (Nat × Nat)),
    (∀ p ∈ acc, p.1 ≤ p.2) →
    ∀ out, mspLoop swaps ks proc acc = some out → ∀ p ∈ out, p.1 ≤ p.2 := by
  intro ks
  induction ks with
  | nil =>
    intro proc acc hacc out h
    rw [mspLoop_nil] at h
    obtain rfl : acc = out := Option.some_injective _ h
    exact hacc
  | cons k ks ih =>
    intro proc acc hacc out h
    by_cases hk : k ∈ proc
    · rw [mspLoop_cons_skip hk] at h
      exact ih _ _ hacc _ h
    · cases h2 : alookup swaps (k.2, k.1) with
      | none =>
        rw [mspLoop_cons_norev hk h2] at h
        exact ih _ _ hacc _ h
      | some V =>
        by_cases h3 : ((alookup swaps k).getD []).map SRec.sid = []
        · rw [mspLoop_cons_some_empty hk h2 h3] at h
          exact ih _ _ hacc _ h
        · cases h4 : hopcroft_karp
              (graphFun (buildGraph ((alookup swaps k).getD []) V))
              (((alookup swaps k).getD []).map SRec.sid) with
          | none =>
            rw [mspLoop_cons_some_fail hk h2 h3 h4] at h
            exact absurd h (by simp)
          | some m =>
            rw [mspLoop_cons_some_run hk h2 h3 h4] at h
            refine ih _ _ ?_ _ h
            intro p hp
            rcases List.mem_append.mp hp with hp | hp
            · exact hacc p hp
            · obtain ⟨q, hq, hqe⟩ := List.mem_map.mp hp
              rw [← hqe]
              exact min_le_max

/-- Soundness and global uniqueness of the main loop: with distinct input
ids, every accumulated pair joins two eligible records with crossed active
requests, and no id is ever emitted twice across all group-pair
partitions. -/
theorem mspLoop_inv (students : List SRec)
    (hnd : (students.map SRec.sid).Nodup) :
    ∀ (ks proc acc : List (Nat × Nat)),
    (∀ k ∈ ks, k ∈ (buildSwaps students).map Prod.fst) →
    (∀ k ∈ proc, (k.2, k.1) ∈ proc ∨
      alookup (buildSwaps students) (k.2, k.1) = none) →
    (∀ p ∈ acc, pairSpec students p) →
    (pairIds acc).Nodup →
    (∀ i ∈ pairIds acc, ∃ k l, k ∈ proc ∧
      alookup (buildSwaps students) k = some l ∧ i ∈ l.map SRec.sid) →
    ∀ out, mspLoop (buildSwaps students) ks proc acc = some out →
      (∀ p ∈ out, pairSpec students p) ∧ (pairIds out).Nodup := by
  intro ks
  induction ks with
  | nil =>
    intro proc acc hks hproc hacc haccn haccm out h
    rw [mspLoop_nil] at h
    obtain rfl : acc = out := Option.some_injective _ h
    exact ⟨hacc, haccn⟩
  | cons k ks ih =>
    intro proc acc hks hproc hacc haccn haccm out h
    by_cases hk : k ∈ proc
    · rw [mspLoop_cons_skip hk] at h
      exact ih _ _ (fun k' hk' => hks k' (List.mem_cons_of_mem _ hk'))
        hproc hacc haccn haccm out h
    · cases h2 : alookup (buildSwaps students) (k.2, k.1) with
      | none =>
        rw [mspLoop_cons_norev hk h2] at h
        refine ih _ _ (fun k' hk' => hks k' (List.mem_cons_of_mem _ hk'))
          ?_ hacc haccn ?_ out h
        · intro k' hk'
          rcases List.mem_cons.mp hk' with rfl | hk'
          · exact Or.inr h2
          · exact (hproc k' hk').imp (List.mem_cons_of_mem _) id
        · intro i hi
          obtain ⟨k', l, hkp, hl, hil⟩ := haccm i hi
          exact ⟨k', l, List.mem_cons_of_mem _ hkp, hl, hil⟩
      | some V =>
        have hkkey : k ∈ (buildSwaps students).map Prod.fst :=
          hks k (List.mem_cons_self _ _)
        obtain ⟨U, hU⟩ : ∃ U, alookup (buildSwaps students) k = some U := by
          cases hU : alookup (buildSwaps students) k with
          | none => exact absurd hkkey ((alookup_eq_none_iff _ _).mp hU)
          | some U => exact ⟨U, rfl⟩
        have hgetD : (alookup (buildSwaps students) k).getD [] = U := by
          rw [hU]; rfl
        by_cases h3 : ((alookup (buildSwaps students) k).getD []).map SRec.sid = []
        · rw [mspLoop_cons_some_empty hk h2 h3] at h
          refine ih _ _ (fun k' hk' => hks k' (List.mem_cons_of_mem _ hk'))
            ?_ hacc haccn ?_ out h
          · intro k' hk'
            rcases List.mem_cons.mp hk' with rfl | hk'
            · exact Or.inl (List.mem_cons_of_mem _ (List.mem_cons_self _ _))
            · rcases List.mem_cons.mp hk' with rfl | hk'
              · exact Or.inl (List.mem_cons_self _ _)
              · exact (hproc k' hk').imp
                  (fun hh => List.mem_cons_of_mem _ (List.mem_cons_of_mem _ hh)) id
          · intro i hi
            obtain ⟨k', l, hkp, hl, hil⟩ := haccm i hi
            exact ⟨k', l,
              List.mem_cons_of_mem _ (List.mem_cons_of_mem _ hkp), hl, hil⟩
        · cases h4 : hopcroft_karp
              (graphFun (buildGraph
                ((alookup (buildSwaps students) k).getD []) V))
              (((alookup (buildSwaps students) k).getD []).map SRec.sid) with
          | none =>
            rw [mspLoop_cons_some_fail hk h2 h3 h4] at h
            exact absurd h (by simp)
          | some m =>
            rw [mspLoop_cons_some_run hk h2 h3 h4] at h
            rw [hgetD] at h4
            have hspecs := buildSwaps_spec students
            have hUc := hspecs.2.1 k U hU
            have hVc := hspecs.2.1 (k.2, k.1) V h2
            have hUn : (U.map SRec.sid).Nodup :=
              buildSwaps_bucket_nodup students hnd hU
            obtain ⟨m', hm', hmatch, hmax⟩ := hopcroft_karp_spec
              (graphFun (buildGraph U V)) (U.map SRec.sid) hUn
            rw [h4] at hm'
            obtain rfl : m = m' := Option.some_injective _ hm'
            have horig : ∀ p ∈ m, ∃ r1 r2, r1 ∈ U ∧ r2 ∈ V ∧
                r1.sid = p.1 ∧ r2.sid = p.2 ∧ edgeOK r1 r2 = true := by
              intro p hp
              have h12 := hmatch.1 p hp
              obtain ⟨r1, r2, hr1, hr2, hs1, hs2, hok⟩ :=
                (graphFun_mem_iff U V hUn p.1 p.2).mp h12.2
              exact ⟨r1, r2, hr1, hr2, hs1, hs2, hok⟩
            have hknr : k ≠ (k.2, k.1) := by
              intro he
              exact hUc.2.1 (congrArg Prod.fst he)
            have hnew : ∀ p ∈ m.map (fun p => (min p.1 p.2, max p.1 p.2)),
                pairSpec students p := by
              intro q hq
              obtain ⟨p, hp, hpe⟩ := List.mem_map.mp hq
              obtain ⟨r1, r2, hr1, hr2, hs1, hs2, hok⟩ := horig p hp
              obtain ⟨hc1, hd1⟩ := hUc.1 r1 hr1
              obtain ⟨hc2, hd2⟩ := hVc.1 r2 hr2
              have hr1S : r1 ∈ students := buildSwaps_bucket_mem hU hr1
              have hr2S : r2 ∈ students := buildSwaps_bucket_mem h2 hr2
              have hsne : r1.sid ≠ r2.sid := by
                intro he
                have he' : r1 = r2 := List.inj_on_of_nodup_map hnd hr1S hr2S he
                rw [he'] at hc1
                exact hUc.2.1 (hc1.symm.trans hc2)
              refine ⟨r1, r2, hr1S, hr2S, ?_, ?_, ?_, ?_, hok, hsne, ?_⟩
              · rw [hc1, hd1]; exact hUc.2.1
              · rw [hc2, hd2]; exact hVc.2.1
              · rw [hc1, hd2]
              · rw [hc2, hd1]
              · rw [← hpe, hs1, hs2]
            have hsidnew : ∀ i ∈ pairIds
                (m.map (fun p => (min p.1 p.2, max p.1 p.2))),
                i ∈ U.map SRec.sid ∨ i ∈ V.map SRec.sid := by
              intro i hi
              have hi' : i ∈ pairIds m := (pairIds_perm_sorted m).mem_iff.mp hi
              obtain ⟨p, hp, hip⟩ := mem_pairIds.mp hi'
              obtain ⟨r1, r2, hr1, hr2, hs1, hs2, -⟩ := horig p hp
              rcases hip with rfl | rfl
              · exact Or.inl (hs1 ▸ List.mem_map_of_mem SRec.sid hr1)
              · exact Or.inr (hs2 ▸ List.mem_map_of_mem SRec.sid hr2)
            have hrevp : (k.2, k.1) ∉ proc := by
              intro hrev
              rcases hproc _ hrev with hh | hh
              · exact hk hh
              · have hh' : alookup (buildSwaps students) k = none := hh
                rw [hU] at hh'
                exact Option.noConfusion hh'
            have hdisj2 : ∀ i ∈ pairIds acc,
                i ∈ pairIds (m.map (fun p => (min p.1 p.2, max p.1 p.2))) →
                  False := by
              intro i hia hin
              obtain ⟨k', l', hk'p, hl', hil'⟩ := haccm i hia
              rcases hsidnew i hin with hiU | hiV
              · have hne : k ≠ k' := fun he => hk (by rw [he]; exact hk'p)
                exact buildSwaps_bucket_disj students hnd hU hl' hne hiU hil'
              · have hne : (k.2, k.1) ≠ k' :=
                  fun he => hrevp (by rw [he]; exact hk'p)
                exact buildSwaps_bucket_disj students hnd h2 hl' hne hiV hil'
            have hnewn : (pairIds
                (m.map (fun p => (min p.1 p.2, max p.1 p.2)))).Nodup := by
              refine (pairIds_perm_sorted m).nodup_iff.mpr ?_
              refine pairIds_nodup_of hmatch.2.1 hmatch.2.2 ?_
              intro p hp q hq
              obtain ⟨r1, r2, hr1, hr2, hs1, -, -⟩ := horig p hp
              obtain ⟨q1, q2, hq1, hq2, -, ht2, -⟩ := horig q hq
              intro he
              refine buildSwaps_bucket_disj students hnd hU h2 hknr
                (hs1 ▸ List.mem_map_of_mem SRec.sid hr1) ?_
              rw [he, ← ht2]
              exact List.mem_map_of_mem SRec.sid hq2
            refine ih _ _ (fun k' hk' => hks k' (List.mem_cons_of_mem _ hk'))
              ?_ ?_ ?_ ?_ out h
            · intro k' hk'
              rcases List.mem_cons.mp hk' with rfl | hk'
              · exact Or.inl (List.mem_cons_of_mem _ (List.mem_cons_self _ _))
              · rcases List.mem_cons.mp hk' with rfl | hk'
                · exact Or.inl (List.mem_cons_self _ _)
                · exact (hproc k' hk').imp
                    (fun hh => List.mem_cons_of_mem _ (List.mem_cons_of_mem _ hh)) id
            · intro p hp
              rcases List.mem_append.mp hp with hp | hp
              · exact hacc p hp
              · exact hnew p hp
            · rw [pairIds_append]
              exact List.Nodup.append haccn hnewn
                (fun i hia hin => hdisj2 i hia hin)
            · intro i hi
              rw [pairIds_append, List.mem_append] at hi
              rcases hi with hi | hi
              · obtain ⟨k', l, hkp, hl, hil⟩ := haccm i hi
                exact ⟨k', l,
                  List.mem_cons_of_mem _ (List.mem_cons_of_mem _ hkp), hl, hil⟩
              · rcases hsidnew i hi with hiU | hiV
                · exact ⟨k, U,
                    List.mem_cons_of_mem _ (List.mem_cons_self _ _), hU, hiU⟩
                · exact ⟨(k.2, k.1), V, List.mem_cons_self _ _, h2, hiV⟩

/-- Soundness of the whole run: under distinct input ids every output pair
satisfies `pairSpec` and no id occurs twice in the output. -/
theorem msp_sound (students : List SRec)
    (hnd : (students.map SRec.sid).Nodup) :
    ∀ out, match_student_pairs students = some out →
      (∀ p ∈ out, pairSpec students p) ∧ (pairIds out).Nodup := by
  intro out h
  exact mspLoop_inv students hnd ((buildSwaps students).map Prod.fst) [] []
    (fun k hk => hk) (by simp) (by simp) (by simp [pairIds])
    (by simp [pairIds]) out h

/-- Reading a `pairSpec` pair off in output order: the record named by the
first id, the record named by the second, and their properties. -/
theorem pairSpec_resolve {students : List SRec} {p : Nat × Nat}
    (h : pairSpec students p) :
    ∃ a b, a ∈ students ∧ b ∈ students ∧ a.sid = p.1 ∧ b.sid = p.2 ∧
      a.sid ≠ b.sid ∧ a.cur ≠ a.des ∧ b.cur ≠ b.des ∧
      a.cur = b.des ∧ b.cur = a.des ∧
      (a.flex = false → a.mate = some b.sid) ∧
      (b.flex = false → b.mate = some a.sid) := by
  obtain ⟨r1, r2, h1, h2, ha1, ha2, hc1, hc2, hok, hne, hp⟩ := h
  simp only [edgeOK, Bool.and_eq_true, Bool.or_eq_true, decide_eq_true_eq] at hok
  have hok1 : r1.flex = false → r1.mate = some r2.sid := by
    intro hf
    rcases hok.1 with hh | hh
    · rw [hf] at hh; exact absurd hh (by simp)
    · exact hh
  have hok2 : r2.flex = false → r2.mate = some r1.sid := by
    intro hf
    rcases hok.2 with hh | hh
    · rw [hf] at hh; exact absurd hh (by simp)
    · exact hh
  rcases le_total r1.sid r2.sid with hle | hle
  · refine ⟨r1, r2, h1, h2, ?_, ?_, hne, ha1, ha2, hc1, hc2, hok1, hok2⟩
    · rw [hp]; exact (min_eq_left hle).symm
    · rw [hp]; exact (max_eq_right hle).symm
  · refine ⟨r2, r1, h2, h1, ?_, ?_, hne.symm, ha2, ha1, hc2, hc1, hok2, hok1⟩
    · rw [hp]; exact (min_eq_right hle).symm
    · rw [hp]; exact (max_eq_left hle).symm

theorem joinsPair_symm {students : List SRec} {A B : Nat} {p : Nat × Nat}
    (h : joinsPair students B A p) : joinsPair students A B p := by
  obtain ⟨r1, r2, h1, h2, hc1, hd1, hc2, hd2, hp⟩ := h
  exact ⟨r2, r1, h2, h1, hc2, hd2, hc1, hd1, by rw [hp, min_comm, max_comm]⟩

/-- Running one group pair whose two buckets hold mutually flexible records
always emits at least one pair joining the two swap directions. -/
theorem run_emits (students : List SRec)
    (hnd : (students.map SRec.sid).Nodup) {k : Nat × Nat} {U V : List SRec}
    {m : List (Nat × Nat)}
    (hU : alookup (buildSwaps students) k = some U)
    (hV : alookup (buildSwaps students) (k.2, k.1) = some V)
    (hm : hopcroft_karp (graphFun (buildGraph U V)) (U.map SRec.sid) = some m)
    {ra rb : SRec} (hraU : ra ∈ U) (hrbV : rb ∈ V)
    (hraf : ra.flex = true) (hrbf : rb.flex = true) :
    ∃ p ∈ m.map (fun p => (min p.1 p.2, max p.1 p.2)),
      joinsPair students k.1 k.2 p := by
  have hUn : (U.map SRec.sid).Nodup := buildSwaps_bucket_nodup students hnd hU
  obtain ⟨m', hm', hmatch, hmax⟩ := hopcroft_karp_spec
    (graphFun (buildGraph U V)) (U.map SRec.sid) hUn
  rw [hm] at hm'
  obtain rfl : m = m' := Option.some_injective _ hm'
  have hedge : rb.sid ∈ graphFun (buildGraph U V) ra.sid :=
    (graphFun_mem_iff U V hUn ra.sid rb.sid).mpr
      ⟨ra, rb, hraU, hrbV, rfl, rfl, by simp [edgeOK, hraf, hrbf]⟩
  have hwit : isMatchingList (graphFun (buildGraph U V)) (U.map SRec.sid)
      [(ra.sid, rb.sid)] := by
    refine ⟨?_, by simp, by simp⟩
    intro p hp
    rw [List.mem_singleton] at hp
    subst hp
    exact ⟨List.mem_map_of_mem SRec.sid hraU, hedge⟩
  have hlen : 1 ≤ m.length := hmax [(ra.sid, rb.sid)] hwit
  have hmne : m ≠ [] := by
    intro he
    rw [he] at hlen
    exact absurd hlen (by simp)
  obtain ⟨p, hp⟩ := List.exists_mem_of_ne_nil m hmne
  have h12 := hmatch.1 p hp
  obtain ⟨r1, r2, hr1, hr2, hs1, hs2, -⟩ :=
    (graphFun_mem_iff U V hUn p.1 p.2).mp h12.2
  have hUc := (buildSwaps_spec students).2.1 k U hU
  have hVc := (buildSwaps_spec students).2.1 (k.2, k.1) V hV
  obtain ⟨hc1, hd1⟩ := hUc.1 r1 hr1
  obtain ⟨hc2, hd2⟩ := hVc.1 r2 hr2
  refine ⟨(min p.1 p.2, max p.1 p.2), List.mem_map_of_mem _ hp,
    r1, r2, buildSwaps_bucket_mem hU hr1, buildSwaps_bucket_mem hV hr2,
    hc1, hd1, hc2, hd2, ?_⟩
  rw [hs1, hs2]

/-- The loop, reaching a group pair with both directions populated by
mutually flexible records, emits at least one pair joining them. -/
theorem mspLoop_hits (students : List SRec)
    (hnd : (students.map SRec.sid).Nodup) (A B : Nat) (ra rb : SRec)
    {UA VB : List SRec}
    (hUA : alookup (buildSwaps students) (A, B) = some UA)
    (hVB : alookup (buildSwaps students) (B, A) = some VB)
    (hraU : ra ∈ UA) (hrbV : rb ∈ VB)
    (hraf : ra.flex = true) (hrbf : rb.flex = true) :
    ∀ (ks proc acc : List (Nat × Nat)),
    ((A, B) ∈ ks ∨ (B, A) ∈ ks) → (A, B) ∉ proc → (B, A) ∉ proc →
    ∀ out, mspLoop (buildSwaps students) ks proc acc = some out →
      ∃ p ∈ out, joinsPair students A B p := by
  have hABne : A ≠ B := ((buildSwaps_spec students).2.1 (A, B) UA hUA).2.1
  intro ks
  induction ks with
  | nil =>
    intro proc acc hin hpa hpb out h
    rcases hin with hin | hin <;> exact absurd hin (List.not_mem_nil _)
  | cons k ks ih =>
    intro proc acc hin hpa hpb out h
    by_cases hkA : k = (A, B)
    · subst hkA
      have hgetD : (alookup (buildSwaps students) (A, B)).getD [] = UA := by
        rw [hUA]; rfl
      have h3 : ¬ ((alookup (buildSwaps students) (A, B)).getD []).map
          SRec.sid = [] := by
        rw [hgetD]
        simp [List.ne_nil_of_mem hraU]
      cases h4 : hopcroft_karp
          (graphFun (buildGraph
            ((alookup (buildSwaps students) (A, B)).getD []) VB))
          (((alookup (buildSwaps students) (A, B)).getD []).map SRec.sid) with
      | none =>
        rw [mspLoop_cons_some_fail hpa hVB h3 h4] at h
        exact absurd h (by simp)
      | some m =>
        rw [mspLoop_cons_some_run hpa hVB h3 h4] at h
        rw [hgetD] at h4
        obtain ⟨q, hq, hjoin⟩ := run_emits students hnd hUA hVB h4
          hraU hrbV hraf hrbf
        obtain ⟨tail, rfl⟩ := mspLoop_acc_prefix _ _ _ _ _ h
        exact ⟨q, List.mem_append_left _ (List.mem_append_right _ hq), hjoin⟩
    · by_cases hkB : k = (B, A)
      · subst hkB
        have hgetD : (alookup (buildSwaps students) (B, A)).getD [] = VB := by
          rw [hVB]; rfl
        have h3 : ¬ ((alookup (buildSwaps students) (B, A)).getD []).map
            SRec.sid = [] := by
          rw [hgetD]
          simp [List.ne_nil_of_mem hrbV]
        cases h4 : hopcroft_karp
            (graphFun (buildGraph
              ((alookup (buildSwaps students) (B, A)).getD []) UA))
            (((alookup (buildSwaps students) (B, A)).getD []).map SRec.sid) with
        | none =>
          rw [mspLoop_cons_some_fail hpb hUA h3 h4] at h
          exact absurd h (by simp)
        | some m =>
          rw [mspLoop_cons_some_run hpb hUA h3 h4] at h
          rw [hgetD] at h4
          obtain ⟨q, hq, hjoin⟩ := run_emits students hnd hVB hUA h4
            hrbV hraU hrbf hraf
          obtain ⟨tail, rfl⟩ := mspLoop_acc_prefix _ _ _ _ _ h
          exact ⟨q, List.mem_append_left _ (List.mem_append_right _ hq),
            joinsPair_symm hjoin⟩
      · have hin' : (A, B) ∈ ks ∨ (B, A) ∈ ks := by
          rcases hin with hin | hin
          · rcases List.mem_cons.mp hin with he | hin
            · exact absurd he.symm hkA
            · exact Or.inl hin
          · rcases List.mem_cons.mp hin with he | hin
            · exact absurd he.symm hkB
            · exact Or.inr hin
        have hpa2 : (A, B) ∉ (k.2, k.1) :: k :: proc := by
          intro hmem
          rcases List.mem_cons.mp hmem with he | hmem
          · apply hkB
            have e1 : A = k.2 := congrArg Prod.fst he
            have e2 : B = k.1 := congrArg Prod.snd he
            rw [Prod.ext_iff]
            exact ⟨e2.symm, e1.symm⟩
          · rcases List.mem_cons.mp hmem with he | hmem
            · exact hkA he.symm
            · exact hpa hmem
        have hpb2 : (B, A) ∉ (k.2, k.1) :: k :: proc := by
          intro hmem
          rcases List.mem_cons.mp hmem with he | hmem
          · apply hkA
            have e1 : B = k.2 := congrArg Prod.fst he
            have e2 : A = k.1 := congrArg Prod.snd he
            rw [Prod.ext_iff]
            exact ⟨e2.symm, e1.symm⟩
          · rcases List.mem_cons.mp hmem with he | hmem
            · exact hkB he.symm
            · exact hpb hmem
        by_cases hk : k ∈ proc
        · rw [mspLoop_cons_skip hk] at h
          exact ih proc acc hin' hpa hpb out h
        · cases h2 : alookup (buildSwaps students) (k.2, k.1) with
          | none =>
            rw [mspLoop_cons_norev hk h2] at h
            refine ih _ acc hin' ?_ ?_ out h
            · intro hmem
              rcases List.mem_cons.mp hmem with he | hmem
              · exact hkA he.symm
              · exact hpa hmem
            · intro hmem
              rcases List.mem_cons.mp hmem with he | hmem
              · exact hkB he.symm
              · exact hpb hmem
          | some V =>
            by_cases h3 : ((alookup (buildSwaps students) k).getD []).map
                SRec.sid = []
            · rw [mspLoop_cons_some_empty hk h2 h3] at h
              exact ih _ acc hin' hpa2 hpb2 out h
            · cases h4 : hopcroft_karp
                  (graphFun (buildGraph
                    ((alookup (buildSwaps students) k).getD []) V))
                  (((alookup (buildSwaps students) k).getD []).map
                    SRec.sid) with
              | none =>
                rw [mspLoop_cons_some_fail hk h2 h3 h4] at h
                exact absurd h (by simp)
              | some m =>
                rw [mspLoop_cons_some_run hk h2 h3 h4] at h
                exact ih _ _ hin' hpa2 hpb2 out h

/-- C3: Validity.  For inputs with pairwise-distinct ids, every output pair
`(s1, s2)` of `match_student_pairs` names two input records, and the record
with id `s1` has its current group equal to the desired group of the record
with id `s2` and vice versa. -/
theorem C3_output_pairs_valid (students : List SRec)
    (hnd : (students.map SRec.sid).Nodup) :
    ∀ out, match_student_pairs students = some out → ∀ p ∈ out,
      (∃ a, a ∈ students ∧ a.sid = p.1) ∧
      (∃ b, b ∈ students ∧ b.sid = p.2) ∧
      ∀ a b, a ∈ students → b ∈ students → a.sid = p.1 → b.sid = p.2 →
        a.cur = b.des ∧ b.cur = a.des := by
  intro out hout p hp
  obtain ⟨a, b, ha, hb, has, hbs, -, -, -, hc1, hc2, -, -⟩ :=
    pairSpec_resolve ((msp_sound students hnd out hout).1 p hp)
  refine ⟨⟨a, ha, has⟩, ⟨b, hb, hbs⟩, ?_⟩
  intro a' b' ha' hb' has' hbs'
  have hea : a' = a := List.inj_on_of_nodup_map hnd ha' ha (by rw [has', has])
  have heb : b' = b := List.inj_on_of_nodup_map hnd hb' hb (by rw [hbs', hbs])
  rw [hea, heb]
  exact ⟨hc1, hc2⟩

/-- Witness for C3 at a concrete input. -/
theorem C3_output_pairs_valid_witness :
    (∃ a, a ∈ [(⟨1, 1, 2, true, none⟩ : SRec), ⟨2, 2, 1, true, none⟩] ∧
      a.sid = 1) ∧
    (∃ b, b ∈ [(⟨1, 1, 2, true, none⟩ : SRec), ⟨2, 2, 1, true, none⟩] ∧
      b.sid = 2) ∧
    ∀ a b, a ∈ [(⟨1, 1, 2, true, none⟩ : SRec), ⟨2, 2, 1, true, none⟩] →
      b ∈ [(⟨1, 1, 2, true, none⟩ : SRec), ⟨2, 2, 1, true, none⟩] →
      a.sid = 1 → b.sid = 2 → a.cur = b.des ∧ b.cur = a.des :=
  C3_output_pairs_valid [⟨1, 1, 2, true, none⟩, ⟨2, 2, 1, true, none⟩]
    (by decide) [(1, 2)] (by decide) (1, 2) (by decide)

/-- C4: Consent.  For inputs with pairwise-distinct ids, in every output pair
`(s1, s2)`, a non-flexible record with id `s1` names the record with id `s2`
as its teammate, and symmetrically. -/
theorem C4_output_pairs_consent (students : List SRec)
    (hnd : (students.map SRec.sid).Nodup) :
    ∀ out, match_student_pairs students = some out → ∀ p ∈ out,
      ∀ a b, a ∈ students → b ∈ students → a.sid = p.1 → b.sid = p.2 →
        (a.flex = false → a.mate = some b.sid) ∧
        (b.flex = false → b.mate = some a.sid) := by
  intro out hout p hp
  obtain ⟨a, b, ha, hb, has, hbs, -, -, -, -, -, hk1, hk2⟩ :=
    pairSpec_resolve ((msp_sound students hnd out hout).1 p hp)
  intro a' b' ha' hb' has' hbs'
  have hea : a' = a := List.inj_on_of_nodup_map hnd ha' ha (by rw [has', has])
  have heb : b' = b := List.inj_on_of_nodup_map hnd hb' hb (by rw [hbs', hbs])
  rw [hea, heb]
  exact ⟨hk1, hk2⟩

/-- Witness for C4 at a concrete input with two restrictive requests. -/
theorem C4_output_pairs_consent_witness :
    ((⟨3, 1, 2, false, some 4⟩ : SRec).flex = false →
      (⟨3, 1, 2, false, some 4⟩ : SRec).mate = some 4) ∧
    ((⟨4, 2, 1, false, some 3⟩ : SRec).flex = false →
      (⟨4, 2, 1, false, some 3⟩ : SRec).mate = some 3) :=
  C4_output_pairs_consent [⟨3, 1, 2, false, some 4⟩, ⟨4, 2, 1, false, some 3⟩]
    (by decide) [(3, 4)] (by decide) (3, 4) (by decide)
    ⟨3, 1, 2, false, some 4⟩ ⟨4, 2, 1, false, some 3⟩
    (by decide) (by decide) rfl rfl

/-- C5: Uniqueness.  For inputs with pairwise-distinct ids, no id occurs in
more than one output pair of `match_student_pairs` — across all group-pair
partitions the flattened id list is duplicate-free. -/
theorem C5_output_ids_unique (students : List SRec)
    (hnd : (students.map SRec.sid).Nodup) :
    ∀ out, match_student_pairs students = some out → (pairIds out).Nodup :=
  fun out h => (msp_sound students hnd out h).2

/-- Witness for C5 at a concrete input. -/
theorem C5_output_ids_unique_witness : (pairIds [(1, 2)]).Nodup :=
  C5_output_ids_unique [⟨1, 1, 2, true, none⟩, ⟨2, 2, 1, true, none⟩]
    (by decide) [(1, 2)] (by decide)

/-- C8: Exclusion.  A request whose current group equals its desired group is
dropped before partitioning: removing it leaves the whole run unchanged (in
particular it causes no error), and — for inputs with distinct ids — its id
never appears in any output pair. -/
theorem C8_satisfied_request_excluded (l1 l2 : List SRec) (r : SRec)
    (hr : r.cur = r.des) :
    match_student_pairs (l1 ++ r :: l2) = match_student_pairs (l1 ++ l2) ∧
    (((l1 ++ r :: l2).map SRec.sid).Nodup →
      ∀ out, match_student_pairs (l1 ++ r :: l2) = some out →
        r.sid ∉ pairIds out) := by
  have hsw : buildSwaps (l1 ++ r :: l2) = buildSwaps (l1 ++ l2) := by
    unfold buildSwaps
    rw [List.foldl_append, List.foldl_append, List.foldl_cons]
    have hstep : swapStep (l1.foldl swapStep []) r = l1.foldl swapStep [] := by
      simp [swapStep, hr]
    rw [hstep]
  constructor
  · unfold match_student_pairs
    rw [hsw]
  · intro hnd out hout hmem
    obtain ⟨p, hp, hip⟩ := mem_pairIds.mp hmem
    obtain ⟨a, b, ha, hb, has, hbs, -, hact1, hact2, -, -, -, -⟩ :=
      pairSpec_resolve ((msp_sound _ hnd out hout).1 p hp)
    have hrmem : r ∈ l1 ++ r :: l2 :=
      List.mem_append_right _ (List.mem_cons_self _ _)
    rcases hip with he | he
    · have hra : r = a :=
        List.inj_on_of_nodup_map hnd hrmem ha (by rw [has, ← he])
      exact hact1 (by rw [← hra]; exact hr)
    · have hrb : r = b :=
        List.inj_on_of_nodup_map hnd hrmem hb (by rw [hbs, ← he])
      exact hact2 (by rw [← hrb]; exact hr)

/-- Witness for C8 at a concrete input. -/
theorem C8_satisfied_request_excluded_witness :
    (match_student_pairs
        ([⟨1, 1, 2, true, none⟩] ++ ⟨7, 3, 3, true, none⟩ ::
          [⟨2, 2, 1, true, none⟩]) =
      match_student_pairs ([⟨1, 1, 2, true, none⟩] ++ [⟨2, 2, 1, true, none⟩])) ∧
    ((([(⟨1, 1, 2, true, none⟩ : SRec)] ++ (⟨7, 3, 3, true, none⟩ : SRec) ::
        [(⟨2, 2, 1, true, none⟩ : SRec)]).map SRec.sid).Nodup →
      ∀ out, match_student_pairs
          ([⟨1, 1, 2, true, none⟩] ++ ⟨7, 3, 3, true, none⟩ ::
            [⟨2, 2, 1, true, none⟩]) = some out →
        (7 : Nat) ∉ pairIds out) :=
  C8_satisfied_request_excluded [⟨1, 1, 2, true, none⟩] [⟨2, 2, 1, true, none⟩]
    ⟨7, 3, 3, true, none⟩ rfl

/-- C9: Canonical order.  Every pair emitted by `match_student_pairs` is the
sorted tuple of the matched edge's ids, so its smaller id comes first
whichever side of the bipartite graph each request was on. -/
theorem C9_pairs_sorted_order (students : List SRec) :
    ∀ out, match_student_pairs students = some out →
      ∀ p ∈ out, p.1 ≤ p.2 := by
  intro out h
  exact mspLoop_sorted (buildSwaps students)
    ((buildSwaps students).map Prod.fst) [] [] (by simp) out h

/-- Witness for C9 at a concrete input. -/
theorem C9_pairs_sorted_order_witness :
    match_student_pairs [⟨1, 1, 2, true, none⟩, ⟨2, 2, 1, true, none⟩] =
      some [(1, 2)] ∧ (1 : Nat) ≤ 2 :=
  ⟨by decide,
    C9_pairs_sorted_order [⟨1, 1, 2, true, none⟩, ⟨2, 2, 1, true, none⟩]
      [(1, 2)] (by decide) (1, 2) (by decide)⟩

/-- C10 (implicit): for inputs with pairwise-distinct ids, if some flexible
request goes `A→B` and some flexible request goes `B→A` for groups `A ≠ B`,
then the run completes and its output joins at least one `A→B` request to a
`B→A` request. -/
theorem C10_mutual_flexible_pair (students : List SRec)
    (hnd : (students.map SRec.sid).Nodup) (A B : Nat) (ra rb : SRec)
    (hra : ra ∈ students) (hrb : rb ∈ students)
    (hrac : ra.cur = A) (hrad : ra.des = B) (hraf : ra.flex = true)
    (hrbc : rb.cur = B) (hrbd : rb.des = A) (hrbf : rb.flex = true)
    (hAB : A ≠ B) :
    ∃ out, match_student_pairs students = some out ∧
      ∃ p ∈ out, joinsPair students A B p := by
  obtain ⟨UA, hUA, hraU⟩ :=
    (buildSwaps_spec students).2.2 ra hra (by rw [hrac, hrad]; exact hAB)
  obtain ⟨VB, hVB, hrbV⟩ :=
    (buildSwaps_spec students).2.2 rb hrb (by rw [hrbc, hrbd]; exact hAB.symm)
  rw [hrac, hrad] at hUA
  rw [hrbc, hrbd] at hVB
  obtain ⟨out, hout⟩ := mspLoop_total
    (fun k l hl => buildSwaps_bucket_nodup students hnd hl)
    ((buildSwaps students).map Prod.fst) [] []
  refine ⟨out, hout, ?_⟩
  refine mspLoop_hits students hnd A B ra rb hUA hVB hraU hrbV hraf hrbf
    ((buildSwaps students).map Prod.fst) [] [] ?_ (by simp) (by simp) out hout
  left
  by_contra hc
  have hnone := (alookup_eq_none_iff (buildSwaps students) (A, B)).mpr hc
  rw [hUA] at hnone
  exact Option.noConfusion hnone

/-- Witness for C10 at a concrete input. -/
theorem C10_mutual_flexible_pair_witness :
    ∃ out, match_student_pairs [⟨1, 1, 2, true, none⟩, ⟨2, 2, 1, true, none⟩] =
        some out ∧
      ∃ p ∈ out, joinsPair [⟨1, 1, 2, true, none⟩, ⟨2, 2, 1, true, none⟩] 1 2 p :=
  C10_mutual_flexible_pair [⟨1, 1, 2, true, none⟩, ⟨2, 2, 1, true, none⟩]
    (by decide) 1 2 ⟨1, 1, 2, true, none⟩ ⟨2, 2, 1, true, none⟩
    (by decide) (by decide) rfl rfl rfl rfl rfl rfl (by decide)

/-- C2 (amended): the code performs no validation, so a run containing a
non-flexible request with an absent teammate id does not fail; instead — for
inputs with pairwise-distinct ids — the run completes and that request's id
simply never appears in any output pair (its eligibility test can never
pass). -/
theorem C2_invalid_request_no_error (students : List SRec)
    (hnd : (students.map SRec.sid).Nodup) (r : SRec) (hr : r ∈ students)
    (hflex : r.flex = false) (hmate : r.mate = none) :
    ∃ out, match_student_pairs students = some out ∧ r.sid ∉ pairIds out := by
  obtain ⟨out, hout⟩ := mspLoop_total
    (fun k l hl => buildSwaps_bucket_nodup students hnd hl)
    ((buildSwaps students).map Prod.fst) [] []
  refine ⟨out, hout, ?_⟩
  intro hmem
  obtain ⟨p, hp, hip⟩ := mem_pairIds.mp hmem
  obtain ⟨a, b, ha, hb, has, hbs, -, -, -, -, -, hk1, hk2⟩ :=
    pairSpec_resolve ((msp_sound students hnd out hout).1 p hp)
  rcases hip with he | he
  · have hra : r = a := List.inj_on_of_nodup_map hnd hr ha (by rw [has, ← he])
    have hcontra := hk1 (by rw [← hra]; exact hflex)
    rw [← hra, hmate] at hcontra
    exact Option.noConfusion hcontra
  · have hrb : r = b := List.inj_on_of_nodup_map hnd hr hb (by rw [hbs, ← he])
    have hcontra := hk2 (by rw [← hrb]; exact hflex)
    rw [← hrb, hmate] at hcontra
    exact Option.noConfusion hcontra

/-- Witness for the amended C2 at the spec's Scenario 5 input. -/
theorem C2_invalid_request_no_error_witness :
    ∃ out, match_student_pairs [⟨8, 1, 2, false, none⟩] = some out ∧
      (8 : Nat) ∉ pairIds out :=
  C2_invalid_request_no_error [⟨8, 1, 2, false, none⟩] (by decide)
    ⟨8, 1, 2, false, none⟩ (by decide) rfl rfl

end Matching
